import Mathlib

/-!
A shallow embedding of the link-validation pipeline of obsidian-lint
(packages `model`, `parser`, `index`, `resolver`, `scanner`, `validator`,
`formatter` and `main`).

Go strings are modelled as lists of Unicode code points (`Str`); a literal is
written `"abc".toList`.  The library functions the program applies to strings
(`strings.TrimSuffix`, `strings.Split`, `strings.SplitN`, the regular
expression) only ever look for ASCII characters, so on well-formed UTF-8 text
the code-point view and the byte view agree.  The case tables of package
`unicode` are a parameter, `lowerTable`, and so is the YAML decoder,
`unmarshal`.  Go maps are association lists with
replace-in-place update.  The file system and the interfaces of the program
(`Scanner`, `Parser`, `Builder`, `Resolver`) are explicit values passed to the
functions that use them; a function returning `(T, error)` returns
`Except GoError T`.  Of the library, `sort.Strings`, `strconv.Itoa` and
`json.MarshalIndent` (at the one type the program encodes) are modelled by
their results.  The JSON encoder tells a nil map from an empty one, a nil slice
from an empty one and valid UTF-8 from other bytes, so it reads the result as
a value of the finer type `json.ValidationResult`.
-/

namespace ObsidianLint

/-- A Go `string`: a sequence of Unicode code points. -/
abbrev Str := List Char

/-! ## Library functions of package `strings` and `unicode` -/

namespace strings

/-- Go `strings.HasSuffix(s, suffix)`:
`len(s) >= len(suffix) && s[len(s)-len(suffix):] == suffix`. -/
def HasSuffix (s suffix : Str) : Bool :=
  decide (suffix.length ≤ s.length) && decide (s.drop (s.length - suffix.length) = suffix)

/-- Go `strings.TrimSuffix(s, suffix)`: `s` without the trailing `suffix`
when `s` ends with it, and `s` unchanged otherwise. -/
def TrimSuffix (s suffix : Str) : Str :=
  if HasSuffix s suffix then s.take (s.length - suffix.length) else s

/-- Go `unicode.ToLower(r)`: for `r <= MaxASCII` the letters `A`..`Z` are
shifted by `'a' - 'A'` and every other rune is returned unchanged; a rune above
ASCII is looked up in the case tables of the library, which are the parameter
`lowerTable`. -/
def toLowerRune (lowerTable : Char → Char) (r : Char) : Char :=
  if r.toNat ≤ 0x7F then
    (if 'A'.toNat ≤ r.toNat ∧ r.toNat ≤ 'Z'.toNat then Char.ofNat (r.toNat + ('a'.toNat - 'A'.toNat)) else r)
  else lowerTable r

/-- Go `strings.ToLower(s)`: every rune of `s` mapped by `unicode.ToLower`. -/
def ToLower (lowerTable : Char → Char) (s : Str) : Str :=
  s.map (toLowerRune lowerTable)

/-- Go `strings.HasPrefix(s, p)`: `len(s) >= len(p) && s[:len(p)] == p`. -/
def HasPrefix (s p : Str) : Bool :=
  decide (p.length ≤ s.length) && decide (s.take p.length = p)

/-- Go `strings.Split(s, sep)` for a separator of one character: the pieces of
`s` between the occurrences of `sep` (one piece more than occurrences). -/
def Split (sep : Char) : Str → List Str
  | [] => [[]]
  | c :: t =>
      if c = sep then [] :: Split sep t
      else
        match Split sep t with
        | [] => [[c]]
        | piece :: pieces => (c :: piece) :: pieces

/-- Go `strings.SplitN(s, sep, 2)` for a separator of one character: `[s]`
when `sep` does not occur in `s`, and otherwise the text before the first
`sep` and the text after it. -/
def SplitN2 (s : Str) (sep : Char) : List Str :=
  match s.dropWhile (fun c => c != sep) with
  | [] => [s]
  | _ :: after => [s.takeWhile (fun c => c != sep), after]

/-- Go `unicode.IsSpace(r)`: in Latin-1 the runes tab, newline, vertical tab,
form feed, carriage return, space, U+0085 and U+00A0; above Latin-1 the runes
of the `White_Space` table. -/
def isSpace (r : Char) : Bool :=
  let n := r.toNat
  if n ≤ 0xFF then
    n = 0x09 || n = 0x0A || n = 0x0B || n = 0x0C || n = 0x0D || n = 0x20 || n = 0x85 || n = 0xA0
  else
    n = 0x1680 || (0x2000 ≤ n && n ≤ 0x200A) || n = 0x2028 || n = 0x2029 || n = 0x202F
      || n = 0x205F || n = 0x3000

/-- Go `strings.TrimSpace(s)`: `s` without leading and trailing white space. -/
def TrimSpace (s : Str) : Str :=
  ((s.dropWhile isSpace).reverse.dropWhile isSpace).reverse

/-- The cut that Go `strings.Index(s, sep)` defines for a non-empty `sep`: the
text before the first occurrence of `sep` in `s` and the text after that
occurrence, or `none` when `sep` does not occur in `s`. -/
def cutFirst (sep : Str) : Str → Option (Str × Str)
  | [] => none
  | c :: t =>
      if HasPrefix (c :: t) sep then some ([], (c :: t).drop sep.length)
      else
        match cutFirst sep t with
        | some (before, after) => some (c :: before, after)
        | none => none

/-- Go `strings.SplitN(s, sep, 2)` for a non-empty separator `sep`: `[s]` when
`sep` does not occur in `s`, and otherwise the text before the first occurrence
and the text after it. -/
def SplitN2Sep (s sep : Str) : List Str :=
  match cutFirst sep s with
  | none => [s]
  | some (before, after) => [before, after]

/-- A text without leading and without trailing white space (the empty text
included). -/
def isTrimmed (s : Str) : Bool :=
  (match s.head? with
    | some c => !isSpace c
    | none => true) &&
  (match s.getLast? with
    | some c => !isSpace c
    | none => true)

end strings

/-! ## Errors and the file system -/

/-- A Go `error` value: a base error or an error wrapped with a message
(`errors.Wrap(ctx, err, msg)`). -/
inductive GoError where
  | base (msg : String)
  | wrap (cause : GoError) (msg : String)
deriving DecidableEq, Repr

deriving instance DecidableEq for Except

/-- One invocation of the callback of `filepath.WalkDir`: the path, whether the
entry is a directory, and the error the walk reports for it, if any. -/
structure WalkEntry where
  path : Str
  isDir : Bool
  err : Option GoError
deriving DecidableEq, Repr

/-- The file system as the program sees it.  `walk root` is the sequence of
callback invocations `filepath.WalkDir(root, fn)` makes as long as `fn` returns
nil (the root itself, then every entry below it, in lexical order);
`readFile` is `os.ReadFile`. -/
structure FileSystem where
  walk : Str → List WalkEntry
  readFile : Str → Except GoError Str

namespace filepath

/-- The loop of `filepath.WalkDir` over the callback invocations: the state
captured by the callback is threaded through, and the first error returned by
the callback stops the walk and is the result (the callbacks of this program
never return `SkipDir` or `SkipAll`). -/
def walkFold {σ : Type} (fn : σ → WalkEntry → Except GoError σ) :
    List WalkEntry → σ → Except GoError σ
  | [], s => .ok s
  | e :: rest, s =>
      match fn s e with
      | .error err => .error err
      | .ok s' => walkFold fn rest s'

/-- Go `filepath.WalkDir(root, fn)` on the file system `fs`. -/
def WalkDir {σ : Type} (fs : FileSystem) (root : Str)
    (fn : σ → WalkEntry → Except GoError σ) (init : σ) : Except GoError σ :=
  walkFold fn (fs.walk root) init

/-- Go `filepath.Base(path)` (separator `/`): the last element of the path,
trailing separators removed first; `.` for the empty path and `/` for a path
of separators only. -/
def Base (path : Str) : Str :=
  if path = [] then ".".toList
  else
    let stripped := (path.reverse.dropWhile (fun c => c == '/')).reverse
    let last := (stripped.reverse.takeWhile (fun c => c != '/')).reverse
    if last = [] then "/".toList else last

/-- The loop of `filepath.Ext` over the path read from its end: the text
collected so far is `acc`; a separator ends the search without an extension and
a dot ends it with the extension that starts at that dot. -/
def extFrom : Str → Str → Str
  | [], _ => []
  | c :: t, acc =>
      if c = '/' then []
      else if c = '.' then '.' :: acc
      else extFrom t (c :: acc)

/-- Go `filepath.Ext(path)` (separator `/`): the suffix that starts at the
final dot of the last element of the path, empty when there is no dot. -/
def Ext (path : Str) : Str := extFrom path.reverse []

end filepath

/-! ## Go maps with string keys -/

/-- A Go `map[string]V`: an association list; a key is looked up by its first
entry and an assignment replaces that entry in place or appends a new one. -/
structure GoMap (V : Type) where
  entries : List (Str × V)
deriving DecidableEq, Repr

namespace GoMap

/-- The result of `make(map[string]V)`. -/
def empty {V : Type} : GoMap V := ⟨[]⟩

/-- Lookup in an entry list. -/
def lookupEntries {V : Type} : List (Str × V) → Str → Option V
  | [], _ => none
  | (k', v) :: rest, k => if k' = k then some v else lookupEntries rest k

/-- Assignment in an entry list. -/
def setEntries {V : Type} : List (Str × V) → Str → V → List (Str × V)
  | [], k, v => [(k, v)]
  | (k', v') :: rest, k, v =>
      if k' = k then (k', v) :: rest else (k', v') :: setEntries rest k v

/-- The two-valued index expression `v, ok := m[k]`. -/
def lookup {V : Type} (m : GoMap V) (k : Str) : Option V := lookupEntries m.entries k

/-- The `ok` of `_, ok := m[k]`: whether `k` is a key of `m`. -/
def hasKey {V : Type} (m : GoMap V) (k : Str) : Bool := (m.lookup k).isSome

/-- The assignment `m[k] = v`. -/
def set {V : Type} (m : GoMap V) (k : Str) (v : V) : GoMap V := ⟨setEntries m.entries k v⟩

/-- The keys of the map. -/
def keys {V : Type} (m : GoMap V) : List Str := m.entries.map Prod.fst

/-- Go `len(m)`. -/
def len {V : Type} (m : GoMap V) : Nat := m.entries.length

/-- The one-valued index expression `m[k]` of a map of slices: the slice
stored under `k`, or the nil slice when `k` is not a key. -/
def index {V : Type} (m : GoMap (List V)) (k : Str) : List V := (m.lookup k).getD []

end GoMap

/-! ## Package `model` -/

namespace model

/-- Go `model.Link`: a wiki link found in a markdown file. -/
structure Link where
  Raw : Str
  Target : Str
  Heading : Str
  Alias : Str
  IsEmbed : Bool
  Line : Nat
deriving DecidableEq, Repr

/-- Go `model.BrokenLink`: a broken link in the output. -/
structure BrokenLink where
  Link : Str
  Line : Nat
deriving DecidableEq, Repr

/-- Go `model.ValidationResult`: all broken links grouped by file. -/
structure ValidationResult where
  BrokenLinks : GoMap (List BrokenLink)
deriving DecidableEq, Repr

end model

/-! ## Package `index`: the vault index and its queries -/

namespace index

/-- Go `index.normalizeTarget`: remove the `.md` extension if present, then
convert to lowercase. -/
def normalizeTarget (lowerTable : Char → Char) (target : Str) : Str :=
  strings.ToLower lowerTable (strings.TrimSuffix target ".md".toList)

/-- Go `index.VaultIndex`: normalized file and alias mappings. -/
structure VaultIndex where
  files : GoMap Str
  aliases : GoMap Str
deriving DecidableEq, Repr

/-- Go `(*VaultIndex).Resolve`: files are checked first, then aliases. -/
def VaultIndex.Resolve (lowerTable : Char → Char) (v : VaultIndex) (target : Str) : Bool :=
  let normalized := normalizeTarget lowerTable target
  if v.files.hasKey normalized then true
  else if v.aliases.hasKey normalized then true
  else false

end index

/-! ## Package `resolver` -/

namespace resolver

/-- Go interface `resolver.Resolver`. -/
structure Resolver where
  Resolve : model.Link → index.VaultIndex → Bool

/-- Go `(*resolver).Resolve`: only the target is checked against the index. -/
def Resolve (lowerTable : Char → Char) (link : model.Link) (idx : index.VaultIndex) : Bool :=
  idx.Resolve lowerTable link.Target

/-- Go `resolver.New`: the resolver of the program. -/
def New (lowerTable : Char → Char) : Resolver :=
  { Resolve := Resolve lowerTable }

end resolver

/-! ## Package `parser`: reference extraction -/

namespace parser

/-- Go interface `parser.Parser`. -/
structure Parser where
  ParseFile : Str → Except GoError (List model.Link)
  ParseAliases : Str → Except GoError (List Str)

/-- The part `\[\[([^\]]+)\]\]` of `linkRegex`, anchored at the start of `s`:
two opening brackets, the longest run of characters other than `]` (which must
not be empty), two closing brackets.  The result is the run (group 2) and the
text after the match.  The run is followed by `]` or by the end of the text,
so no shorter run can be followed by the closing brackets. -/
def matchBrackets (s : Str) : Option (Str × Str) :=
  match s with
  | c1 :: c2 :: t =>
      if c1 = '[' ∧ c2 = '[' then
        let inner := t.takeWhile (fun c => c != ']')
        match t.dropWhile (fun c => c != ']') with
        | d1 :: d2 :: rest =>
            if inner ≠ [] ∧ d1 = ']' ∧ d2 = ']' then some (inner, rest) else none
        | _ => none
      else none
  | _ => none

/-- The whole `linkRegex`, `(!?\[\[([^\]]+)\]\])`, anchored at the start of
`s`: the matched text (group 1) and group 2.  A text starting with `!` can only
match with the `!` taken, since without it the match has to start with `[`. -/
def matchLinkAt (s : Str) : Option (Str × Str) :=
  match s with
  | [] => none
  | c :: t =>
      if c = '!' then
        match matchBrackets t with
        | some (inner, _) => some ('!' :: '[' :: '[' :: (inner ++ "]]".toList), inner)
        | none => none
      else
        match matchBrackets (c :: t) with
        | some (inner, _) => some ('[' :: '[' :: (inner ++ "]]".toList), inner)
        | none => none

/-- The leftmost, non-overlapping matches of `linkRegex` in the rest of a line,
each as the slice `[match, group 1, group 2]`; `skip` counts the characters
still covered by the previous match, where no new match may start. -/
def findAllFrom : Nat → Str → List (List Str)
  | _, [] => []
  | skip + 1, _ :: t => findAllFrom skip t
  | 0, c :: t =>
      match matchLinkAt (c :: t) with
      | some (raw, inner) => [raw, raw, inner] :: findAllFrom (raw.length - 1) t
      | none => findAllFrom 0 t

/-- Go `p.linkRegex.FindAllStringSubmatch(line, -1)`. -/
def FindAllStringSubmatch (line : Str) : List (List Str) := findAllFrom 0 line

/-- Go `(*parser).parseLink`: a single link parsed into its components. -/
def parseLink (raw inner : Str) (isEmbed : Bool) (lineNum : Nat) : model.Link :=
  let parts := strings.SplitN2 inner '|'
  let targetPart := parts.getD 0 []
  let aliasText := if parts.length > 1 then parts.getD 1 [] else []
  let targetParts := strings.SplitN2 targetPart '#'
  let target := strings.TrimSpace (targetParts.getD 0 [])
  let heading := if targetParts.length > 1 then strings.TrimSpace (targetParts.getD 1 []) else []
  { Raw := raw, Target := target, Heading := heading, Alias := aliasText,
    IsEmbed := isEmbed, Line := lineNum }

/-- The inner loop of `parseContent`: the links of the matches of one line. -/
def parseMatches (lineNum : Nat) : List (List Str) → List model.Link
  | [] => []
  | m :: rest =>
      if m.length < 3 then parseMatches lineNum rest
      else
        let raw := m.getD 1 []
        let inner := m.getD 2 []
        let isEmbed := strings.HasPrefix raw "!".toList
        parseLink raw inner isEmbed (lineNum + 1) :: parseMatches lineNum rest

/-- The outer loop of `parseContent` over the lines, `lineNum` being the index
of the first of them. -/
def parseLines : Nat → List Str → List model.Link
  | _, [] => []
  | lineNum, line :: rest =>
      parseMatches lineNum (FindAllStringSubmatch line) ++ parseLines (lineNum + 1) rest

/-- Go `(*parser).parseContent`: the links of a markdown text. -/
def parseContent (content : Str) : List model.Link :=
  parseLines 0 (strings.Split '\n' content)

/-- Go `(*parser).ParseFile`: the links of a markdown file. -/
def ParseFile (fs : FileSystem) (filePath : Str) : Except GoError (List model.Link) :=
  match fs.readFile filePath with
  | .error err => .error (.wrap err "read file failed")
  | .ok content => .ok (parseContent content)

/-- The value of the field `data.Aliases`, of type `interface{}`, as far as the
type switch of `ParseAliases` tells values apart: nil (the key is absent or
null), a `string`, a `[]interface{}` whose elements are strings (`some`) or
values of another type (`none`), or a value of any other type (a number, a
boolean, a mapping). -/
inductive Dynamic where
  | isNil
  | isString (v : Str)
  | isSlice (v : List (Option Str))
  | isOther
deriving DecidableEq, Repr

/-- Go `extractFrontmatter`: the YAML front matter between `---` markers. -/
def extractFrontmatter (content : Str) : Str :=
  if !strings.HasPrefix content "---\n".toList then []
  else
    let parts := strings.SplitN2Sep (content.drop 4) "\n---\n".toList
    if parts.length < 2 then [] else parts.getD 0 []

/-- The loop `for _, item := range v` of `ParseAliases`: the elements that are
strings are appended to `aliases`. -/
def appendStrings : List (Option Str) → List Str → List Str
  | [], aliases => aliases
  | item :: rest, aliases =>
      match item with
      | some str => appendStrings rest (aliases ++ [str])
      | none => appendStrings rest aliases

/-- Go `(*parser).ParseAliases`: the aliases of the YAML front matter.  The
parameter `unmarshal` is `yaml.Unmarshal` into the struct with the one field
`Aliases`: its error, or the value it leaves in that field. -/
def ParseAliases (unmarshal : Str → Except GoError Dynamic) (content : Str) :
    Except GoError (List Str) :=
  let frontmatter := extractFrontmatter content
  if frontmatter = [] then .ok []
  else
    match unmarshal frontmatter with
    | .error _ => .ok []
    | .ok .isNil => .ok []
    | .ok (.isString v) => .ok [v]
    | .ok (.isSlice v) => .ok (appendStrings v [])
    | .ok .isOther => .ok []

/-- The aliases the specification gives for the decoded value of the key
`aliases`: the value itself when it is a single string, its string elements in
list order when it is a list, and none when the key is absent or null or the
value has another shape. -/
def aliasesOfValue : Dynamic → List Str
  | .isNil => []
  | .isString str => [str]
  | .isSlice items => items.filterMap id
  | .isOther => []

/-- Go `parser.New`: the parser of the program, on the file system `fs` and
with the YAML decoder `unmarshal`. -/
def New (unmarshal : Str → Except GoError Dynamic) (fs : FileSystem) : Parser :=
  { ParseFile := ParseFile fs, ParseAliases := ParseAliases unmarshal }

/-- The order the specification gives to the links of one line: the texts
`raws` occur in `line` one after the other, from left to right and without
overlap. -/
def OccursInOrder : List Str → Str → Prop
  | [], _ => True
  | raw :: rest, line => ∃ before after, line = before ++ raw ++ after ∧ OccursInOrder rest after

/-- The part `("#" + H)?` of a synthesized occurrence. -/
def headingPart : Option Str → Str
  | some h => '#' :: h
  | none => []

/-- The part `("|" + A)?` of a synthesized occurrence. -/
def aliasPart : Option Str → Str
  | some a => '|' :: a
  | none => []

/-- The occurrence the specification synthesizes from a target `T`, an
optional heading `H`, an optional display alias `A` and an embed flag `E`:
`(E ? "!" : "") + "[[" + T + ("#" + H)? + ("|" + A)? + "]]"`. -/
def synthesize (T : Str) (H A : Option Str) (E : Bool) : Str :=
  (if E then "!".toList else []) ++ "[[".toList ++ T ++ headingPart H ++ aliasPart A
    ++ "]]".toList

end parser

/-! ## Package `index`: building the index -/

namespace index

/-- The callback given to `filepath.WalkDir` by `Build`; the state is the
`files` mapping of the index under construction. -/
def indexEntry (lowerTable : Char → Char) (files : GoMap Str) (e : WalkEntry) :
    Except GoError (GoMap Str) :=
  match e.err with
  | some err => .error err
  | none =>
      if e.isDir then .ok files
      else
        let baseName := filepath.Base e.path
        let normalized := normalizeTarget lowerTable baseName
        .ok (files.set normalized e.path)

/-- The loop `for _, alias := range aliases` of `Build`. -/
def indexAliases (lowerTable : Char → Char) (file : Str) : List Str → GoMap Str → GoMap Str
  | [], aliases => aliases
  | declared :: rest, aliases =>
      indexAliases lowerTable file rest (aliases.set (normalizeTarget lowerTable declared) file)

/-- The loop `for _, file := range files` of `Build`; the state is the
`aliases` mapping of the index under construction. -/
def indexFiles (lowerTable : Char → Char) (fs : FileSystem) (p : parser.Parser) :
    List Str → GoMap Str → Except GoError (GoMap Str)
  | [], aliases => .ok aliases
  | file :: rest, aliases =>
      match fs.readFile file with
      | .error err => .error (.wrap err "read file failed")
      | .ok content =>
          match p.ParseAliases content with
          | .error err => .error (.wrap err "parse aliases failed")
          | .ok declared =>
              indexFiles lowerTable fs p rest (indexAliases lowerTable file declared aliases)

/-- Go `(*indexBuilder).Build`: a `VaultIndex` from all files in the vault and
the aliases of the markdown files. -/
def Build (lowerTable : Char → Char) (fs : FileSystem) (p : parser.Parser)
    (vaultPath : Str) (files : List Str) : Except GoError VaultIndex :=
  match filepath.WalkDir fs vaultPath (indexEntry lowerTable) GoMap.empty with
  | .error err => .error (.wrap err "walk vault failed")
  | .ok indexed =>
      match indexFiles lowerTable fs p files GoMap.empty with
      | .error err => .error err
      | .ok aliases => .ok { files := indexed, aliases := aliases }

/-- Go interface `index.Builder`. -/
structure Builder where
  Build : Str → List Str → Except GoError VaultIndex

/-- Go `index.New`: the index builder of the program, with the parser `p`. -/
def New (lowerTable : Char → Char) (fs : FileSystem) (p : parser.Parser) : Builder :=
  { Build := Build lowerTable fs p }

end index

/-! ## Package `scanner` -/

namespace scanner

/-- Go interface `scanner.Scanner`. -/
structure Scanner where
  Scan : Str → Except GoError (List Str)

/-- The callback given to `filepath.WalkDir` by `Scan`; the state is the slice
`files`, and `ctxErr` is the value of `ctx.Err()`. -/
def scanEntry (ctxErr : Option GoError) (files : List Str) (e : WalkEntry) :
    Except GoError (List Str) :=
  match e.err with
  | some err => .error (.wrap err "walk error")
  | none =>
      match ctxErr with
      | some err => .error err
      | none =>
          if e.isDir then .ok files
          else if filepath.Ext e.path = ".md".toList then .ok (files ++ [e.path])
          else .ok files

/-- Go `(*scanner).Scan`: all `.md` files below the vault directory. -/
def Scan (ctxErr : Option GoError) (fs : FileSystem) (vaultPath : Str) :
    Except GoError (List Str) :=
  match filepath.WalkDir fs vaultPath (scanEntry ctxErr) [] with
  | .error err => .error (.wrap err "scan failed")
  | .ok files => .ok files

/-- Go `scanner.New`: the scanner of the program. -/
def New (ctxErr : Option GoError) (fs : FileSystem) : Scanner :=
  { Scan := Scan ctxErr fs }

end scanner

/-! ## Package `validator` -/

namespace validator

/-- The loop `for _, link := range links` of `Validate`. -/
def validateLinks (r : resolver.Resolver) (idx : index.VaultIndex) (file : Str) :
    List model.Link → GoMap (List model.BrokenLink) → GoMap (List model.BrokenLink)
  | [], broken => broken
  | link :: rest, broken =>
      if !r.Resolve link idx then
        validateLinks r idx file rest
          (broken.set file (broken.index file ++ [{ Link := link.Raw, Line := link.Line }]))
      else validateLinks r idx file rest broken

/-- The loop `for _, file := range files` of `Validate`. -/
def validateFiles (p : parser.Parser) (r : resolver.Resolver) (idx : index.VaultIndex) :
    List Str → GoMap (List model.BrokenLink) → Except GoError (GoMap (List model.BrokenLink))
  | [], broken => .ok broken
  | file :: rest, broken =>
      match p.ParseFile file with
      | .error err => .error (.wrap err "parse file failed")
      | .ok links => validateFiles p r idx rest (validateLinks r idx file links broken)

/-- Go `(*validator).Validate`: scan the vault and return the broken links. -/
def Validate (s : scanner.Scanner) (p : parser.Parser) (b : index.Builder)
    (r : resolver.Resolver) (vaultPath : Str) : Except GoError model.ValidationResult :=
  match s.Scan vaultPath with
  | .error err => .error (.wrap err "scan failed")
  | .ok files =>
      match b.Build vaultPath files with
      | .error err => .error (.wrap err "build index failed")
      | .ok idx =>
          match validateFiles p r idx files GoMap.empty with
          | .error err => .error err
          | .ok broken => .ok { BrokenLinks := broken }

/-- The defect list the specification describes for one document: the records
`(Link = l.Raw, Line = l.Line)` of the links `l` for which the resolver
returns false, in the order of `links`. -/
def unresolvedRecords (r : resolver.Resolver) (idx : index.VaultIndex) (links : List model.Link) :
    List model.BrokenLink :=
  (links.filter (fun l => !r.Resolve l idx)).map (fun l => { Link := l.Raw, Line := l.Line })

/-- The invariant of the result mapping: no key holds an empty slice. -/
def NoEmptyList (m : GoMap (List model.BrokenLink)) : Prop :=
  ∀ k v, m.lookup k = some v → v ≠ []

end validator

/-! ## Library functions of packages `sort` and `strconv` -/

namespace sort

/-- Go `a < b` on strings: the order of the bytes, which for texts of Unicode
code points is the lexicographic order of the code points. -/
def less : Str → Str → Bool
  | [], [] => false
  | [], _ :: _ => true
  | _ :: _, [] => false
  | a :: s, b :: t =>
      if a.toNat < b.toNat then true
      else if b.toNat < a.toNat then false
      else less s t

/-- The order `a <= b` on strings, as `!(b < a)`. -/
def le (a b : Str) : Prop := less b a = false

instance le.decidable (a b : Str) : Decidable (le a b) := by
  unfold le
  infer_instance

/-- Go `sort.Strings(x)`, as the result on a copy: the strings in increasing
order.  The order is total and equal strings are the same string, so every
sorting algorithm returns this list. -/
def Strings (x : List Str) : List Str := x.insertionSort le

end sort

namespace strconv

/-- Go `strconv.Itoa(n)` for `n >= 0`, the verb `%d` of `fmt`: the decimal
digits of `n`. -/
def Itoa (n : Nat) : Str := Nat.toDigits 10 n

end strconv

/-! ## Package `formatter` -/

namespace formatter

/-- Go interface `formatter.Formatter`. -/
structure Formatter where
  Format : model.ValidationResult → Except GoError Str

namespace textFormatter

/-- The loop `for _, link := range links` of the text formatter; `sb` is the
text written to the builder so far. -/
def writeLinks : List model.BrokenLink → Str → Str
  | [], sb => sb
  | link :: rest, sb =>
      writeLinks rest
        (sb ++ ("  Line ".toList ++ strconv.Itoa link.Line ++ ": ".toList ++ link.Link
          ++ "\n".toList))

/-- The loop `for _, file := range files` of the text formatter. -/
def writeFiles (brokenLinks : GoMap (List model.BrokenLink)) : List Str → Str → Str
  | [], sb => sb
  | file :: rest, sb =>
      let links := brokenLinks.index file
      writeFiles brokenLinks rest
        (writeLinks links (sb ++ file ++ ":\n".toList) ++ "\n".toList)

/-- Go `(*textFormatter).Format`: broken links in human-readable format.  The
keys collected by `for file := range result.BrokenLinks` are
`result.BrokenLinks.keys`, in the order the map happens to yield them. -/
def Format (result : model.ValidationResult) : Except GoError Str :=
  if result.BrokenLinks.len = 0 then .ok "No broken links found.\n".toList
  else
    let sb := "Broken links found in vault:\n\n".toList
    let files := sort.Strings result.BrokenLinks.keys
    .ok (writeFiles result.BrokenLinks files sb)

end textFormatter

/-- Go `formatter.NewTextFormatter`. -/
def NewTextFormatter : Formatter := { Format := textFormatter.Format }

/-- The line of the text report the specification gives for one defect:
`Line N: raw-text`, indented by two spaces. -/
def defectLine (b : model.BrokenLink) : Str :=
  "  Line ".toList ++ strconv.Itoa b.Line ++ ": ".toList ++ b.Link ++ "\n".toList

/-- The section of the text report the specification gives for one file key:
the path and a colon, one line per defect of the file in the order of its
defect list, and a blank line. -/
def fileSection (brokenLinks : GoMap (List model.BrokenLink)) (file : Str) : Str :=
  file ++ ":\n".toList ++ ((brokenLinks.index file).map defectLine).flatten ++ "\n".toList

end formatter

/-! ## Library function `json.MarshalIndent` of package `encoding/json` -/

namespace json

/-- The table `hex` of `encoding/json`. -/
def hex (n : Nat) : Char := "0123456789abcdef".toList.getD n '0'

/-- The table `htmlSafeSet` of `encoding/json`: the ASCII characters written
to a JSON string as they are, which are the printable ones and DEL without the
double quote, the backslash, `<`, `>` and `&`. -/
def htmlSafe (c : Char) : Bool :=
  decide (0x20 ≤ c.toNat) && decide (c.toNat < 0x80) && c.toNat != 0x22 && c.toNat != 0x5c
    && c.toNat != 0x3c && c.toNat != 0x3e && c.toNat != 0x26

/-- What `appendString` of `encoding/json` (with HTML escaping, the default of
`Marshal`) writes for one code point of the string. -/
def escape (c : Char) : Str :=
  if c.toNat < 0x80 then
    if htmlSafe c then [c]
    else if c.toNat = 0x5c ∨ c.toNat = 0x22 then [Char.ofNat 0x5c, c]
    else if c.toNat = 0x08 then [Char.ofNat 0x5c, 'b']
    else if c.toNat = 0x0c then [Char.ofNat 0x5c, 'f']
    else if c.toNat = 0x0a then [Char.ofNat 0x5c, 'n']
    else if c.toNat = 0x0d then [Char.ofNat 0x5c, 'r']
    else if c.toNat = 0x09 then [Char.ofNat 0x5c, 't']
    else [Char.ofNat 0x5c, 'u', '0', '0', hex (c.toNat / 16), hex (c.toNat % 16)]
  else if c.toNat = 0x2028 ∨ c.toNat = 0x2029 then
    [Char.ofNat 0x5c, 'u', '2', '0', '2', hex (c.toNat % 16)]
  else [c]

/-- A step of the loop of `appendString` over a Go string, which is a sequence
of bytes: a code point encoded in valid UTF-8, or a single byte for which
`utf8.DecodeRuneInString` returns `RuneError` with size 1. -/
inductive Element where
  | rune (c : Char)
  | invalid (byte : Nat)
deriving DecidableEq, Repr

/-- A Go string as `encoding/json` reads it. -/
abbrev Text := List Element

/-- The Go string of a text of code points. -/
def Text.ofStr (s : Str) : Text := s.map Element.rune

/-- Whether the step is a code point in valid UTF-8. -/
def Element.isRune : Element → Bool
  | .rune _ => true
  | .invalid _ => false

/-- Whether the Go string is valid UTF-8. -/
def Text.valid (t : Text) : Bool := t.all Element.isRune

/-- The UTF-8 encoding of a code point. -/
def utf8 (c : Char) : List Nat :=
  if c.toNat < 0x80 then [c.toNat]
  else if c.toNat < 0x800 then [0xc0 + c.toNat / 64, 0x80 + c.toNat % 64]
  else if c.toNat < 0x10000 then
    [0xe0 + c.toNat / 4096, 0x80 + c.toNat / 64 % 64, 0x80 + c.toNat % 64]
  else
    [0xf0 + c.toNat / 262144, 0x80 + c.toNat / 4096 % 64, 0x80 + c.toNat / 64 % 64,
      0x80 + c.toNat % 64]

/-- The bytes of a Go string. -/
def Text.bytes (t : Text) : List Nat :=
  (t.map (fun e =>
    match e with
    | .rune c => utf8 c
    | .invalid b => [b])).flatten

/-- Go `strings.Compare(a, b) < 0` on the bytes of two strings. -/
def lessBytes : List Nat → List Nat → Bool
  | [], [] => false
  | [], _ :: _ => true
  | _ :: _, [] => false
  | a :: s, b :: t =>
      if a < b then true
      else if b < a then false
      else lessBytes s t

/-- The order `a <= b` of the keys, by their bytes. -/
def keyLe (a b : Text) : Prop := lessBytes b.bytes a.bytes = false

instance keyLe.decidable (a b : Text) : Decidable (keyLe a b) := by
  unfold keyLe
  infer_instance

/-- The keys of a map in the order in which `encoding/json` writes them:
sorted by `strings.Compare`. -/
def sortKeys (ks : List Text) : List Text := ks.insertionSort keyLe

/-- A Go value of type `model.BrokenLink`, its link text as a Go string. -/
structure BrokenLink where
  Link : Text
  Line : Nat
deriving DecidableEq, Repr

/-- A Go value of type `[]model.BrokenLink`: the nil slice, or a slice that is
not nil, with its elements (none for an empty slice). -/
inductive Slice where
  | isNil
  | items (l : List BrokenLink)
deriving DecidableEq, Repr

/-- A Go value of type `map[string][]model.BrokenLink`: the nil map, or a map
that is not nil, with its entries. -/
inductive Map where
  | isNil
  | entries (es : List (Text × Slice))
deriving DecidableEq, Repr

/-- Lookup in the entries of a map, by the first entry of the key. -/
def lookupEntry : List (Text × Slice) → Text → Option Slice
  | [], _ => none
  | (k2, v) :: rest, k => if k2 = k then some v else lookupEntry rest k

/-- Assignment in the entries of a map: the entry of the key is replaced, or a
new entry is added. -/
def setEntry : List (Text × Slice) → Text → Slice → List (Text × Slice)
  | [], k, v => [(k, v)]
  | (k2, v2) :: rest, k, v =>
      if k2 = k then (k2, v) :: rest else (k2, v2) :: setEntry rest k v

/-- The two-valued index expression `v, ok := m[k]`; a nil map has no key. -/
def Map.lookup : Map → Text → Option Slice
  | .isNil, _ => none
  | .entries es, k => lookupEntry es k

/-- The index expression `m[k]`: the nil slice when `k` is not a key. -/
def Map.index (m : Map) (k : Text) : Slice := (m.lookup k).getD .isNil

/-- The keys of a map. -/
def Map.keys : Map → List Text
  | .isNil => []
  | .entries es => es.map Prod.fst

/-- A Go value of type `model.ValidationResult` in the detail `encoding/json`
depends on: a nil map differs from an empty one, a nil slice from an empty
one, and a string may hold bytes that are not valid UTF-8. -/
structure ValidationResult where
  BrokenLinks : Map
deriving DecidableEq, Repr

/-- The Go slice a list of the result stands for: the nil slice for no
defects, as `append` builds it, and the defects otherwise. -/
def ofLinks : List model.BrokenLink → Slice
  | [] => .isNil
  | b :: rest =>
      .items ((b :: rest).map (fun d => { Link := Text.ofStr d.Link, Line := d.Line }))

/-- The Go value a result of `Validate` stands for: a map that is not nil
(`Validate` makes it), with texts of code points. -/
def ofResult (result : model.ValidationResult) : ValidationResult :=
  { BrokenLinks :=
      .entries (result.BrokenLinks.entries.map (fun e => (Text.ofStr e.1, ofLinks e.2))) }

/-- What `appendString` of `encoding/json` writes for one step over the
string: the code point, escaped if need be, or the escape `\ufffd` for a byte
that is not valid UTF-8. -/
def escapeElement : Element → Str
  | .rune c => escape c
  | .invalid _ => [Char.ofNat 0x5c, 'u', 'f', 'f', 'f', 'd']

/-- The function `appendString` of `encoding/json`: the JSON string for `src`,
between double quotes. -/
def appendString (src : Text) : Str :=
  [Char.ofNat 0x22] ++ (src.map escapeElement).flatten ++ [Char.ofNat 0x22]

/-- One record of type `model.BrokenLink` (fields tagged `link` and `line`) as
`MarshalIndent` writes it at nesting depth two. -/
def encodeLink (b : BrokenLink) : Str :=
  "    \x7b\n      \x22link\x22: ".toList ++ appendString b.Link
    ++ ",\n      \x22line\x22: ".toList ++ strconv.Itoa b.Line ++ "\n    \x7d".toList

/-- A slice of records as `MarshalIndent` writes it at nesting depth one:
`null` for the nil slice and `[]` for an empty slice that is not nil. -/
def encodeLinks : Slice → Str
  | .isNil => "null".toList
  | .items [] => "[]".toList
  | .items (b :: rest) =>
      "[\n".toList ++ encodeLink b
        ++ (rest.map (fun b2 => ",\n".toList ++ encodeLink b2)).flatten ++ "\n  ]".toList

/-- One key of the map with its value, as `MarshalIndent` writes it. -/
def encodeEntry (m : Map) (k : Text) : Str :=
  "  ".toList ++ appendString k ++ ": ".toList ++ encodeLinks (m.index k)

/-- Go `json.MarshalIndent(m, "", "  ")` for a value `m` of type
`map[string][]model.BrokenLink`: `null` for the nil map, the empty object for
an empty map, and otherwise the keys in increasing order, two spaces of
indentation for each level; no error for a value of this type. -/
def MarshalIndent (m : Map) : Except GoError Str :=
  match m with
  | .isNil => .ok "null".toList
  | .entries es =>
      match sortKeys (es.map Prod.fst) with
      | [] => .ok "\x7b\x7d".toList
      | k :: rest =>
          .ok ("\x7b\n".toList ++ encodeEntry m k
            ++ (rest.map (fun k2 => ",\n".toList ++ encodeEntry m k2)).flatten
            ++ "\n\x7d".toList)

end json

namespace formatter

namespace jsonFormatter

/-- Go `(*jsonFormatter).Format`: broken links in JSON format, grouped by
file. -/
def Format (result : json.ValidationResult) : Except GoError Str :=
  match json.MarshalIndent result.BrokenLinks with
  | .error err => .error (.wrap err "marshal json failed")
  | .ok bytes => .ok (bytes ++ "\n".toList)

end jsonFormatter

/-- Go `formatter.NewJSONFormatter`, applied to the Go value a result of
`Validate` stands for. -/
def NewJSONFormatter : Formatter :=
  { Format := fun result => jsonFormatter.Format (json.ofResult result) }

end formatter

/-! ## Decoding JSON, as the specification reads the structured output -/

namespace json

/-- The tokens of a JSON text, as far as the structured output needs them: the
six structural characters, strings, non-negative integers and the literal
names. -/
inductive Token where
  | lbrace
  | rbrace
  | lbrack
  | rbrack
  | colon
  | comma
  | str (s : Str)
  | num (n : Nat)
  | word (w : Str)
deriving DecidableEq, Repr

/-- Where the reader of the characters is: between tokens, inside a string
(the characters read so far, last one first), behind a backslash, inside the
four hexadecimal digits behind `\u` (how many were read, and their value),
inside a number, inside a literal name, or behind an error. -/
inductive Mode where
  | idle
  | inStr (acc : Str)
  | inEsc (acc : Str)
  | inHex (acc : Str) (count value : Nat)
  | inNum (n : Nat)
  | inWord (acc : Str)
  | failed
deriving DecidableEq, Repr

/-- The state of the reader of the characters: the tokens read so far, last
one first, and the mode. -/
structure Lexer where
  tokens : List Token
  mode : Mode
deriving DecidableEq, Repr

/-- The value of a hexadecimal digit. -/
def hexValue (c : Char) : Option Nat :=
  if '0'.toNat ≤ c.toNat ∧ c.toNat ≤ '9'.toNat then some (c.toNat - '0'.toNat)
  else if 'a'.toNat ≤ c.toNat ∧ c.toNat ≤ 'f'.toNat then some (c.toNat - 'a'.toNat + 10)
  else if 'A'.toNat ≤ c.toNat ∧ c.toNat ≤ 'F'.toNat then some (c.toNat - 'A'.toNat + 10)
  else none

/-- The value of a decimal digit. -/
def digitValue (c : Char) : Option Nat :=
  if '0'.toNat ≤ c.toNat ∧ c.toNat ≤ '9'.toNat then some (c.toNat - '0'.toNat) else none

/-- The reader between two tokens, at the character `c`. -/
def stepIdle (tokens : List Token) (c : Char) : Lexer :=
  if c = ' ' ∨ c = '\n' ∨ c = '\t' ∨ c = '\r' then { tokens := tokens, mode := .idle }
  else if c.toNat = 0x7b then { tokens := .lbrace :: tokens, mode := .idle }
  else if c.toNat = 0x7d then { tokens := .rbrace :: tokens, mode := .idle }
  else if c = '[' then { tokens := .lbrack :: tokens, mode := .idle }
  else if c = ']' then { tokens := .rbrack :: tokens, mode := .idle }
  else if c = ':' then { tokens := .colon :: tokens, mode := .idle }
  else if c = ',' then { tokens := .comma :: tokens, mode := .idle }
  else if c.toNat = 0x22 then { tokens := tokens, mode := .inStr [] }
  else
    match digitValue c with
    | some d => { tokens := tokens, mode := .inNum d }
    | none =>
        if 'a'.toNat ≤ c.toNat ∧ c.toNat ≤ 'z'.toNat then { tokens := tokens, mode := .inWord [c] }
        else { tokens := tokens, mode := .failed }

/-- The character an escape sequence of two characters stands for. -/
def escaped (c : Char) : Option Char :=
  if c.toNat = 0x22 then some (Char.ofNat 0x22)
  else if c.toNat = 0x5c then some (Char.ofNat 0x5c)
  else if c = '/' then some '/'
  else if c = 'b' then some (Char.ofNat 0x08)
  else if c = 'f' then some (Char.ofNat 0x0c)
  else if c = 'n' then some (Char.ofNat 0x0a)
  else if c = 'r' then some (Char.ofNat 0x0d)
  else if c = 't' then some (Char.ofNat 0x09)
  else none

/-- One step of the reader of the characters.  A number or a literal name ends
at the first character that cannot continue it; an escape `\uXXXX` stands for
the code point `XXXX`, which must not be a surrogate; a control character
inside a string is an error. -/
def step (l : Lexer) (c : Char) : Lexer :=
  match l.mode with
  | .idle => stepIdle l.tokens c
  | .inStr acc =>
      if c.toNat = 0x22 then { tokens := .str acc.reverse :: l.tokens, mode := .idle }
      else if c.toNat = 0x5c then { tokens := l.tokens, mode := .inEsc acc }
      else if c.toNat < 0x20 then { tokens := l.tokens, mode := .failed }
      else { tokens := l.tokens, mode := .inStr (c :: acc) }
  | .inEsc acc =>
      if c = 'u' then { tokens := l.tokens, mode := .inHex acc 0 0 }
      else
        match escaped c with
        | some e => { tokens := l.tokens, mode := .inStr (e :: acc) }
        | none => { tokens := l.tokens, mode := .failed }
  | .inHex acc count value =>
      match hexValue c with
      | none => { tokens := l.tokens, mode := .failed }
      | some d =>
          if count < 3 then { tokens := l.tokens, mode := .inHex acc (count + 1) (value * 16 + d) }
          else if 0xd800 ≤ value * 16 + d ∧ value * 16 + d < 0xe000 then
            { tokens := l.tokens, mode := .failed }
          else { tokens := l.tokens, mode := .inStr (Char.ofNat (value * 16 + d) :: acc) }
  | .inNum n =>
      match digitValue c with
      | some d => { tokens := l.tokens, mode := .inNum (n * 10 + d) }
      | none => stepIdle (.num n :: l.tokens) c
  | .inWord acc =>
      if 'a'.toNat ≤ c.toNat ∧ c.toNat ≤ 'z'.toNat then
        { tokens := l.tokens, mode := .inWord (c :: acc) }
      else stepIdle (.word acc.reverse :: l.tokens) c
  | .failed => l

/-- The tokens of a JSON text, or `none` when the text is not a sequence of
tokens. -/
def tokenize (text : Str) : Option (List Token) :=
  let l := text.foldl step { tokens := [], mode := .idle }
  match l.mode with
  | .idle => some l.tokens.reverse
  | .inNum n => some (.num n :: l.tokens).reverse
  | .inWord acc => some (.word acc.reverse :: l.tokens).reverse
  | _ => none

end json

namespace json

/-- Where the reader of the tokens is in a JSON text for a map of file path
to list of records with the fields `link` and `line`: the entries `es` decoded
so far, the key `k` whose value is being read, the records `acc` of that value
read so far, and the record `b` being read. -/
inductive Reader where
  | start
  | objOpen (es : List (Text × Slice))
  | objComma (es : List (Text × Slice))
  | key (es : List (Text × Slice)) (k : Text)
  | value (es : List (Text × Slice)) (k : Text)
  | arrOpen (es : List (Text × Slice)) (k : Text)
  | arrComma (es : List (Text × Slice)) (k : Text) (acc : List BrokenLink)
  | recOpen (es : List (Text × Slice)) (k : Text) (acc : List BrokenLink) (b : BrokenLink)
  | recComma (es : List (Text × Slice)) (k : Text) (acc : List BrokenLink) (b : BrokenLink)
  | fieldName (es : List (Text × Slice)) (k : Text) (acc : List BrokenLink) (b : BrokenLink)
      (name : Str)
  | fieldColon (es : List (Text × Slice)) (k : Text) (acc : List BrokenLink) (b : BrokenLink)
      (name : Str)
  | recValue (es : List (Text × Slice)) (k : Text) (acc : List BrokenLink) (b : BrokenLink)
  | arrItem (es : List (Text × Slice)) (k : Text) (acc : List BrokenLink)
  | entry (es : List (Text × Slice))
  | done (m : Map)
  | failed
deriving DecidableEq, Repr

/-- One step of the reader of the tokens, by the grammar of JSON and the rules
of `json.Unmarshal` for the type: `null` is the nil map, an object is a map of
keys with values, a value is `null` (the nil slice) or an array of records (a
slice that is not nil), a record is an object with the fields `link` (a
string) and `line` (a number); a field that is absent keeps the zero value. -/
def read : Reader → Token → Reader
  | .start, .word w => if w = "null".toList then .done .isNil else .failed
  | .start, .lbrace => .objOpen []
  | .objOpen es, .rbrace => .done (.entries es)
  | .objOpen es, .str k => .key es (Text.ofStr k)
  | .objComma es, .str k => .key es (Text.ofStr k)
  | .key es k, .colon => .value es k
  | .value es k, .lbrack => .arrOpen es k
  | .value es k, .word w => if w = "null".toList then .entry (setEntry es k .isNil) else .failed
  | .arrOpen es k, .rbrack => .entry (setEntry es k (.items []))
  | .arrOpen es k, .lbrace => .recOpen es k [] { Link := [], Line := 0 }
  | .arrComma es k acc, .lbrace => .recOpen es k acc { Link := [], Line := 0 }
  | .recOpen es k acc b, .rbrace => .arrItem es k (acc ++ [b])
  | .recOpen es k acc b, .str name => .fieldName es k acc b name
  | .recComma es k acc b, .str name => .fieldName es k acc b name
  | .fieldName es k acc b name, .colon => .fieldColon es k acc b name
  | .fieldColon es k acc b name, .str s =>
      if name = "link".toList then .recValue es k acc { b with Link := Text.ofStr s }
      else .failed
  | .fieldColon es k acc b name, .num n =>
      if name = "line".toList then .recValue es k acc { b with Line := n } else .failed
  | .recValue es k acc b, .comma => .recComma es k acc b
  | .recValue es k acc b, .rbrace => .arrItem es k (acc ++ [b])
  | .arrItem es k acc, .comma => .arrComma es k acc
  | .arrItem es k acc, .rbrack => .entry (setEntry es k (.items acc))
  | .entry es, .comma => .objComma es
  | .entry es, .rbrace => .done (.entries es)
  | _, _ => .failed

/-- The Go value a JSON text stands for, read as a map of file path to list of
records with the fields `link` and `line`; `none` when the text is not of this
shape. -/
def decode (text : Str) : Option Map :=
  match tokenize text with
  | none => none
  | some tokens =>
      match tokens.foldl read .start with
      | .done m => some m
      | _ => none

end json

namespace json

/-- The code point read back for a step over a Go string: the code point
itself, or U+FFFD for a byte that is not valid UTF-8. -/
def Element.decoded : Element → Char
  | .rune c => c
  | .invalid _ => Char.ofNat 0xfffd

/-- The text read back for a Go string. -/
def Text.decoded (t : Text) : Str := t.map Element.decoded

/-- The record read back for a record. -/
def BrokenLink.reread (b : BrokenLink) : BrokenLink :=
  { Link := Text.ofStr b.Link.decoded, Line := b.Line }

/-- The slice read back for a slice. -/
def Slice.reread : Slice → Slice
  | .isNil => .isNil
  | .items l => .items (l.map BrokenLink.reread)

/-- Whether the link texts of a slice are valid UTF-8. -/
def Slice.valid : Slice → Bool
  | .isNil => true
  | .items l => l.all (fun b => b.Link.valid)

/-- Whether the keys and the link texts of a map are valid UTF-8. -/
def Map.valid : Map → Bool
  | .isNil => true
  | .entries es => es.all (fun e => e.1.valid && e.2.valid)

/-- The tokens of one record of the structured output. -/
def linkTokens (b : BrokenLink) : List Token :=
  [.lbrace, .str "link".toList, .colon, .str b.Link.decoded, .comma, .str "line".toList,
    .colon, .num b.Line, .rbrace]

/-- The tokens of the value of one key of the structured output. -/
def linksTokens : Slice → List Token
  | .isNil => [.word "null".toList]
  | .items [] => [.lbrack, .rbrack]
  | .items (b :: rest) =>
      [.lbrack] ++ linkTokens b ++ (rest.map (fun b2 => .comma :: linkTokens b2)).flatten
        ++ [.rbrack]

/-- The tokens of one key of the structured output with its value. -/
def entryTokens (m : Map) (k : Text) : List Token :=
  [.str k.decoded, .colon] ++ linksTokens (m.index k)

/-- The entries the reader of the tokens builds from the keys `ks` of `m`. -/
def rebuilt (m : Map) (ks : List Text) (es0 : List (Text × Slice)) : List (Text × Slice) :=
  ks.foldl (fun acc k => setEntry acc (Text.ofStr k.decoded) (m.index k).reread) es0

end json

/-! ## Package `main` -/

namespace main

/-- The fields of Go `application` that `Run` reads. -/
structure application where
  Vault : Str
  Format : Str
deriving DecidableEq, Repr

/-- How a call of `Run` ends: it returns its error value (`none` is nil), or
`os.Exit(code)` ends the process inside the call. -/
inductive Termination where
  | returned (err : Option GoError)
  | exited (code : Nat)
deriving DecidableEq, Repr

/-- What a call of `Run` does: the text it prints to the standard output and
how it ends. -/
structure Execution where
  stdout : Str
  termination : Termination
deriving DecidableEq, Repr

/-- The error of `fmt.Errorf` for an output format that is not supported. -/
def invalidFormat (format : Str) : GoError :=
  .base ("invalid format: " ++ String.mk format ++ " (must be \x27text\x27 or \x27json\x27)")

/-- Go `(*application).Run`, on the file system `fs`; `ctxErr` is the value of
`ctx.Err()`. -/
def Run (lowerTable : Char → Char) (unmarshal : Str → Except GoError parser.Dynamic)
    (ctxErr : Option GoError) (fs : FileSystem) (a : application) : Execution :=
  let s := scanner.New ctxErr fs
  let p := parser.New unmarshal fs
  let b := index.New lowerTable fs p
  let r := resolver.New lowerTable
  match validator.Validate s p b r a.Vault with
  | .error err => { stdout := [], termination := .returned (some err) }
  | .ok result =>
      let selected : Option formatter.Formatter :=
        if a.Format = "json".toList then some formatter.NewJSONFormatter
        else if a.Format = "text".toList then some formatter.NewTextFormatter
        else none
      match selected with
      | none => { stdout := [], termination := .returned (some (invalidFormat a.Format)) }
      | some f =>
          match f.Format result with
          | .error err => { stdout := [], termination := .returned (some err) }
          | .ok output =>
              if result.BrokenLinks.len > 0 then { stdout := output, termination := .exited 1 }
              else { stdout := output, termination := .returned none }

/-- Go `main`: the status with which the process exits.  The parameter
`serviceMain` is what `service.Main` returns for the error value returned by
`Run`. -/
def exitStatus (serviceMain : Option GoError → Nat) (e : Execution) : Nat :=
  match e.termination with
  | .exited code => code
  | .returned err => serviceMain err

end main

/-! ## Concrete inputs used to evaluate the definitions -/

namespace sample

/-- A case table that leaves every rune above ASCII unchanged; at the ASCII
inputs below the table is never consulted. -/
def asciiTable : Char → Char := fun r => r

/-- The vault `/vault`: the documents `Note.md` (declaring the aliases `AI`
and `Guide.md`, linking to a missing note) and `Other.md`, and the image
`image.png` in the folder `assets`. -/
def vaultFS : FileSystem :=
  { walk := fun root =>
      if root = "/vault".toList then
        [ { path := "/vault".toList, isDir := true, err := none },
          { path := "/vault/Note.md".toList, isDir := false, err := none },
          { path := "/vault/Other.md".toList, isDir := false, err := none },
          { path := "/vault/assets".toList, isDir := true, err := none },
          { path := "/vault/assets/image.png".toList, isDir := false, err := none } ]
      else [ { path := root, isDir := false, err := some (.base "no such file or directory") } ],
    readFile := fun path =>
      if path = "/vault/Note.md".toList then
        .ok "---\naliases: [AI, Guide.md]\n---\nSee [[Other]] and [[Missing]]\n![[image.png]]\n".toList
      else if path = "/vault/Other.md".toList then .ok "Back to [[note]]\n".toList
      else .error (.base "no such file or directory") }

/-- A parser for the vault `/vault`: links are extracted by `ParseFile`, and
the metadata block of `Note.md` decodes to its two aliases. -/
def vaultParser : parser.Parser :=
  { ParseFile := parser.ParseFile vaultFS,
    ParseAliases := fun content =>
      if content = "---\naliases: [AI, Guide.md]\n---\nSee [[Other]] and [[Missing]]\n![[image.png]]\n".toList
      then .ok ["AI".toList, "Guide.md".toList]
      else .ok [] }

/-- The documents of the vault `/vault`, as the scanner lists them. -/
def vaultDocuments : List Str := ["/vault/Note.md".toList, "/vault/Other.md".toList]

/-- The index `Build` produces for the vault `/vault`. -/
def vaultIndex : index.VaultIndex :=
  { files := ⟨[("note".toList, "/vault/Note.md".toList), ("other".toList, "/vault/Other.md".toList),
               ("image.png".toList, "/vault/assets/image.png".toList)]⟩,
    aliases := ⟨[("ai".toList, "/vault/Note.md".toList), ("guide".toList, "/vault/Note.md".toList)]⟩ }

/-- A scanner for the vault `/vault`. -/
def vaultScanner : scanner.Scanner :=
  { Scan := fun root =>
      if root = "/vault".toList then .ok vaultDocuments
      else .error (.base "no such file or directory") }

/-- The index builder of the program on the vault `/vault`. -/
def vaultBuilder : index.Builder :=
  { Build := index.Build asciiTable vaultFS vaultParser }

/-- The resolver of the program. -/
def vaultResolver : resolver.Resolver :=
  { Resolve := resolver.Resolve asciiTable }

/-- The validation result for the vault `/vault`: the one broken link of
`Note.md`, on its line 4. -/
def vaultResult : model.ValidationResult :=
  { BrokenLinks := ⟨[("/vault/Note.md".toList, [{ Link := "[[Missing]]".toList, Line := 4 }])]⟩ }

/-- A YAML decoder for the metadata blocks used below: what `yaml.Unmarshal`
leaves in `data.Aliases` for each of them, and its error for the block with an
unclosed flow sequence. -/
def yamlDecoder : Str → Except GoError parser.Dynamic := fun block =>
  if block = "aliases: [AI, Guide.md]".toList then
    .ok (.isSlice [some "AI".toList, some "Guide.md".toList])
  else if block = "aliases: MyAlias".toList then .ok (.isString "MyAlias".toList)
  else if block = "aliases: [AI, 42, ML]".toList then
    .ok (.isSlice [some "AI".toList, none, some "ML".toList])
  else if block = "aliases: 42".toList then .ok .isOther
  else if block = "aliases: [AI, ML".toList then .error (.base "yaml: did not find expected ']'")
  else .ok .isNil

/-- A file system in which the document `/vault/Note.md` holds a link and the
document `/vault/Locked.md` cannot be read. -/
def lockedFS : FileSystem :=
  { walk := fun root =>
      [ { path := root, isDir := true, err := none },
        { path := "/vault/Note.md".toList, isDir := false, err := none },
        { path := "/vault/Locked.md".toList, isDir := false, err := none } ],
    readFile := fun path =>
      if path = "/vault/Note.md".toList then .ok "See [[Missing]]".toList
      else .error (.base "permission denied") }

/-- A scanner that lists the two documents of `lockedFS`. -/
def lockedScanner : scanner.Scanner :=
  { Scan := fun _ => .ok ["/vault/Note.md".toList, "/vault/Locked.md".toList] }

/-- An index builder that returns the empty index without reading a file. -/
def emptyBuilder : index.Builder :=
  { Build := fun _ _ => .ok { files := GoMap.empty, aliases := GoMap.empty } }

/-- The vault of the first end-to-end scenario, as `/vault`: the documents
`ValidNote.md`, `WithAlias.md` and `BrokenLinks.md` and the image `image.png`,
walked in lexical order. -/
def scenarioFS : FileSystem :=
  { walk := fun root =>
      if root = "/vault".toList then
        [ { path := "/vault".toList, isDir := true, err := none },
          { path := "/vault/BrokenLinks.md".toList, isDir := false, err := none },
          { path := "/vault/ValidNote.md".toList, isDir := false, err := none },
          { path := "/vault/WithAlias.md".toList, isDir := false, err := none },
          { path := "/vault/image.png".toList, isDir := false, err := none } ]
      else [ { path := root, isDir := false, err := some (.base "no such file or directory") } ],
    readFile := fun path =>
      if path = "/vault/ValidNote.md".toList then .ok "This is a valid note.".toList
      else if path = "/vault/BrokenLinks.md".toList then
        .ok ("# Broken Links Test\n\n"
          ++ "This links to [[ValidNote]] which exists.\n"
          ++ "This links to [[DoesNotExist]] which is broken.\n"
          ++ "This embeds ![[image.png]] which exists.\n"
          ++ "This embeds ![[missing.png]] which is broken.\n"
          ++ "This links to [[MyAlias]] which resolves via alias.\n"
          ++ "This links to [[ValidNote#Heading]] which is valid (heading not checked).\n").toList
      else if path = "/vault/WithAlias.md".toList then
        .ok "---\naliases: [MyAlias, Another]\n---\nContent here.".toList
      else if path = "/vault/image.png".toList then .ok "fake image data".toList
      else .error (.base "no such file or directory") }

/-- A YAML decoder for the scenarios: what `yaml.Unmarshal` leaves in
`data.Aliases` for the one metadata block of the first scenario. -/
def scenarioDecoder : Str → Except GoError parser.Dynamic := fun block =>
  if block = "aliases: [MyAlias, Another]".toList then
    .ok (.isSlice [some "MyAlias".toList, some "Another".toList])
  else .ok .isNil

/-- The vault of the second end-to-end scenario, as `/vault`: two documents
that link to each other. -/
def mutualFS : FileSystem :=
  { walk := fun root =>
      if root = "/vault".toList then
        [ { path := "/vault".toList, isDir := true, err := none },
          { path := "/vault/Note1.md".toList, isDir := false, err := none },
          { path := "/vault/Note2.md".toList, isDir := false, err := none } ]
      else [ { path := root, isDir := false, err := some (.base "no such file or directory") } ],
    readFile := fun path =>
      if path = "/vault/Note1.md".toList then .ok "Link to [[Note2]]".toList
      else if path = "/vault/Note2.md".toList then .ok "Link to [[Note1]]".toList
      else .error (.base "no such file or directory") }

/-- A vault with colliding names, as `/vault`: the documents `a/Note.md` and
`b/note.md` have the same normalized base name and declare the aliases `Home`
and `home`, and the document `c.md` declares the alias `Note`. -/
def collisionFS : FileSystem :=
  { walk := fun root =>
      if root = "/vault".toList then
        [ { path := "/vault".toList, isDir := true, err := none },
          { path := "/vault/a".toList, isDir := true, err := none },
          { path := "/vault/a/Note.md".toList, isDir := false, err := none },
          { path := "/vault/b".toList, isDir := true, err := none },
          { path := "/vault/b/note.md".toList, isDir := false, err := none },
          { path := "/vault/c.md".toList, isDir := false, err := none } ]
      else [ { path := root, isDir := false, err := some (.base "no such file or directory") } ],
    readFile := fun path =>
      if path = "/vault/a/Note.md".toList then .ok "---\naliases: Home\n---\nFirst".toList
      else if path = "/vault/b/note.md".toList then .ok "---\naliases: home\n---\nSecond".toList
      else if path = "/vault/c.md".toList then .ok "---\naliases: Note\n---\nThird".toList
      else .error (.base "no such file or directory") }

/-- What `yaml.Unmarshal` leaves in `data.Aliases` for the metadata blocks of
`collisionFS`. -/
def collisionDecoder : Str → Except GoError parser.Dynamic := fun block =>
  if block = "aliases: Home".toList then .ok (.isString "Home".toList)
  else if block = "aliases: home".toList then .ok (.isString "home".toList)
  else if block = "aliases: Note".toList then .ok (.isString "Note".toList)
  else .ok .isNil

/-- The documents of `collisionFS`, in the order of the scan. -/
def collisionDocuments : List Str :=
  ["/vault/a/Note.md".toList, "/vault/b/note.md".toList, "/vault/c.md".toList]

/-- The index of `collisionFS`. -/
def collisionIndex : index.VaultIndex :=
  { files := ⟨[("note".toList, "/vault/b/note.md".toList), ("c".toList, "/vault/c.md".toList)]⟩,
    aliases := ⟨[("home".toList, "/vault/b/note.md".toList),
      ("note".toList, "/vault/c.md".toList)]⟩ }

/-- A vault with a folder, as `/vault`: the document `Index.md` links to the
document `folder/Note.md` by its path and by its name, and to a heading of its
own. -/
def folderFS : FileSystem :=
  { walk := fun root =>
      if root = "/vault".toList then
        [ { path := "/vault".toList, isDir := true, err := none },
          { path := "/vault/Index.md".toList, isDir := false, err := none },
          { path := "/vault/folder".toList, isDir := true, err := none },
          { path := "/vault/folder/Note.md".toList, isDir := false, err := none } ]
      else [ { path := root, isDir := false, err := some (.base "no such file or directory") } ],
    readFile := fun path =>
      if path = "/vault/Index.md".toList then
        .ok "See [[folder/Note]] and [[#Top]]\nAlso [[Note]]".toList
      else if path = "/vault/folder/Note.md".toList then .ok "# Top\nText".toList
      else .error (.base "no such file or directory") }

/-- The result of the validation of `folderFS`. -/
def folderResult : model.ValidationResult :=
  { BrokenLinks := ⟨[("/vault/Index.md".toList,
      [{ Link := "[[folder/Note]]".toList, Line := 1 },
       { Link := "[[#Top]]".toList, Line := 1 }])]⟩ }

end sample

/-! # Lemmas -/

/-! ## Strings -/

namespace strings

theorem HasSuffix_append (p suffix : Str) : HasSuffix (p ++ suffix) suffix = true := by
  simp [HasSuffix]

theorem TrimSuffix_append (p suffix : Str) : TrimSuffix (p ++ suffix) suffix = p := by
  simp [TrimSuffix, HasSuffix_append]

theorem eq_append_of_HasSuffix {s suffix : Str} (h : HasSuffix s suffix = true) :
    s = TrimSuffix s suffix ++ suffix := by
  have h2 : s.drop (s.length - suffix.length) = suffix := by
    simp [HasSuffix] at h
    exact h.2
  simp only [TrimSuffix, h, if_true]
  conv_lhs => rw [← List.take_append_drop (s.length - suffix.length) s, h2]

theorem TrimSuffix_of_not_HasSuffix {s suffix : Str} (h : HasSuffix s suffix = false) :
    TrimSuffix s suffix = s := by
  simp [TrimSuffix, h]

theorem ToLower_append (lowerTable : Char → Char) (a b : Str) :
    ToLower lowerTable (a ++ b) = ToLower lowerTable a ++ ToLower lowerTable b := by
  simp [ToLower]

theorem ToLower_md (lowerTable : Char → Char) :
    ToLower lowerTable ".md".toList = ".md".toList := by
  rfl

theorem SplitN2_head (s : Str) (sep : Char) :
    (SplitN2 s sep).getD 0 [] = s.takeWhile (fun c => c != sep) := by
  unfold SplitN2
  cases hd : s.dropWhile (fun c => c != sep) with
  | nil =>
      have hall : ∀ x ∈ s, (fun c => c != sep) x = true := List.dropWhile_eq_nil_iff.mp hd
      simp only [List.getD_cons_zero]
      exact (List.takeWhile_eq_self_iff.mpr hall).symm
  | cons c after => simp only [List.getD_cons_zero]

theorem takeWhile_takeWhile_ne (s : Str) (a b : Char) :
    (s.takeWhile (fun c => c != a)).takeWhile (fun c => c != b)
      = s.takeWhile (fun c => c != a && c != b) := by
  induction s with
  | nil => rfl
  | cons c t ih =>
      by_cases ha : (c != a) = true
      · by_cases hb : (c != b) = true
        · simp only [List.takeWhile_cons, ha, hb, if_true, Bool.and_self, ih]
        · simp only [List.takeWhile_cons, ha, hb, if_true, Bool.and_false]
          simp
      · simp only [List.takeWhile_cons, ha, Bool.false_and]
        simp

theorem TrimSpace_eq_nil_iff (s : Str) :
    TrimSpace s = [] ↔ ∀ c ∈ s, isSpace c = true := by
  unfold TrimSpace
  rw [List.reverse_eq_nil_iff, List.dropWhile_eq_nil_iff]
  constructor
  · intro h
    have hnil : s.dropWhile isSpace = [] := by
      cases hd : s.dropWhile isSpace with
      | nil => rfl
      | cons c t =>
          exfalso
          have hne : s.dropWhile isSpace ≠ [] := by rw [hd]; exact List.cons_ne_nil c t
          have hhead := List.head_dropWhile_not isSpace s hne
          have hmem : (s.dropWhile isSpace).head hne ∈ (s.dropWhile isSpace).reverse :=
            List.mem_reverse.mpr (List.head_mem hne)
          rw [h _ hmem] at hhead
          cases hhead
    exact List.dropWhile_eq_nil_iff.mp hnil
  · intro h x hx
    have hx2 : x ∈ s.dropWhile isSpace := List.mem_reverse.mp hx
    exact h x ((List.dropWhile_sublist isSpace).subset hx2)

theorem toNat_ofNat_shift (n : Nat) (h1 : 65 ≤ n) (h2 : n ≤ 90) :
    (Char.ofNat (n + 32)).toNat = n + 32 := by
  interval_cases n <;> rfl

/-- Lowering an ASCII rune twice is lowering it once. -/
theorem toLowerRune_idem_ascii (lowerTable : Char → Char) (r : Char) (h : r.toNat ≤ 0x7F) :
    toLowerRune lowerTable (toLowerRune lowerTable r) = toLowerRune lowerTable r := by
  have hA : 'A'.toNat = 65 := rfl
  have hZ : 'Z'.toNat = 90 := rfl
  have ha : 'a'.toNat = 97 := rfl
  by_cases hup : 'A'.toNat ≤ r.toNat ∧ r.toNat ≤ 'Z'.toNat
  · have e1 : toLowerRune lowerTable r = Char.ofNat (r.toNat + 32) := by
      unfold toLowerRune
      rw [if_pos h, if_pos hup]
      rfl
    have e2 : (Char.ofNat (r.toNat + 32)).toNat = r.toNat + 32 :=
      toNat_ofNat_shift r.toNat (hA ▸ hup.1) (hZ ▸ hup.2)
    rw [e1]
    have h3 : (Char.ofNat (r.toNat + 32)).toNat ≤ 0x7F := by rw [e2]; omega
    have h4 : ¬ ('A'.toNat ≤ (Char.ofNat (r.toNat + 32)).toNat ∧
        (Char.ofNat (r.toNat + 32)).toNat ≤ 'Z'.toNat) := by
      rw [e2, hA, hZ]; omega
    unfold toLowerRune
    rw [if_pos h3, if_neg h4]
  · have e1 : toLowerRune lowerTable r = r := by
      unfold toLowerRune
      rw [if_pos h, if_neg hup]
    rw [e1, e1]

/-- Lowering twice is lowering once, when this holds for the case table. -/
theorem ToLower_idem (lowerTable : Char → Char)
    (htable : ∀ r : Char, 0x7F < r.toNat →
      toLowerRune lowerTable (lowerTable r) = lowerTable r) (s : Str) :
    ToLower lowerTable (ToLower lowerTable s) = ToLower lowerTable s := by
  simp only [ToLower, List.map_map]
  apply List.map_congr_left
  intro r _
  by_cases h : r.toNat ≤ 0x7F
  · exact toLowerRune_idem_ascii lowerTable r h
  · have e1 : toLowerRune lowerTable r = lowerTable r := by
      simp only [toLowerRune, if_neg h]
    simp only [Function.comp, e1]
    exact htable r (by omega)

end strings

/-! ## Maps -/

namespace GoMap

theorem lookupEntries_isSome_iff {V : Type} (es : List (Str × V)) (k : Str) :
    (lookupEntries es k).isSome = true ↔ k ∈ es.map Prod.fst := by
  induction es with
  | nil => simp [lookupEntries]
  | cons e rest ih =>
      obtain ⟨k', v⟩ := e
      simp only [lookupEntries, List.map_cons, List.mem_cons]
      by_cases hk : k' = k
      · rw [if_pos hk]
        exact ⟨fun _ => Or.inl hk.symm, fun _ => rfl⟩
      · rw [if_neg hk, ih]
        exact ⟨Or.inr, fun h => h.resolve_left (fun h' => hk h'.symm)⟩

theorem hasKey_iff_mem_keys {V : Type} (m : GoMap V) (k : Str) :
    m.hasKey k = true ↔ k ∈ m.keys := by
  simp only [hasKey, lookup, keys]
  exact lookupEntries_isSome_iff m.entries k

theorem lookupEntries_setEntries_self {V : Type} (es : List (Str × V)) (k : Str) (v : V) :
    lookupEntries (setEntries es k v) k = some v := by
  induction es with
  | nil => simp only [setEntries, lookupEntries, if_true]
  | cons e rest ih =>
      obtain ⟨k', v'⟩ := e
      simp only [setEntries]
      by_cases hk : k' = k
      · rw [if_pos hk]
        simp only [lookupEntries, if_pos hk]
      · rw [if_neg hk]
        simp only [lookupEntries, if_neg hk, ih]

theorem lookupEntries_setEntries_ne {V : Type} (es : List (Str × V)) (k k2 : Str) (v : V)
    (h : k ≠ k2) : lookupEntries (setEntries es k v) k2 = lookupEntries es k2 := by
  induction es with
  | nil => simp only [setEntries, lookupEntries, if_neg h]
  | cons e rest ih =>
      obtain ⟨k', v'⟩ := e
      simp only [setEntries]
      by_cases hk : k' = k
      · rw [if_pos hk]
        have hk2 : ¬ k' = k2 := fun h2 => h (hk.symm.trans h2)
        simp only [lookupEntries, if_neg hk2]
      · rw [if_neg hk]
        by_cases hk2 : k' = k2
        · simp only [lookupEntries, if_pos hk2]
        · simp only [lookupEntries, if_neg hk2, ih]

theorem lookup_set_self {V : Type} (m : GoMap V) (k : Str) (v : V) :
    (m.set k v).lookup k = some v :=
  lookupEntries_setEntries_self m.entries k v

theorem lookup_set_ne {V : Type} (m : GoMap V) (k k2 : Str) (v : V) (h : k ≠ k2) :
    (m.set k v).lookup k2 = m.lookup k2 :=
  lookupEntries_setEntries_ne m.entries k k2 v h

theorem hasKey_set_self {V : Type} (m : GoMap V) (k : Str) (v : V) :
    (m.set k v).hasKey k = true := by
  simp [hasKey, lookup_set_self]

theorem hasKey_set_of_hasKey {V : Type} (m : GoMap V) (k k2 : Str) (v : V)
    (h : m.hasKey k2 = true) : (m.set k v).hasKey k2 = true := by
  by_cases hk : k = k2
  · subst hk
    exact hasKey_set_self m k v
  · simpa [hasKey, lookup_set_ne m k k2 v hk] using h

theorem keys_setEntries {V : Type} (es : List (Str × V)) (k : Str) (v : V) :
    (setEntries es k v).map Prod.fst
      = if k ∈ es.map Prod.fst then es.map Prod.fst else es.map Prod.fst ++ [k] := by
  induction es with
  | nil => simp [setEntries]
  | cons e rest ih =>
      obtain ⟨k', v'⟩ := e
      simp only [setEntries]
      by_cases hk : k' = k
      · rw [if_pos hk]
        have hmem : k ∈ List.map Prod.fst ((k', v') :: rest) := by
          simp only [List.map_cons, List.mem_cons]
          exact Or.inl hk.symm
        rw [if_pos hmem]
        simp only [List.map_cons]
      · rw [if_neg hk]
        simp only [List.map_cons, ih, List.mem_cons]
        have hk' : ¬ k = k' := fun h => hk h.symm
        by_cases hmem : k ∈ rest.map Prod.fst
        · simp only [hmem, or_true, if_true]
        · simp only [hmem, hk', or_self, if_false, List.cons_append]

theorem keys_set_nodup {V : Type} (m : GoMap V) (k : Str) (v : V) (h : m.keys.Nodup) :
    (m.set k v).keys.Nodup := by
  simp only [keys, set, keys_setEntries]
  by_cases hmem : k ∈ m.entries.map Prod.fst
  · rw [if_pos hmem]
    exact h
  · rw [if_neg hmem]
    exact List.Nodup.append h (List.nodup_singleton k)
      (by
        intro a ha hk
        rw [List.mem_singleton] at hk
        exact hmem (hk ▸ ha))

theorem index_set_self {V : Type} (m : GoMap (List V)) (k : Str) (v : List V) :
    (m.set k v).index k = v := by
  simp only [index, lookup_set_self, Option.getD_some]

theorem index_set_ne {V : Type} (m : GoMap (List V)) (k k2 : Str) (v : List V) (h : k ≠ k2) :
    (m.set k v).index k2 = m.index k2 := by
  simp only [index, lookup_set_ne m k k2 v h]

end GoMap

/-! ## The index -/

namespace index

theorem normalizeTarget_append_md (lowerTable : Char → Char) (x : Str) :
    normalizeTarget lowerTable (x ++ ".md".toList) = strings.ToLower lowerTable x := by
  simp only [normalizeTarget, strings.TrimSuffix_append]

theorem normalizeTarget_of_not_HasSuffix (lowerTable : Char → Char) {x : Str}
    (h : strings.HasSuffix x ".md".toList = false) :
    normalizeTarget lowerTable x = strings.ToLower lowerTable x := by
  simp only [normalizeTarget, strings.TrimSuffix_of_not_HasSuffix h]

/-- Targets that agree after lowercasing and agree on whether they end in the
exact suffix `.md` have the same normalized form. -/
theorem normalizeTarget_congr (lowerTable : Char → Char) {x y : Str}
    (hlow : strings.ToLower lowerTable x = strings.ToLower lowerTable y)
    (hsuf : strings.HasSuffix x ".md".toList = strings.HasSuffix y ".md".toList) :
    normalizeTarget lowerTable x = normalizeTarget lowerTable y := by
  cases hx : strings.HasSuffix x ".md".toList with
  | false =>
      have hy : strings.HasSuffix y ".md".toList = false := by rw [← hsuf, hx]
      rw [normalizeTarget_of_not_HasSuffix lowerTable hx,
        normalizeTarget_of_not_HasSuffix lowerTable hy, hlow]
  | true =>
      have hy : strings.HasSuffix y ".md".toList = true := by rw [← hsuf, hx]
      have ex := strings.eq_append_of_HasSuffix hx
      have ey := strings.eq_append_of_HasSuffix hy
      rw [ex, ey, strings.ToLower_append, strings.ToLower_append] at hlow
      exact List.append_cancel_right hlow

theorem Resolve_eq_of_normalizeTarget_eq (lowerTable : Char → Char) (v : VaultIndex)
    {x y : Str} (h : normalizeTarget lowerTable x = normalizeTarget lowerTable y) :
    v.Resolve lowerTable x = v.Resolve lowerTable y := by
  simp only [VaultIndex.Resolve, h]

theorem Resolve_iff (lowerTable : Char → Char) (v : VaultIndex) (t : Str) :
    v.Resolve lowerTable t = true ↔
      (v.files.hasKey (normalizeTarget lowerTable t) = true ∨
        v.aliases.hasKey (normalizeTarget lowerTable t) = true) := by
  simp only [VaultIndex.Resolve]
  cases v.files.hasKey (normalizeTarget lowerTable t) <;>
    cases v.aliases.hasKey (normalizeTarget lowerTable t) <;> simp

theorem walkFold_indexEntry (lowerTable : Char → Char) :
    ∀ (es : List WalkEntry) (m0 m : GoMap Str),
      filepath.walkFold (indexEntry lowerTable) es m0 = .ok m →
      (∀ k, m0.hasKey k = true → m.hasKey k = true) ∧
      (∀ e ∈ es, e.isDir = false →
        m.hasKey (normalizeTarget lowerTable (filepath.Base e.path)) = true) := by
  intro es
  induction es with
  | nil =>
      intro m0 m h
      simp only [filepath.walkFold, Except.ok.injEq] at h
      subst h
      exact ⟨fun _ hk => hk, fun e he => absurd he (List.not_mem_nil e)⟩
  | cons e rest ih =>
      intro m0 m h
      simp only [filepath.walkFold] at h
      cases hstep : indexEntry lowerTable m0 e with
      | error err => rw [hstep] at h; cases h
      | ok m1 =>
          rw [hstep] at h
          obtain ⟨ihkeep, ihnew⟩ := ih m1 m h
          have hm1 : (∀ k, m0.hasKey k = true → m1.hasKey k = true) ∧
              (e.isDir = false →
                m1.hasKey (normalizeTarget lowerTable (filepath.Base e.path)) = true) := by
            unfold indexEntry at hstep
            cases herr : e.err with
            | some err => rw [herr] at hstep; cases hstep
            | none =>
                rw [herr] at hstep
                cases hdir : e.isDir with
                | true =>
                    simp only [hdir, if_true, Except.ok.injEq] at hstep
                    subst hstep
                    exact ⟨fun _ hk => hk, fun hf => by cases hf⟩
                | false =>
                    simp only [hdir, Bool.false_eq_true, if_false, Except.ok.injEq] at hstep
                    subst hstep
                    exact ⟨fun k hk => GoMap.hasKey_set_of_hasKey m0 _ k _ hk,
                      fun _ => GoMap.hasKey_set_self m0 _ _⟩
          refine ⟨fun k hk => ihkeep k (hm1.1 k hk), ?_⟩
          intro e' he' hfile
          rcases List.mem_cons.mp he' with heq | hmem
          · subst heq
            exact ihkeep _ (hm1.2 hfile)
          · exact ihnew e' hmem hfile

theorem indexAliases_hasKey (lowerTable : Char → Char) (file : Str) :
    ∀ (declared : List Str) (m0 : GoMap Str),
      (∀ k, m0.hasKey k = true → (indexAliases lowerTable file declared m0).hasKey k = true) ∧
      (∀ a ∈ declared,
        (indexAliases lowerTable file declared m0).hasKey (normalizeTarget lowerTable a) = true) := by
  intro declared
  induction declared with
  | nil =>
      intro m0
      exact ⟨fun _ hk => hk, fun a ha => absurd ha (List.not_mem_nil a)⟩
  | cons d rest ih =>
      intro m0
      simp only [indexAliases]
      obtain ⟨ihkeep, ihnew⟩ := ih (m0.set (normalizeTarget lowerTable d) file)
      refine ⟨fun k hk => ihkeep k (GoMap.hasKey_set_of_hasKey m0 _ k _ hk), ?_⟩
      intro a ha
      rcases List.mem_cons.mp ha with heq | hmem
      · subst heq
        exact ihkeep _ (GoMap.hasKey_set_self m0 _ _)
      · exact ihnew a hmem

theorem indexFiles_hasKey (lowerTable : Char → Char) (fs : FileSystem) (p : parser.Parser) :
    ∀ (files : List Str) (m0 m : GoMap Str),
      indexFiles lowerTable fs p files m0 = .ok m →
      (∀ k, m0.hasKey k = true → m.hasKey k = true) ∧
      (∀ file ∈ files, ∀ content declared,
        fs.readFile file = .ok content → p.ParseAliases content = .ok declared →
        ∀ a ∈ declared, m.hasKey (normalizeTarget lowerTable a) = true) := by
  intro files
  induction files with
  | nil =>
      intro m0 m h
      simp only [indexFiles, Except.ok.injEq] at h
      subst h
      exact ⟨fun _ hk => hk, fun f hf => absurd hf (List.not_mem_nil f)⟩
  | cons f rest ih =>
      intro m0 m h
      simp only [indexFiles] at h
      cases hread : fs.readFile f with
      | error err => rw [hread] at h; cases h
      | ok content =>
          rw [hread] at h
          simp only at h
          cases hparse : p.ParseAliases content with
          | error err => rw [hparse] at h; cases h
          | ok declared =>
              rw [hparse] at h
              simp only at h
              obtain ⟨ihkeep, ihnew⟩ := ih _ m h
              obtain ⟨akeep, anew⟩ := indexAliases_hasKey lowerTable f declared m0
              refine ⟨fun k hk => ihkeep k (akeep k hk), ?_⟩
              intro file hfile content2 declared2 hread2 hparse2 a ha
              rcases List.mem_cons.mp hfile with heq | hmem
              · subst heq
                rw [hread] at hread2
                cases hread2
                rw [hparse] at hparse2
                cases hparse2
                exact ihkeep _ (anew a ha)
              · exact ihnew file hmem content2 declared2 hread2 hparse2 a ha

/-- A successful `Build` is a successful walk followed by a successful pass
over the documents. -/
theorem Build_ok (lowerTable : Char → Char) (fs : FileSystem) (p : parser.Parser)
    (vaultPath : Str) (files : List Str) (idx : VaultIndex)
    (h : Build lowerTable fs p vaultPath files = .ok idx) :
    filepath.walkFold (indexEntry lowerTable) (fs.walk vaultPath) GoMap.empty = .ok idx.files ∧
    indexFiles lowerTable fs p files GoMap.empty = .ok idx.aliases := by
  unfold Build filepath.WalkDir at h
  cases hwalk : filepath.walkFold (indexEntry lowerTable) (fs.walk vaultPath) GoMap.empty with
  | error err => rw [hwalk] at h; cases h
  | ok indexed =>
      rw [hwalk] at h
      simp only at h
      cases hal : indexFiles lowerTable fs p files GoMap.empty with
      | error err => rw [hal] at h; cases h
      | ok aliases =>
          rw [hal] at h
          simp only [Except.ok.injEq] at h
          subst h
          exact ⟨rfl, rfl⟩

/-- After a successful `Build` every walked non-directory entry has its
normalized base name among the keys of the files mapping. -/
theorem Build_files_hasKey (lowerTable : Char → Char) (fs : FileSystem) (p : parser.Parser)
    (vaultPath : Str) (files : List Str) (idx : VaultIndex)
    (h : Build lowerTable fs p vaultPath files = .ok idx)
    (e : WalkEntry) (he : e ∈ fs.walk vaultPath) (hfile : e.isDir = false) :
    idx.files.hasKey (normalizeTarget lowerTable (filepath.Base e.path)) = true :=
  (walkFold_indexEntry lowerTable _ _ _ (Build_ok lowerTable fs p vaultPath files idx h).1).2
    e he hfile

/-- After a successful `Build`, every alias declared by a document of the list
resolves, and so does every spelling of it that differs in letter case only and
ends in the exact suffix `.md` if and only if the alias does. -/
theorem Build_declared_alias_resolves (lowerTable : Char → Char) (fs : FileSystem)
    (p : parser.Parser) (vaultPath : Str) (files : List Str) (idx : VaultIndex)
    (hbuild : Build lowerTable fs p vaultPath files = .ok idx)
    (file : Str) (hfile : file ∈ files) (content : Str) (hread : fs.readFile file = .ok content)
    (declared : List Str) (hparse : p.ParseAliases content = .ok declared)
    (a : Str) (ha : a ∈ declared) :
    idx.Resolve lowerTable a = true
    ∧ ∀ a2 : Str, strings.ToLower lowerTable a2 = strings.ToLower lowerTable a →
        strings.HasSuffix a2 ".md".toList = strings.HasSuffix a ".md".toList →
        idx.Resolve lowerTable a2 = true := by
  have hkey : idx.aliases.hasKey (normalizeTarget lowerTable a) = true :=
    (indexFiles_hasKey lowerTable fs p files GoMap.empty idx.aliases
      (Build_ok lowerTable fs p vaultPath files idx hbuild).2).2
      file hfile content declared hread hparse a ha
  have hres : idx.Resolve lowerTable a = true :=
    (Resolve_iff lowerTable idx _).mpr (Or.inr hkey)
  refine ⟨hres, ?_⟩
  intro a2 hlow hsuf
  rw [Resolve_eq_of_normalizeTarget_eq lowerTable idx (normalizeTarget_congr lowerTable hlow hsuf)]
  exact hres

end index

/-! ## The validator -/

namespace validator

theorem NoEmptyList_empty : NoEmptyList GoMap.empty := by
  intro k v h
  simp [GoMap.empty, GoMap.lookup, GoMap.lookupEntries] at h

theorem NoEmptyList_set (m : GoMap (List model.BrokenLink)) (k : Str)
    (v : List model.BrokenLink) (hv : v ≠ []) (h : NoEmptyList m) : NoEmptyList (m.set k v) := by
  intro k2 v2 hl
  by_cases hk : k = k2
  · subst hk
    rw [GoMap.lookup_set_self] at hl
    cases hl
    exact hv
  · rw [GoMap.lookup_set_ne m k k2 v hk] at hl
    exact h k2 v2 hl

theorem hasKey_iff_index_ne_nil (m : GoMap (List model.BrokenLink)) (h : NoEmptyList m)
    (k : Str) : m.hasKey k = true ↔ m.index k ≠ [] := by
  simp only [GoMap.hasKey, GoMap.index]
  cases hl : m.lookup k with
  | none => simp
  | some v => simpa using h k v hl

theorem validateLinks_spec (r : resolver.Resolver) (idx : index.VaultIndex) (file : Str) :
    ∀ (links : List model.Link) (m : GoMap (List model.BrokenLink)),
      (validateLinks r idx file links m).index file
          = m.index file ++ unresolvedRecords r idx links
      ∧ (∀ f, f ≠ file → (validateLinks r idx file links m).lookup f = m.lookup f)
      ∧ (NoEmptyList m → NoEmptyList (validateLinks r idx file links m))
      ∧ (m.keys.Nodup → (validateLinks r idx file links m).keys.Nodup) := by
  intro links
  induction links with
  | nil =>
      intro m
      simp [validateLinks, unresolvedRecords]
  | cons l rest ih =>
      intro m
      cases hres : r.Resolve l idx with
      | true =>
          have hstep : validateLinks r idx file (l :: rest) m = validateLinks r idx file rest m := by
            simp [validateLinks, hres]
          have hrec : unresolvedRecords r idx (l :: rest) = unresolvedRecords r idx rest := by
            simp [unresolvedRecords, hres]
          rw [hstep, hrec]
          exact ih m
      | false =>
          have hstep : validateLinks r idx file (l :: rest) m
              = validateLinks r idx file rest
                  (m.set file (m.index file ++ [{ Link := l.Raw, Line := l.Line }])) := by
            simp [validateLinks, hres]
          have hrec : unresolvedRecords r idx (l :: rest)
              = { Link := l.Raw, Line := l.Line } :: unresolvedRecords r idx rest := by
            simp [unresolvedRecords, hres]
          rw [hstep, hrec]
          obtain ⟨h1, h2, h3, h4⟩ :=
            ih (m.set file (m.index file ++ [{ Link := l.Raw, Line := l.Line }]))
          refine ⟨?_, ?_, ?_, ?_⟩
          · rw [h1, GoMap.index_set_self]
            simp
          · intro f hf
            rw [h2 f hf, GoMap.lookup_set_ne m file f _ (fun h => hf h.symm)]
          · intro hm
            exact h3 (NoEmptyList_set m file _ (by simp) hm)
          · intro hm
            exact h4 (GoMap.keys_set_nodup m file _ hm)

theorem append_ne_nil_iff_or {α : Type} (a b : List α) :
    a ++ b ≠ [] ↔ a ≠ [] ∨ b ≠ [] := by
  cases a <;> simp

theorem unresolvedRecords_ne_nil_iff (r : resolver.Resolver) (idx : index.VaultIndex)
    (links : List model.Link) :
    unresolvedRecords r idx links ≠ [] ↔ ∃ l ∈ links, r.Resolve l idx = false := by
  simp only [unresolvedRecords, ne_eq, List.map_eq_nil_iff, List.filter_eq_nil_iff,
    Bool.not_eq_true', not_forall, Bool.not_eq_false]
  constructor
  · rintro ⟨l, hl, hr⟩
    exact ⟨l, hl, by simpa using hr⟩
  · rintro ⟨l, hl, hr⟩
    exact ⟨l, hl, by simpa using hr⟩

theorem validateFiles_spec (p : parser.Parser) (r : resolver.Resolver) (idx : index.VaultIndex) :
    ∀ (files : List Str) (m0 m : GoMap (List model.BrokenLink)),
      validateFiles p r idx files m0 = .ok m →
      (∀ f ∈ files, ∃ links, p.ParseFile f = .ok links)
      ∧ (∀ f, f ∉ files → m.lookup f = m0.lookup f)
      ∧ (NoEmptyList m0 → NoEmptyList m)
      ∧ (m0.keys.Nodup → m.keys.Nodup)
      ∧ (files.Nodup → ∀ f ∈ files, ∀ links, p.ParseFile f = .ok links →
          m.index f = m0.index f ++ unresolvedRecords r idx links)
      ∧ (∀ f, m.index f ≠ [] ↔ (m0.index f ≠ [] ∨
          (f ∈ files ∧ ∃ links, p.ParseFile f = .ok links ∧
            ∃ l ∈ links, r.Resolve l idx = false))) := by
  intro files
  induction files with
  | nil =>
      intro m0 m h
      simp only [validateFiles, Except.ok.injEq] at h
      subst h
      simp
  | cons file rest ih =>
      intro m0 m h
      simp only [validateFiles] at h
      cases hparse : p.ParseFile file with
      | error err => rw [hparse] at h; cases h
      | ok links =>
          rw [hparse] at h
          simp only at h
          obtain ⟨i1, i2, i3, i4, i5, i6⟩ := ih _ m h
          obtain ⟨l1, l2, l3, l4⟩ := validateLinks_spec r idx file links m0
          have lother : ∀ f, f ≠ file →
              (validateLinks r idx file links m0).index f = m0.index f := by
            intro f hf
            simp only [GoMap.index, l2 f hf]
          refine ⟨?_, ?_, ?_, ?_, ?_, ?_⟩
          · intro f hf
            rcases List.mem_cons.mp hf with heq | hmem
            · exact ⟨links, heq ▸ hparse⟩
            · exact i1 f hmem
          · intro f hf
            have hne : f ≠ file := fun he => hf (he ▸ List.mem_cons_self _ _)
            have hnr : f ∉ rest := fun hm => hf (List.mem_cons_of_mem _ hm)
            rw [i2 f hnr, l2 f hne]
          · exact fun hm => i3 (l3 hm)
          · exact fun hm => i4 (l4 hm)
          · intro hnd f hf links2 hparse2
            have hnd2 := List.nodup_cons.mp hnd
            rcases List.mem_cons.mp hf with heq | hmem
            · subst heq
              rw [hparse] at hparse2
              cases hparse2
              have hlk := i2 f hnd2.1
              simp only [GoMap.index, hlk]
              exact l1
            · have hne : f ≠ file := fun he => hnd2.1 (he ▸ hmem)
              rw [i5 hnd2.2 f hmem links2 hparse2, lother f hne]
          · intro f
            rw [i6 f]
            by_cases hf : f = file
            · subst hf
              rw [l1, append_ne_nil_iff_or, unresolvedRecords_ne_nil_iff]
              constructor
              · rintro (h1 | h1)
                · rcases h1 with h1 | h1
                  · exact Or.inl h1
                  · exact Or.inr ⟨List.mem_cons_self _ _, links, hparse, h1⟩
                · exact Or.inr ⟨List.mem_cons_of_mem _ h1.1, h1.2⟩
              · rintro (h1 | ⟨_, links2, hp2, h2⟩)
                · exact Or.inl (Or.inl h1)
                · rw [hparse] at hp2
                  cases hp2
                  exact Or.inl (Or.inr h2)
            · rw [lother f hf]
              constructor
              · rintro (h1 | h1)
                · exact Or.inl h1
                · exact Or.inr ⟨List.mem_cons_of_mem _ h1.1, h1.2⟩
              · rintro (h1 | ⟨hmem, h2⟩)
                · exact Or.inl h1
                · rcases List.mem_cons.mp hmem with heq | hmem2
                  · exact absurd heq hf
                  · exact Or.inr ⟨hmem2, h2⟩

/-- A successful `Validate` is a successful scan, a successful build and a
successful pass over the documents. -/
theorem Validate_ok (s : scanner.Scanner) (p : parser.Parser) (b : index.Builder)
    (r : resolver.Resolver) (vaultPath : Str) (result : model.ValidationResult)
    (h : Validate s p b r vaultPath = .ok result) :
    ∃ files idx, s.Scan vaultPath = .ok files ∧ b.Build vaultPath files = .ok idx ∧
      validateFiles p r idx files GoMap.empty = .ok result.BrokenLinks := by
  unfold Validate at h
  cases hscan : s.Scan vaultPath with
  | error err => rw [hscan] at h; cases h
  | ok files =>
      rw [hscan] at h
      simp only at h
      cases hbuild : b.Build vaultPath files with
      | error err => rw [hbuild] at h; cases h
      | ok idx =>
          rw [hbuild] at h
          simp only at h
          cases hfiles : validateFiles p r idx files GoMap.empty with
          | error err => rw [hfiles] at h; cases h
          | ok broken =>
              rw [hfiles] at h
              simp only [Except.ok.injEq] at h
              subst h
              exact ⟨files, idx, rfl, hbuild, hfiles⟩

end validator

/-! ## The parser -/

namespace parser

/-- What a match of the bracket part looks like. -/
theorem matchBrackets_some {s inner rest : Str} (h : matchBrackets s = some (inner, rest)) :
    inner ≠ [] ∧ (∀ c ∈ inner, c ≠ ']') ∧ s = "[[".toList ++ inner ++ "]]".toList ++ rest := by
  unfold matchBrackets at h
  match s, h with
  | c1 :: c2 :: t, h =>
      simp only at h
      by_cases hc : c1 = '[' ∧ c2 = '['
      · rw [if_pos hc] at h
        cases hd : t.dropWhile (fun c => c != ']') with
        | nil => rw [hd] at h; cases h
        | cons d1 t2 =>
            cases t2 with
            | nil => rw [hd] at h; cases h
            | cons d2 rest2 =>
                rw [hd] at h
                simp only at h
                by_cases hi : t.takeWhile (fun c => c != ']') ≠ [] ∧ d1 = ']' ∧ d2 = ']'
                · rw [if_pos hi] at h
                  simp only [Option.some.injEq, Prod.mk.injEq] at h
                  obtain ⟨h1, h2⟩ := h
                  subst h1 h2
                  refine ⟨hi.1, ?_, ?_⟩
                  · intro c hcmem
                    have := List.mem_takeWhile_imp hcmem
                    simpa using this
                  · have hsplit := List.takeWhile_append_dropWhile (fun c => c != ']') t
                    rw [hd, hi.2.1, hi.2.2] at hsplit
                    rw [hc.1, hc.2]
                    simp only [String.toList, List.cons_append, List.nil_append,
                      List.append_assoc]
                    rw [hsplit]
                · rw [if_neg hi] at h
                  cases h
      · rw [if_neg hc] at h
        cases h

/-- What a match of `linkRegex` looks like: group 2 is not empty and holds no
`]`, and the matched text is group 2 in double brackets, with a leading `!`
exactly when the text starts with `!`. -/
theorem matchLinkAt_some {s raw inner : Str} (h : matchLinkAt s = some (raw, inner)) :
    inner ≠ [] ∧ (∀ c ∈ inner, c ≠ ']') ∧
      (raw = "![[".toList ++ inner ++ "]]".toList ∨ raw = "[[".toList ++ inner ++ "]]".toList) ∧
      ∃ rest, s = raw ++ rest := by
  unfold matchLinkAt at h
  match s, h with
  | c :: t, h =>
      simp only at h
      by_cases hc : c = '!'
      · rw [if_pos hc] at h
        cases hm : matchBrackets t with
        | none => rw [hm] at h; cases h
        | some res =>
            obtain ⟨inner2, rest2⟩ := res
            rw [hm] at h
            simp only [Option.some.injEq, Prod.mk.injEq] at h
            obtain ⟨h1, h2⟩ := h
            subst h2
            obtain ⟨m1, m2, m3⟩ := matchBrackets_some hm
            refine ⟨m1, m2, Or.inl ?_, rest2, ?_⟩
            · rw [← h1]; rfl
            · rw [← h1, hc, m3]
              simp [String.toList]
      · rw [if_neg hc] at h
        cases hm : matchBrackets (c :: t) with
        | none => rw [hm] at h; cases h
        | some res =>
            obtain ⟨inner2, rest2⟩ := res
            rw [hm] at h
            simp only [Option.some.injEq, Prod.mk.injEq] at h
            obtain ⟨h1, h2⟩ := h
            subst h2
            obtain ⟨m1, m2, m3⟩ := matchBrackets_some hm
            refine ⟨m1, m2, Or.inr ?_, rest2, ?_⟩
            · rw [← h1]; rfl
            · rw [← h1, m3]
              simp [String.toList]

/-- Every match found in a line is the slice `[raw, raw, inner]` of a match of
`linkRegex` at some suffix of the line. -/
theorem mem_findAllFrom (skip : Nat) (s : Str) (m : List Str) (h : m ∈ findAllFrom skip s) :
    ∃ raw inner suffix, m = [raw, raw, inner] ∧ matchLinkAt suffix = some (raw, inner) ∧
      suffix <:+ s := by
  induction s generalizing skip with
  | nil => simp [findAllFrom] at h
  | cons c t ih =>
      cases skip with
      | succ k =>
          simp only [findAllFrom] at h
          obtain ⟨raw, inner, suffix, h1, h2, h3⟩ := ih k h
          exact ⟨raw, inner, suffix, h1, h2, h3.trans (List.suffix_cons c t)⟩
      | zero =>
          simp only [findAllFrom] at h
          cases hm : matchLinkAt (c :: t) with
          | none =>
              rw [hm] at h
              obtain ⟨raw, inner, suffix, h1, h2, h3⟩ := ih 0 h
              exact ⟨raw, inner, suffix, h1, h2, h3.trans (List.suffix_cons c t)⟩
          | some res =>
              obtain ⟨raw0, inner0⟩ := res
              rw [hm] at h
              rcases List.mem_cons.mp h with heq | hmem
              · exact ⟨raw0, inner0, c :: t, heq, hm, List.suffix_refl _⟩
              · obtain ⟨raw, inner, suffix, h1, h2, h3⟩ := ih _ hmem
                exact ⟨raw, inner, suffix, h1, h2, h3.trans (List.suffix_cons c t)⟩

theorem mem_parseMatches (lineNum : Nat) (ms : List (List Str)) (l : model.Link)
    (h : l ∈ parseMatches lineNum ms) :
    ∃ m ∈ ms, 3 ≤ m.length ∧
      l = parseLink (m.getD 1 []) (m.getD 2 [])
            (strings.HasPrefix (m.getD 1 []) "!".toList) (lineNum + 1) := by
  induction ms with
  | nil => simp [parseMatches] at h
  | cons m rest ih =>
      simp only [parseMatches] at h
      by_cases hlen : m.length < 3
      · rw [if_pos hlen] at h
        obtain ⟨m2, hm2, h2⟩ := ih h
        exact ⟨m2, List.mem_cons_of_mem _ hm2, h2⟩
      · rw [if_neg hlen] at h
        rcases List.mem_cons.mp h with heq | hmem
        · exact ⟨m, List.mem_cons_self _ _, by omega, heq⟩
        · obtain ⟨m2, hm2, h2⟩ := ih hmem
          exact ⟨m2, List.mem_cons_of_mem _ hm2, h2⟩

theorem mem_parseLines (lineNum : Nat) (lines : List Str) (l : model.Link)
    (h : l ∈ parseLines lineNum lines) :
    ∃ i line, lines.get? i = some line ∧
      l ∈ parseMatches (lineNum + i) (FindAllStringSubmatch line) := by
  induction lines generalizing lineNum with
  | nil => simp [parseLines] at h
  | cons line rest ih =>
      simp only [parseLines] at h
      rcases List.mem_append.mp h with h1 | h2
      · exact ⟨0, line, rfl, h1⟩
      · obtain ⟨i, line2, hi, hl⟩ := ih (lineNum + 1) h2
        refine ⟨i + 1, line2, hi, ?_⟩
        have : lineNum + (i + 1) = lineNum + 1 + i := by omega
        rw [this]
        exact hl

/-- Every extracted link is `parseLink` applied to a match of `linkRegex` on
one of the lines of the text. -/
theorem mem_parseContent (content : Str) (l : model.Link) (h : l ∈ parseContent content) :
    ∃ i line raw inner suffix, (strings.Split '\n' content).get? i = some line ∧
      matchLinkAt suffix = some (raw, inner) ∧ suffix <:+ line ∧
      l = parseLink raw inner (strings.HasPrefix raw "!".toList) (i + 1) := by
  obtain ⟨i, line, hi, hl⟩ := mem_parseLines 0 _ l h
  obtain ⟨m, hm, _, hlink⟩ := mem_parseMatches _ _ l hl
  obtain ⟨raw, inner, suffix, h1, h2, h3⟩ := mem_findAllFrom 0 line m hm
  subst h1
  refine ⟨i, line, raw, inner, suffix, hi, h2, h3, ?_⟩
  rw [hlink]
  simp

theorem parseLink_Target (raw inner : Str) (isEmbed : Bool) (lineNum : Nat) :
    (parseLink raw inner isEmbed lineNum).Target
      = strings.TrimSpace (inner.takeWhile (fun c => c != '|' && c != '#')) := by
  simp only [parseLink, strings.SplitN2_head, strings.takeWhile_takeWhile_ne]

end parser

/-! ## Lines and separators -/

namespace strings

theorem Split_ne_nil (sep : Char) (s : Str) : Split sep s ≠ [] := by
  cases s with
  | nil => simp [Split]
  | cons c t =>
      by_cases hc : c = sep
      · simp [Split, hc]
      · cases ht : Split sep t <;> simp [Split, hc, ht]

theorem Split_length (sep : Char) (s : Str) : (Split sep s).length = s.count sep + 1 := by
  induction s with
  | nil => simp [Split]
  | cons c t ih =>
      by_cases hc : c = sep
      · subst hc
        simp [Split, ih]
      · have hcount : (c :: t).count sep = t.count sep := by
          rw [List.count_cons]
          simp [hc]
        cases ht : Split sep t with
        | nil => exact absurd ht (Split_ne_nil sep t)
        | cons piece pieces =>
            rw [ht] at ih
            simp only [Split, if_neg hc, ht, hcount]
            simpa using ih

theorem not_mem_of_mem_Split (sep : Char) (s piece : Str) (h : piece ∈ Split sep s) :
    sep ∉ piece := by
  induction s generalizing piece with
  | nil =>
      simp only [Split, List.mem_singleton] at h
      subst h
      exact List.not_mem_nil sep
  | cons c t ih =>
      by_cases hc : c = sep
      · simp only [Split, if_pos hc, List.mem_cons] at h
        rcases h with h | h
        · subst h
          exact List.not_mem_nil sep
        · exact ih piece h
      · cases ht : Split sep t with
        | nil => exact absurd ht (Split_ne_nil sep t)
        | cons p0 pieces =>
            simp only [Split, if_neg hc, ht, List.mem_cons] at h
            rcases h with h | h
            · subst h
              intro hmem
              rcases List.mem_cons.mp hmem with h1 | h1
              · exact hc h1.symm
              · exact ih p0 (by rw [ht]; exact List.mem_cons_self _ _) h1
            · exact ih piece (by rw [ht]; exact List.mem_cons_of_mem _ h)

/-- The piece with index `i` sits in the text after exactly `i` separators. -/
theorem Split_get? (sep : Char) (s : Str) (i : Nat) (line : Str)
    (h : (Split sep s).get? i = some line) :
    ∃ a b, s = a ++ line ++ b ∧ a.count sep = i ∧ (i = 0 → a = []) := by
  induction s generalizing i line with
  | nil =>
      cases i with
      | zero =>
          simp only [Split, List.get?_cons_zero, Option.some.injEq] at h
          subst h
          exact ⟨[], [], rfl, rfl, fun _ => rfl⟩
      | succ j => simp [Split] at h
  | cons c t ih =>
      by_cases hc : c = sep
      · simp only [Split, if_pos hc] at h
        cases i with
        | zero =>
            simp only [List.get?_cons_zero, Option.some.injEq] at h
            subst h
            exact ⟨[], c :: t, rfl, rfl, fun _ => rfl⟩
        | succ j =>
            simp only [List.get?_cons_succ] at h
            obtain ⟨a, b, h1, h2, _⟩ := ih j line h
            refine ⟨c :: a, b, ?_, ?_, fun h0 => absurd h0 (Nat.succ_ne_zero j)⟩
            · rw [h1]; simp
            · rw [List.count_cons, h2]
              simp [hc]
      · cases ht : Split sep t with
        | nil => exact absurd ht (Split_ne_nil sep t)
        | cons p0 pieces =>
            simp only [Split, if_neg hc, ht] at h
            cases i with
            | zero =>
                simp only [List.get?_cons_zero, Option.some.injEq] at h
                subst h
                obtain ⟨a, b, h1, _, h3⟩ := ih 0 p0 (by rw [ht]; rfl)
                have ha : a = [] := h3 rfl
                subst ha
                refine ⟨[], b, ?_, rfl, fun _ => rfl⟩
                rw [h1]; simp
            | succ j =>
                simp only [List.get?_cons_succ] at h
                obtain ⟨a, b, h1, h2, _⟩ :=
                  ih (j + 1) line (by rw [ht]; simpa using h)
                refine ⟨c :: a, b, ?_, ?_, fun h0 => absurd h0 (Nat.succ_ne_zero j)⟩
                · rw [h1]; simp
                · rw [List.count_cons, h2]
                  simp [hc]

theorem Split_of_not_mem (sep : Char) (s : Str) (h : sep ∉ s) : Split sep s = [s] := by
  induction s with
  | nil => rfl
  | cons c t ih =>
      have hc : ¬ c = sep := fun e => h (e ▸ List.mem_cons_self _ _)
      have ht : sep ∉ t := fun e => h (List.mem_cons_of_mem _ e)
      simp only [Split, if_neg hc, ih ht]

theorem HasPrefix_iff (s p : Str) : HasPrefix s p = true ↔ ∃ t, s = p ++ t := by
  simp only [HasPrefix, Bool.and_eq_true, decide_eq_true_eq]
  constructor
  · rintro ⟨_, h2⟩
    refine ⟨s.drop p.length, ?_⟩
    conv_lhs => rw [← List.take_append_drop p.length s, h2]
  · rintro ⟨t, rfl⟩
    simp

/-- A successful cut is at the first occurrence of the separator. -/
theorem cutFirst_some (sep : Str) (s before after : Str)
    (h : cutFirst sep s = some (before, after)) :
    s = before ++ sep ++ after ∧
      ∀ a b, s = a ++ sep ++ b → before.length ≤ a.length := by
  induction s generalizing before after with
  | nil => simp [cutFirst] at h
  | cons c t ih =>
      simp only [cutFirst] at h
      by_cases hp : HasPrefix (c :: t) sep = true
      · rw [if_pos hp] at h
        simp only [Option.some.injEq, Prod.mk.injEq] at h
        obtain ⟨h1, h2⟩ := h
        subst h1
        obtain ⟨r, hr⟩ := (HasPrefix_iff _ _).mp hp
        refine ⟨?_, fun a b _ => Nat.zero_le _⟩
        rw [← h2, hr]
        simp
      · rw [if_neg hp] at h
        cases hrec : cutFirst sep t with
        | none => rw [hrec] at h; cases h
        | some res =>
            obtain ⟨a0, b0⟩ := res
            rw [hrec] at h
            simp only [Option.some.injEq, Prod.mk.injEq] at h
            obtain ⟨h1, h2⟩ := h
            subst h1 h2
            obtain ⟨i1, i2⟩ := ih a0 b0 hrec
            refine ⟨?_, ?_⟩
            · rw [i1]; simp
            · intro a b hab
              cases a with
              | nil =>
                  exfalso
                  apply hp
                  exact (HasPrefix_iff _ _).mpr ⟨b, by simpa using hab⟩
              | cons c2 a2 =>
                  simp only [List.cons_append, List.cons.injEq] at hab
                  have := i2 a2 b (by rw [hab.2])
                  simp only [List.length_cons]
                  omega

/-- A cut fails only when the separator does not occur. -/
theorem cutFirst_none (sep : Str) (hsep : sep ≠ []) (s : Str) (h : cutFirst sep s = none) :
    ∀ a b, s ≠ a ++ sep ++ b := by
  induction s with
  | nil =>
      intro a b hab
      have h1 : a ++ sep ++ b = [] := hab.symm
      simp only [List.append_eq_nil] at h1
      exact hsep h1.1.2
  | cons c t ih =>
      simp only [cutFirst] at h
      by_cases hp : HasPrefix (c :: t) sep = true
      · rw [if_pos hp] at h; cases h
      · rw [if_neg hp] at h
        cases hrec : cutFirst sep t with
        | some res => rw [hrec] at h; cases h
        | none =>
            intro a b hab
            cases a with
            | nil =>
                apply hp
                exact (HasPrefix_iff _ _).mpr ⟨b, by simpa using hab⟩
            | cons c2 a2 =>
                simp only [List.cons_append, List.cons.injEq] at hab
                exact ih hrec a2 b (by rw [hab.2])

/-- The cut of a text at the first occurrence of the separator. -/
theorem cutFirst_of_first (sep : Str) (hsep : sep ≠ []) (before after : Str)
    (hfirst : ∀ a b, before ++ sep ++ after = a ++ sep ++ b → before.length ≤ a.length) :
    cutFirst sep (before ++ sep ++ after) = some (before, after) := by
  cases h : cutFirst sep (before ++ sep ++ after) with
  | none => exact absurd rfl (cutFirst_none sep hsep _ h before after)
  | some res =>
      obtain ⟨a0, b0⟩ := res
      obtain ⟨h1, h2⟩ := cutFirst_some sep _ a0 b0 h
      have hle1 := h2 before after rfl
      have hle2 := hfirst a0 b0 h1
      have hlen : a0.length = before.length := by omega
      have h3 : before ++ (sep ++ after) = a0 ++ (sep ++ b0) := by
        simpa [List.append_assoc] using h1
      have ha : before = a0 := List.append_inj_left h3 hlen.symm
      subst ha
      have hb : after = b0 := by
        have := List.append_cancel_left h3
        exact List.append_cancel_left this
      subst hb
      rfl

theorem TrimSpace_of_isTrimmed (s : Str) (h : isTrimmed s = true) : TrimSpace s = s := by
  cases s with
  | nil => rfl
  | cons c t =>
      simp only [isTrimmed, List.head?_cons, Bool.and_eq_true, Bool.not_eq_true'] at h
      obtain ⟨h1, h2⟩ := h
      have hd : (c :: t).dropWhile isSpace = c :: t := by
        simp [List.dropWhile_cons, h1]
      have hne : (c :: t).reverse ≠ [] := by simp
      have hlast : (c :: t).getLast? = some ((c :: t).getLast (List.cons_ne_nil c t)) :=
        List.getLast?_eq_getLast _ _
      rw [hlast] at h2
      simp only [Bool.not_eq_true'] at h2
      have hd2 : (c :: t).reverse.dropWhile isSpace = (c :: t).reverse := by
        cases hr : (c :: t).reverse with
        | nil => exact absurd hr hne
        | cons r rs =>
            have hrhead : (c :: t).reverse.head? = some r := by rw [hr]; rfl
            rw [List.head?_reverse, hlast] at hrhead
            simp only [Option.some.injEq] at hrhead
            rw [hrhead] at h2
            simp [List.dropWhile_cons, h2]
      simp only [TrimSpace, hd, hd2, List.reverse_reverse]

theorem Split_append_sep (sep : Char) (a b : Str) :
    Split sep (a ++ sep :: b) = Split sep a ++ Split sep b := by
  induction a with
  | nil => simp [Split]
  | cons c t ih =>
      by_cases hc : c = sep
      · simp only [List.cons_append, Split, if_pos hc, List.append_eq, ih]
      · cases ht : Split sep t with
        | nil => exact absurd ht (Split_ne_nil sep t)
        | cons p0 pieces =>
            rw [ht] at ih
            simp only [List.cons_append, Split, if_neg hc, List.append_eq, ih, ht]

end strings

/-! ## Positions of the matches -/

namespace parser

theorem takeWhile_dropWhile_append (p : Char → Bool) (x : Char) (hx : p x = false) (r : Str) :
    ∀ (inner : Str), (∀ c ∈ inner, p c = true) →
      (inner ++ x :: r).takeWhile p = inner ∧ (inner ++ x :: r).dropWhile p = x :: r := by
  intro inner
  induction inner with
  | nil =>
      intro _
      simp [List.takeWhile_cons, List.dropWhile_cons, hx]
  | cons c t ih =>
      intro h
      have hc : p c = true := h c (List.mem_cons_self _ _)
      obtain ⟨h1, h2⟩ := ih (fun d hd => h d (List.mem_cons_of_mem _ hd))
      simp [List.takeWhile_cons, List.dropWhile_cons, hc, h1, h2]

/-- The bracket part matches a non-empty run without `]` in double brackets,
whatever follows. -/
theorem matchBrackets_append (inner rest : Str) (hne : inner ≠ [])
    (hno : ∀ c ∈ inner, c ≠ ']') :
    matchBrackets ("[[".toList ++ inner ++ "]]".toList ++ rest) = some (inner, rest) := by
  have hp : ∀ c ∈ inner, (fun c : Char => c != ']') c = true := by
    intro c hc
    simpa using hno c hc
  obtain ⟨h1, h2⟩ := takeWhile_dropWhile_append (fun c : Char => c != ']') ']' (by simp)
    (']' :: rest) inner hp
  have hshape : "[[".toList ++ inner ++ "]]".toList ++ rest
      = '[' :: '[' :: (inner ++ ']' :: ']' :: rest) := by
    simp [String.toList]
  rw [hshape]
  simp only [matchBrackets, h1, h2]
  simp [hne]

/-- An occurrence without `!` matches at its start, whatever follows. -/
theorem matchLinkAt_plain (inner rest : Str) (hne : inner ≠ []) (hno : ∀ c ∈ inner, c ≠ ']') :
    matchLinkAt ("[[".toList ++ inner ++ "]]".toList ++ rest)
      = some ("[[".toList ++ inner ++ "]]".toList, inner) := by
  have hb := matchBrackets_append inner rest hne hno
  have hshape : "[[".toList ++ inner ++ "]]".toList ++ rest
      = '[' :: ('[' :: (inner ++ "]]".toList ++ rest)) := by
    simp [String.toList]
  rw [hshape] at hb ⊢
  simp only [matchLinkAt, hb]
  simp [String.toList]

/-- An occurrence with `!` matches at its start, whatever follows. -/
theorem matchLinkAt_embed (inner rest : Str) (hne : inner ≠ []) (hno : ∀ c ∈ inner, c ≠ ']') :
    matchLinkAt ("![[".toList ++ inner ++ "]]".toList ++ rest)
      = some ("![[".toList ++ inner ++ "]]".toList, inner) := by
  have hb := matchBrackets_append inner rest hne hno
  have hshape : "![[".toList ++ inner ++ "]]".toList ++ rest
      = '!' :: ("[[".toList ++ inner ++ "]]".toList ++ rest) := by
    simp [String.toList]
  rw [hshape]
  simp only [matchLinkAt, hb]
  simp [String.toList]

/-- Whether a match stands depends on the matched text only, not on what
follows it. -/
theorem matchLinkAt_rest {raw inner rest : Str}
    (h : matchLinkAt (raw ++ rest) = some (raw, inner)) (rest2 : Str) :
    matchLinkAt (raw ++ rest2) = some (raw, inner) := by
  obtain ⟨hne, hno, hraw, _⟩ := matchLinkAt_some h
  rcases hraw with hraw | hraw
  · rw [hraw]
    exact matchLinkAt_embed inner rest2 hne hno
  · rw [hraw]
    exact matchLinkAt_plain inner rest2 hne hno

theorem findAllFrom_of_length_le (skip : Nat) (s : Str) (h : s.length ≤ skip) :
    findAllFrom skip s = [] := by
  induction s generalizing skip with
  | nil => cases skip <;> rfl
  | cons c t ih =>
      cases skip with
      | zero => simp at h
      | succ k =>
          simp only [findAllFrom]
          exact ih k (by simpa using h)

/-- A match without `!` at a text is a match with `!` at that text preceded
by `!`. -/
theorem matchLinkAt_bang {s raw inner : Str} (h : matchLinkAt s = some (raw, inner))
    (hhead : raw.head? = some '[') : ∃ raw2, matchLinkAt ('!' :: s) = some (raw2, inner) := by
  obtain ⟨hne, hno, hraw, rest, hs⟩ := matchLinkAt_some h
  rcases hraw with hraw | hraw
  · rw [hraw] at hhead
    simp [String.toList] at hhead
  · refine ⟨"![[".toList ++ inner ++ "]]".toList, ?_⟩
    have := matchLinkAt_embed inner rest hne hno
    rw [hs, hraw]
    simpa [String.toList] using this

theorem getLast?_of_matchLinkAt {s raw inner : Str} (h : matchLinkAt s = some (raw, inner)) :
    raw.getLast? = some ']' ∧ 1 ≤ raw.length := by
  obtain ⟨_, _, hraw, _⟩ := matchLinkAt_some h
  rcases hraw with hraw | hraw
  · have hshape : raw = ("![[".toList ++ inner ++ [']']) ++ [']'] := by
      rw [hraw]
      simp [String.toList]
    rw [hshape, List.getLast?_concat]
    simp
  · have hshape : raw = ("[[".toList ++ inner ++ [']']) ++ [']'] := by
      rw [hraw]
      simp [String.toList]
    rw [hshape, List.getLast?_concat]
    simp

/-- Every match found in a line stands at a position of the line that is not
covered by `skip`, and a match without `!` that starts after the covered part
is not preceded by `!`. -/
theorem mem_findAllFrom_pos (skip : Nat) (s : Str) (m : List Str)
    (h : m ∈ findAllFrom skip s) :
    ∃ pre raw inner rest, s = pre ++ raw ++ rest ∧ skip ≤ pre.length ∧ m = [raw, raw, inner] ∧
      matchLinkAt (raw ++ rest) = some (raw, inner) ∧
      (skip < pre.length → raw.head? = some '[' → pre.getLast? ≠ some '!') := by
  induction s generalizing skip with
  | nil => simp [findAllFrom] at h
  | cons c t ih =>
      cases skip with
      | succ k =>
          simp only [findAllFrom] at h
          obtain ⟨pre, raw, inner, rest, h1, h2, h3, h4, h5⟩ := ih k h
          refine ⟨c :: pre, raw, inner, rest, by rw [h1]; simp, by simpa using h2, h3, h4, ?_⟩
          intro hlt hhead
          have hlt2 : k < pre.length := by simpa using hlt
          cases pre with
          | nil => simp at hlt2
          | cons a l =>
              rw [List.getLast?_cons_cons]
              exact h5 hlt2 hhead
      | zero =>
          simp only [findAllFrom] at h
          cases hm : matchLinkAt (c :: t) with
          | none =>
              rw [hm] at h
              obtain ⟨pre, raw, inner, rest, h1, _, h3, h4, h5⟩ := ih 0 h
              refine ⟨c :: pre, raw, inner, rest, by rw [h1]; simp, Nat.zero_le _, h3, h4, ?_⟩
              intro _ hhead
              cases pre with
              | nil =>
                  intro hc
                  simp only [List.getLast?_singleton, Option.some.injEq] at hc
                  subst hc
                  have ht : t = raw ++ rest := by simpa using h1
                  obtain ⟨raw2, hbang⟩ := matchLinkAt_bang h4 hhead
                  rw [← ht, hm] at hbang
                  cases hbang
              | cons a l =>
                  rw [List.getLast?_cons_cons]
                  exact h5 (by simp) hhead
          | some res =>
              obtain ⟨raw0, inner0⟩ := res
              rw [hm] at h
              obtain ⟨_, _, _, rest0, hs0⟩ := matchLinkAt_some hm
              rcases List.mem_cons.mp h with heq | hmem
              · refine ⟨[], raw0, inner0, rest0, by simpa using hs0, Nat.le_refl _, heq, ?_, ?_⟩
                · rw [← hs0]; exact hm
                · intro hlt
                  simp at hlt
              · obtain ⟨pre, raw, inner, rest, h1, h2, h3, h4, h5⟩ := ih _ hmem
                refine ⟨c :: pre, raw, inner, rest, by rw [h1]; simp, Nat.zero_le _, h3, h4, ?_⟩
                intro _ hhead
                obtain ⟨hlast, hlen⟩ := getLast?_of_matchLinkAt hm
                by_cases hlt : raw0.length - 1 < pre.length
                · cases pre with
                  | nil => simp at hlt
                  | cons a l =>
                      rw [List.getLast?_cons_cons]
                      exact h5 hlt hhead
                · have hlen2 : (c :: pre).length = raw0.length := by
                    simp only [List.length_cons]
                    omega
                  have hboth : (c :: pre) ++ (raw ++ rest) = raw0 ++ rest0 := by
                    rw [← hs0, h1]
                    simp
                  have hpre : c :: pre = raw0 := List.append_inj_left hboth hlen2
                  rw [hpre, hlast]
                  simp

/-- Every extracted link comes from a match of `linkRegex` that stands at a
position of one of the lines of the text; its line number is the index of the
line plus one, and a match without `!` is not preceded by `!`. -/
theorem mem_parseContent_pos (content : Str) (l : model.Link) (h : l ∈ parseContent content) :
    ∃ i line pre raw inner post, (strings.Split '\n' content).get? i = some line ∧
      line = pre ++ raw ++ post ∧ matchLinkAt (raw ++ post) = some (raw, inner) ∧
      (raw.head? = some '[' → pre.getLast? ≠ some '!') ∧
      l = parseLink raw inner (strings.HasPrefix raw "!".toList) (i + 1) := by
  obtain ⟨i, line, hi, hl⟩ := mem_parseLines 0 _ l h
  obtain ⟨m, hm, _, hlink⟩ := mem_parseMatches _ _ l hl
  obtain ⟨pre, raw, inner, post, h1, _, h3, h4, h5⟩ := mem_findAllFrom_pos 0 line m hm
  subst h3
  refine ⟨i, line, pre, raw, inner, post, hi, h1, h4, ?_, ?_⟩
  · intro hhead
    cases pre with
    | nil => simp
    | cons a t => exact h5 (by simp) hhead
  · rw [hlink]
    simp

end parser

/-! ## The components of a link -/

namespace strings

theorem SplitN2_of_not_mem (s : Str) (sep : Char) (h : sep ∉ s) : SplitN2 s sep = [s] := by
  have hall : ∀ x ∈ s, (fun c : Char => c != sep) x = true := by
    intro x hx
    have : x ≠ sep := fun e => h (e ▸ hx)
    simpa using this
  have hd : s.dropWhile (fun c => c != sep) = [] := List.dropWhile_eq_nil_iff.mpr hall
  simp only [SplitN2, hd]

theorem split_at_first (s : Str) (sep : Char) (h : sep ∈ s) :
    ∃ left right, s = left ++ sep :: right ∧ sep ∉ left ∧
      s.takeWhile (fun c => c != sep) = left := by
  induction s with
  | nil => cases h
  | cons c t ih =>
      by_cases hc : c = sep
      · subst hc
        exact ⟨[], t, rfl, List.not_mem_nil _, by simp [List.takeWhile_cons]⟩
      · have ht : sep ∈ t := by
          rcases List.mem_cons.mp h with h1 | h1
          · exact absurd h1.symm hc
          · exact h1
        obtain ⟨left, right, h1, h2, h3⟩ := ih ht
        refine ⟨c :: left, right, by rw [h1]; simp, ?_, ?_⟩
        · intro hm
          rcases List.mem_cons.mp hm with h4 | h4
          · exact hc h4.symm
          · exact h2 h4
        · simp [List.takeWhile_cons, hc, h3]

theorem takeWhile_of_not_mem (s : Str) (sep : Char) (h : sep ∉ s) :
    s.takeWhile (fun c => c != sep) = s := by
  apply List.takeWhile_eq_self_iff.mpr
  intro x hx
  have : x ≠ sep := fun e => h (e ▸ hx)
  simpa using this

theorem SplitN2_append (left right : Str) (sep : Char) (h : sep ∉ left) :
    SplitN2 (left ++ sep :: right) sep = [left, right] := by
  have hall : ∀ x ∈ left, (fun c : Char => c != sep) x = true := by
    intro x hx
    have : x ≠ sep := fun e => h (e ▸ hx)
    simpa using this
  obtain ⟨h1, h2⟩ := parser.takeWhile_dropWhile_append (fun c : Char => c != sep) sep
    (by simp) right left hall
  simp only [SplitN2, h1, h2]

end strings

namespace parser

/-- The components of a link whose inner content has no `|`. -/
theorem parseLink_without_bar (raw inner : Str) (isEmbed : Bool) (lineNum : Nat)
    (hbar : '|' ∉ inner) :
    (parseLink raw inner isEmbed lineNum).Alias = [] ∧
    (parseLink raw inner isEmbed lineNum).Target
      = strings.TrimSpace (inner.takeWhile (fun c => c != '#')) ∧
    ('#' ∉ inner → (parseLink raw inner isEmbed lineNum).Heading = []) ∧
    (∀ x y, inner = x ++ '#' :: y → '#' ∉ x →
      (parseLink raw inner isEmbed lineNum).Heading = strings.TrimSpace y) := by
  have hparts := strings.SplitN2_of_not_mem inner '|' hbar
  refine ⟨?_, ?_, ?_, ?_⟩
  · simp only [parseLink, hparts]
    rfl
  · simp only [parseLink, hparts, List.getD_cons_zero, strings.SplitN2_head]
  · intro hhash
    simp only [parseLink, hparts, List.getD_cons_zero,
      strings.SplitN2_of_not_mem inner '#' hhash]
    rfl
  · intro x y hxy hx
    have hsplit : strings.SplitN2 inner '#' = [x, y] := by
      rw [hxy]
      exact strings.SplitN2_append x y '#' hx
    simp only [parseLink, hparts, List.getD_cons_zero, hsplit]
    rfl

/-- The components of a link whose inner content is `left`, a `|` and `right`,
the `|` being the first one. -/
theorem parseLink_with_bar (raw left right : Str) (isEmbed : Bool) (lineNum : Nat)
    (hbar : '|' ∉ left) :
    (parseLink raw (left ++ '|' :: right) isEmbed lineNum).Alias = right ∧
    (parseLink raw (left ++ '|' :: right) isEmbed lineNum).Target
      = strings.TrimSpace (left.takeWhile (fun c => c != '#')) ∧
    ('#' ∉ left → (parseLink raw (left ++ '|' :: right) isEmbed lineNum).Heading = []) ∧
    (∀ x y, left = x ++ '#' :: y → '#' ∉ x →
      (parseLink raw (left ++ '|' :: right) isEmbed lineNum).Heading = strings.TrimSpace y) := by
  have hparts := strings.SplitN2_append left right '|' hbar
  refine ⟨?_, ?_, ?_, ?_⟩
  · simp only [parseLink, hparts]
    rfl
  · simp only [parseLink, hparts, List.getD_cons_zero, strings.SplitN2_head]
  · intro hhash
    simp only [parseLink, hparts, List.getD_cons_zero,
      strings.SplitN2_of_not_mem left '#' hhash]
    rfl
  · intro x y hxy hx
    have hsplit : strings.SplitN2 left '#' = [x, y] := by
      rw [hxy]
      exact strings.SplitN2_append x y '#' hx
    simp only [parseLink, hparts, List.getD_cons_zero, hsplit]
    rfl

/-- The shape of the raw text of an extracted link, by its embed flag. -/
theorem raw_shape {raw inner rest : Str} (h : matchLinkAt (raw ++ rest) = some (raw, inner)) :
    inner ≠ [] ∧ (∀ c ∈ inner, c ≠ ']') ∧
    raw = (if strings.HasPrefix raw "!".toList then "!".toList else [])
            ++ "[[".toList ++ inner ++ "]]".toList ∧
    (strings.HasPrefix raw "!".toList = true ↔ raw.head? = some '!') ∧
    (strings.HasPrefix raw "!".toList = false → raw.head? = some '[') := by
  obtain ⟨hne, hno, hraw, _⟩ := matchLinkAt_some h
  rcases hraw with hraw | hraw
  · have hp : strings.HasPrefix raw "!".toList = true := by
      rw [hraw]
      simp [strings.HasPrefix, String.toList]
    refine ⟨hne, hno, ?_, ?_, ?_⟩
    · rw [hp, if_pos rfl]
      rw [hraw]
      simp [String.toList]
    · rw [hp, hraw]
      simp [String.toList]
    · intro hf
      rw [hp] at hf
      cases hf
  · have hp : strings.HasPrefix raw "!".toList = false := by
      rw [hraw]
      simp [strings.HasPrefix, String.toList]
    refine ⟨hne, hno, ?_, ?_, ?_⟩
    · rw [hp]
      rw [hraw]
      simp [String.toList]
    · rw [hp, hraw]
      simp [String.toList]
    · intro _
      rw [hraw]
      simp [String.toList]

end parser

/-! ## The round trip -/

namespace parser

theorem findAllFrom_whole (raw inner : Str) (h : matchLinkAt raw = some (raw, inner)) :
    findAllFrom 0 raw = [[raw, raw, inner]] := by
  cases raw with
  | nil => simp [matchLinkAt] at h
  | cons c t =>
      simp only [findAllFrom, h]
      rw [findAllFrom_of_length_le _ t (by simp)]

/-- A text without newline that the pattern matches as a whole yields exactly
one link. -/
theorem parseContent_whole (raw inner : Str) (hnl : '\n' ∉ raw)
    (h : matchLinkAt raw = some (raw, inner)) :
    parseContent raw = [parseLink raw inner (strings.HasPrefix raw "!".toList) 1] := by
  simp only [parseContent, strings.Split_of_not_mem '\n' raw hnl, parseLines,
    FindAllStringSubmatch, findAllFrom_whole raw inner h, List.append_nil]
  simp [parseMatches]

theorem parseLink_eta (raw inner : Str) (isEmbed : Bool) (lineNum : Nat) :
    parseLink raw inner isEmbed lineNum
      = { Raw := raw, Target := (parseLink raw inner isEmbed lineNum).Target,
          Heading := (parseLink raw inner isEmbed lineNum).Heading,
          Alias := (parseLink raw inner isEmbed lineNum).Alias,
          IsEmbed := isEmbed, Line := lineNum } := rfl

/-- The target and heading read from the part `T`, or `T#h`, of an inner
content, when `T` has no `#`. -/
theorem takeWhile_hash_part (T : Str) (H : Option Str) (hT : '#' ∉ T) :
    (T ++ headingPart H).takeWhile (fun c => c != '#') = T := by
  cases H with
  | none =>
      simp only [headingPart, List.append_nil]
      exact strings.takeWhile_of_not_mem T '#' hT
  | some h =>
      have hall : ∀ x ∈ T, (fun c : Char => c != '#') x = true := by
        intro x hx
        have : x ≠ '#' := fun e => hT (e ▸ hx)
        simpa using this
      exact (takeWhile_dropWhile_append (fun c : Char => c != '#') '#' (by simp) h T hall).1

/-- The round trip for well-formed components: the text synthesized from
them yields exactly one link, with these components. -/
theorem parseContent_synthesize (T : Str) (H A : Option Str) (E : Bool)
    (hT1 : T ≠ [])
    (hT2 : ∀ c ∈ T, c ≠ ']' ∧ c ≠ '|' ∧ c ≠ '#' ∧ c ≠ '\n')
    (hT3 : strings.isTrimmed T = true)
    (hH : ∀ h, H = some h →
      (∀ c ∈ h, c ≠ ']' ∧ c ≠ '|' ∧ c ≠ '\n') ∧ strings.isTrimmed h = true)
    (hA : ∀ a, A = some a → ∀ c ∈ a, c ≠ ']' ∧ c ≠ '\n') :
    parseContent (synthesize T H A E)
      = [{ Raw := synthesize T H A E, Target := T, Heading := H.getD [], Alias := A.getD [],
           IsEmbed := E, Line := 1 }] := by
  -- the inner content and its characters
  have hinner : ∀ c ∈ T ++ headingPart H ++ aliasPart A, c ≠ ']' ∧ c ≠ '\n' := by
    intro c hc
    simp only [List.mem_append] at hc
    rcases hc with (hc | hc) | hc
    · exact ⟨(hT2 c hc).1, (hT2 c hc).2.2.2⟩
    · cases H with
      | none => cases hc
      | some h =>
          rcases List.mem_cons.mp hc with h1 | h1
          · subst h1
            exact ⟨by decide, by decide⟩
          · exact ⟨((hH h rfl).1 c h1).1, ((hH h rfl).1 c h1).2.2⟩
    · cases A with
      | none => cases hc
      | some a =>
          rcases List.mem_cons.mp hc with h1 | h1
          · subst h1
            exact ⟨by decide, by decide⟩
          · exact hA a rfl c h1
  have hne : T ++ headingPart H ++ aliasPart A ≠ [] := by
    cases T with
    | nil => exact absurd rfl hT1
    | cons c t => simp
  have hmatch : matchLinkAt (synthesize T H A E) = some (synthesize T H A E, T ++ headingPart H ++ aliasPart A) := by
    cases E with
    | true =>
        have := matchLinkAt_embed _ [] hne (fun c hc => (hinner c hc).1)
        simpa [synthesize, String.toList] using this
    | false =>
        have := matchLinkAt_plain _ [] hne (fun c hc => (hinner c hc).1)
        simpa [synthesize, String.toList] using this
  have hnl : '\n' ∉ synthesize T H A E := by
    intro hmem
    have hcases : '\n' ∈ (if E then "!".toList else []) ∨ '\n' ∈ "[[".toList
        ∨ '\n' ∈ T ++ headingPart H ++ aliasPart A ∨ '\n' ∈ "]]".toList := by
      simp only [synthesize, List.mem_append] at hmem ⊢
      tauto
    rcases hcases with h1 | h1 | h1 | h1
    · cases E <;> simp [String.toList] at h1
    · simp [String.toList] at h1
    · exact (hinner _ h1).2 rfl
    · simp [String.toList] at h1
  have hembed : strings.HasPrefix (synthesize T H A E) "!".toList = E := by
    cases E <;> simp [synthesize, strings.HasPrefix, String.toList]
  -- the part before the first bar
  have hbarleft : '|' ∉ T ++ headingPart H := by
    intro hmem
    rcases List.mem_append.mp hmem with h1 | h1
    · exact (hT2 _ h1).2.1 rfl
    · cases H with
      | none => cases h1
      | some h =>
          rcases List.mem_cons.mp h1 with h2 | h2
          · cases h2
          · exact ((hH h rfl).1 _ h2).2.1 rfl
  have hhashT : '#' ∉ T := fun hmem => (hT2 _ hmem).2.2.1 rfl
  have htarget : strings.TrimSpace ((T ++ headingPart H).takeWhile (fun c => c != '#')) = T := by
    rw [takeWhile_hash_part T H hhashT]
    exact strings.TrimSpace_of_isTrimmed T hT3
  rw [parseContent_whole _ _ hnl hmatch, hembed, parseLink_eta]
  cases A with
  | none =>
      simp only [aliasPart, List.append_nil]
      obtain ⟨h1, h2, h3, h4⟩ := parseLink_without_bar (synthesize T H none E)
        (T ++ headingPart H) E 1 hbarleft
      rw [h1, h2, htarget]
      cases H with
      | none =>
          rw [h3 (by simpa [headingPart] using hhashT)]
          rfl
      | some h =>
          rw [h4 T h rfl hhashT, strings.TrimSpace_of_isTrimmed h (hH h rfl).2]
          rfl
  | some a =>
      simp only [aliasPart]
      obtain ⟨h1, h2, h3, h4⟩ := parseLink_with_bar (synthesize T H (some a) E)
        (T ++ headingPart H) a E 1 hbarleft
      rw [h1, h2, htarget]
      cases H with
      | none =>
          rw [h3 (by simpa [headingPart] using hhashT)]
          rfl
      | some h =>
          rw [h4 T h rfl hhashT, strings.TrimSpace_of_isTrimmed h (hH h rfl).2]
          rfl

end parser

/-! ## The metadata block -/

namespace parser

/-- The front matter of a text: either the text is `---`, a newline, a block,
the closing `---` between two newlines at its first occurrence, and a tail, and
the block is extracted; or the text has no such shape and nothing is
extracted. -/
theorem extractFrontmatter_cases (content : Str) :
    (∃ block tail, content = "---\n".toList ++ block ++ "\n---\n".toList ++ tail
        ∧ (∀ a b, block ++ "\n---\n".toList ++ tail = a ++ "\n---\n".toList ++ b →
            block.length ≤ a.length)
        ∧ extractFrontmatter content = block)
    ∨ ((∀ a b, content ≠ "---\n".toList ++ a ++ "\n---\n".toList ++ b)
        ∧ extractFrontmatter content = []) := by
  by_cases hp : strings.HasPrefix content "---\n".toList = true
  · obtain ⟨rest, hrest⟩ := (strings.HasPrefix_iff _ _).mp hp
    have hdrop : content.drop 4 = rest := by
      rw [hrest]
      simp [String.toList]
    cases hcut : strings.cutFirst "\n---\n".toList rest with
    | none =>
        right
        refine ⟨?_, ?_⟩
        · intro a b hab
          have hne : "\n---\n".toList ≠ [] := by decide
          apply strings.cutFirst_none _ hne rest hcut a b
          rw [hrest] at hab
          have := List.append_cancel_left (by simpa [List.append_assoc] using hab :
            "---\n".toList ++ rest = "---\n".toList ++ (a ++ "\n---\n".toList ++ b))
          exact this
        · simp only [extractFrontmatter, hp, hdrop, strings.SplitN2Sep, hcut]
          rfl
    | some res =>
        obtain ⟨block, tail⟩ := res
        obtain ⟨h1, h2⟩ := strings.cutFirst_some _ rest block tail hcut
        left
        refine ⟨block, tail, ?_, ?_, ?_⟩
        · rw [hrest, h1]
          simp [List.append_assoc]
        · intro a b hab
          exact h2 a b (by rw [h1]; exact hab)
        · simp only [extractFrontmatter, hp, hdrop, strings.SplitN2Sep, hcut]
          rfl
  · right
    refine ⟨?_, ?_⟩
    · intro a b hab
      apply hp
      exact (strings.HasPrefix_iff _ _).mpr
        ⟨a ++ "\n---\n".toList ++ b, by rw [hab]; simp [List.append_assoc]⟩
    · have hp2 : strings.HasPrefix content "---\n".toList = false := by
        cases h : strings.HasPrefix content "---\n".toList with
        | true => exact absurd h hp
        | false => rfl
      simp only [extractFrontmatter, hp2]
      rfl

/-- The block between the opening marker and the first closing marker is what
is extracted. -/
theorem extractFrontmatter_of_shape (block tail : Str)
    (hfirst : ∀ a b, block ++ "\n---\n".toList ++ tail = a ++ "\n---\n".toList ++ b →
      block.length ≤ a.length) :
    extractFrontmatter ("---\n".toList ++ block ++ "\n---\n".toList ++ tail) = block := by
  have hp : strings.HasPrefix ("---\n".toList ++ block ++ "\n---\n".toList ++ tail)
      "---\n".toList = true :=
    (strings.HasPrefix_iff _ _).mpr ⟨block ++ "\n---\n".toList ++ tail, by
      simp [List.append_assoc]⟩
  have hdrop : ("---\n".toList ++ block ++ "\n---\n".toList ++ tail).drop 4
      = block ++ "\n---\n".toList ++ tail := by
    simp [String.toList]
  have hcut := strings.cutFirst_of_first "\n---\n".toList (by decide) block tail hfirst
  simp only [extractFrontmatter, hp, hdrop, strings.SplitN2Sep, hcut]
  rfl

theorem appendStrings_eq (items : List (Option Str)) (aliases : List Str) :
    appendStrings items aliases = aliases ++ items.filterMap id := by
  induction items generalizing aliases with
  | nil => simp [appendStrings]
  | cons item rest ih =>
      cases item with
      | none => simp [appendStrings, ih]
      | some str => simp [appendStrings, ih]

/-- `ParseAliases` by the extracted block and what the decoder returns for
it. -/
theorem ParseAliases_eq (unmarshal : Str → Except GoError Dynamic) (content : Str) :
    ParseAliases unmarshal content
      = if extractFrontmatter content = [] then .ok []
        else
          match unmarshal (extractFrontmatter content) with
          | .error _ => .ok []
          | .ok .isNil => .ok []
          | .ok (.isString v) => .ok [v]
          | .ok (.isSlice v) => .ok (v.filterMap id)
          | .ok .isOther => .ok [] := by
  unfold ParseAliases
  by_cases h : extractFrontmatter content = []
  · simp only [h, if_true]
  · simp only [h, if_false]
    cases hu : unmarshal (extractFrontmatter content) with
    | error e => rfl
    | ok v =>
        cases v with
        | isNil => rfl
        | isString v => rfl
        | isSlice v => simp [appendStrings_eq]
        | isOther => rfl

end parser

namespace validator

/-- The pass over the documents succeeds exactly when every document is
parsed, and its error is the wrapped error of a document. -/
theorem validateFiles_result (p : parser.Parser) (r : resolver.Resolver)
    (idx : index.VaultIndex) :
    ∀ (files : List Str) (m0 : GoMap (List model.BrokenLink)),
      ((∀ f ∈ files, ∃ links, p.ParseFile f = .ok links) →
        ∃ m, validateFiles p r idx files m0 = .ok m)
      ∧ ((∃ f ∈ files, ∃ e, p.ParseFile f = .error e) →
        ∃ f ∈ files, ∃ e, p.ParseFile f = .error e
          ∧ validateFiles p r idx files m0 = .error (.wrap e "parse file failed")) := by
  intro files
  induction files with
  | nil =>
      intro m0
      refine ⟨fun _ => ⟨m0, rfl⟩, ?_⟩
      rintro ⟨f, hf, _⟩
      cases hf
  | cons file rest ih =>
      intro m0
      cases hparse : p.ParseFile file with
      | error e =>
          refine ⟨?_, ?_⟩
          · intro hall
            obtain ⟨links, hl⟩ := hall file (List.mem_cons_self _ _)
            rw [hparse] at hl
            cases hl
          · intro _
            refine ⟨file, List.mem_cons_self _ _, e, hparse, ?_⟩
            simp only [validateFiles, hparse]
      | ok links =>
          obtain ⟨ih1, ih2⟩ := ih (validateLinks r idx file links m0)
          refine ⟨?_, ?_⟩
          · intro hall
            obtain ⟨m, hm⟩ := ih1 (fun f hf => hall f (List.mem_cons_of_mem _ hf))
            exact ⟨m, by simp only [validateFiles, hparse, hm]⟩
          · rintro ⟨f, hf, e, he⟩
            have hrest : ∃ f ∈ rest, ∃ e, p.ParseFile f = .error e := by
              rcases List.mem_cons.mp hf with heq | hmem
              · subst heq
                rw [hparse] at he
                cases he
              · exact ⟨f, hmem, e, he⟩
            obtain ⟨f2, hf2, e2, he2, hv⟩ := ih2 hrest
            exact ⟨f2, List.mem_cons_of_mem _ hf2, e2, he2, by
              simp only [validateFiles, hparse, hv]⟩

end validator

/-! ## The lines of a text with a metadata block -/

namespace strings

theorem Split_frontmatter (block tail : Str) :
    Split '\n' ("---\n".toList ++ block ++ "\n---\n".toList ++ tail)
      = ["---".toList] ++ Split '\n' block ++ (["---".toList] ++ Split '\n' tail) := by
  have hshape : "---\n".toList ++ block ++ "\n---\n".toList ++ tail
      = "---".toList ++ '\n' :: (block ++ '\n' :: ("---".toList ++ '\n' :: tail)) := by
    simp [String.toList]
  rw [hshape, Split_append_sep, Split_append_sep, Split_append_sep]
  have h3 : Split '\n' "---".toList = ["---".toList] := by decide
  rw [h3]
  simp

end strings

/-! ## Failures of the index builder -/

namespace parser

theorem ParseAliases_total (unmarshal : Str → Except GoError Dynamic) (content : Str) :
    ∃ aliases, ParseAliases unmarshal content = .ok aliases := by
  rw [ParseAliases_eq]
  by_cases h : extractFrontmatter content = []
  · exact ⟨[], by simp only [h, if_true]⟩
  · simp only [h, if_false]
    cases unmarshal (extractFrontmatter content) with
    | error e => exact ⟨[], rfl⟩
    | ok v => cases v <;> exact ⟨_, rfl⟩

end parser

namespace index

theorem indexEntry_of_err (lowerTable : Char → Char) (m0 : GoMap Str) (e : WalkEntry)
    (err : GoError) (h : e.err = some err) : indexEntry lowerTable m0 e = .error err := by
  simp only [indexEntry, h]

theorem indexEntry_of_no_err (lowerTable : Char → Char) (m0 : GoMap Str) (e : WalkEntry)
    (h : e.err = none) :
    indexEntry lowerTable m0 e
      = .ok (if e.isDir then m0
             else m0.set (normalizeTarget lowerTable (filepath.Base e.path)) e.path) := by
  simp only [indexEntry, h]
  cases e.isDir <;> rfl

/-- The walk of `Build` fails exactly when the walk reports an error for one
of its entries, and then with the error of the first such entry. -/
theorem walkFold_indexEntry_error_iff (lowerTable : Char → Char) :
    ∀ (es : List WalkEntry) (m0 : GoMap Str) (err : GoError),
      filepath.walkFold (indexEntry lowerTable) es m0 = .error err ↔
        ∃ pre e post, es = pre ++ e :: post ∧ (∀ x ∈ pre, x.err = none) ∧ e.err = some err := by
  intro es
  induction es with
  | nil =>
      intro m0 err
      simp only [filepath.walkFold]
      constructor
      · intro h; cases h
      · rintro ⟨pre, e, post, h, _⟩
        cases pre <;> cases h
  | cons e rest ih =>
      intro m0 err
      simp only [filepath.walkFold]
      cases herr : e.err with
      | some err0 =>
          rw [indexEntry_of_err lowerTable m0 e err0 herr]
          constructor
          · intro h
            cases h
            exact ⟨[], e, rest, rfl, fun x hx => absurd hx (List.not_mem_nil x), herr⟩
          · rintro ⟨pre, e2, post, hsplit, hpre, he2⟩
            cases pre with
            | nil =>
                simp only [List.nil_append, List.cons.injEq] at hsplit
                rw [← hsplit.1, herr] at he2
                cases he2
                rfl
            | cons x pre2 =>
                simp only [List.cons_append, List.cons.injEq] at hsplit
                have := hpre x (List.mem_cons_self x pre2)
                rw [← hsplit.1, herr] at this
                cases this
      | none =>
          rw [indexEntry_of_no_err lowerTable m0 e herr]
          simp only
          rw [ih]
          constructor
          · rintro ⟨pre, e2, post, hsplit, hpre, he2⟩
            refine ⟨e :: pre, e2, post, by rw [hsplit]; rfl, ?_, he2⟩
            intro x hx
            rcases List.mem_cons.mp hx with hxe | hxp
            · rw [hxe]; exact herr
            · exact hpre x hxp
          · rintro ⟨pre, e2, post, hsplit, hpre, he2⟩
            cases pre with
            | nil =>
                simp only [List.nil_append, List.cons.injEq] at hsplit
                rw [← hsplit.1, herr] at he2
                cases he2
            | cons x pre2 =>
                simp only [List.cons_append, List.cons.injEq] at hsplit
                exact ⟨pre2, e2, post, hsplit.2,
                  fun y hy => hpre y (List.mem_cons_of_mem x hy), he2⟩

/-- With a parser whose alias extraction never fails, the pass of `Build`
over the documents fails exactly when a document cannot be read, and then with
the wrapped error of the first such document. -/
theorem indexFiles_error_iff (lowerTable : Char → Char) (fs : FileSystem) (p : parser.Parser)
    (htotal : ∀ content, ∃ aliases, p.ParseAliases content = .ok aliases) :
    ∀ (files : List Str) (m0 : GoMap Str) (err : GoError),
      indexFiles lowerTable fs p files m0 = .error err ↔
        ∃ pre f post cause, files = pre ++ f :: post
          ∧ (∀ x ∈ pre, ∃ content, fs.readFile x = .ok content)
          ∧ fs.readFile f = .error cause ∧ err = .wrap cause "read file failed" := by
  intro files
  induction files with
  | nil =>
      intro m0 err
      simp only [indexFiles]
      constructor
      · intro h; cases h
      · rintro ⟨pre, f, post, cause, h, _⟩
        cases pre <;> cases h
  | cons f rest ih =>
      intro m0 err
      simp only [indexFiles]
      cases hread : fs.readFile f with
      | error cause0 =>
          simp only
          constructor
          · intro h
            cases h
            exact ⟨[], f, rest, cause0, rfl, fun x hx => absurd hx (List.not_mem_nil x),
              hread, rfl⟩
          · rintro ⟨pre, f2, post, cause, hsplit, hpre, hf2, herr⟩
            cases pre with
            | nil =>
                simp only [List.nil_append, List.cons.injEq] at hsplit
                rw [← hsplit.1, hread] at hf2
                cases hf2
                rw [herr]
            | cons x pre2 =>
                simp only [List.cons_append, List.cons.injEq] at hsplit
                obtain ⟨c, hc⟩ := hpre x (List.mem_cons_self x pre2)
                rw [← hsplit.1, hread] at hc
                cases hc
      | ok content =>
          simp only
          obtain ⟨declared, hdecl⟩ := htotal content
          rw [hdecl]
          simp only
          rw [ih]
          constructor
          · rintro ⟨pre, f2, post, cause, hsplit, hpre, hf2, herr⟩
            refine ⟨f :: pre, f2, post, cause, by rw [hsplit]; rfl, ?_, hf2, herr⟩
            intro x hx
            rcases List.mem_cons.mp hx with hxe | hxp
            · rw [hxe]; exact ⟨content, hread⟩
            · exact hpre x hxp
          · rintro ⟨pre, f2, post, cause, hsplit, hpre, hf2, herr⟩
            cases pre with
            | nil =>
                simp only [List.nil_append, List.cons.injEq] at hsplit
                rw [← hsplit.1, hread] at hf2
                cases hf2
            | cons x pre2 =>
                simp only [List.cons_append, List.cons.injEq] at hsplit
                exact ⟨pre2, f2, post, cause, hsplit.2,
                  fun y hy => hpre y (List.mem_cons_of_mem x hy), hf2, herr⟩

end index

namespace index

/-- The first element of a list with a property, when some element has it. -/
theorem exists_first {α : Type} (P : α → Prop) :
    ∀ l : List α, (∃ x ∈ l, P x) →
      ∃ pre x post, l = pre ++ x :: post ∧ (∀ y ∈ pre, ¬ P y) ∧ P x := by
  intro l
  induction l with
  | nil =>
      rintro ⟨x, hx, _⟩
      exact absurd hx (List.not_mem_nil x)
  | cons a rest ih =>
      rintro ⟨x, hx, hP⟩
      by_cases ha : P a
      · exact ⟨[], a, rest, rfl, fun y hy => absurd hy (List.not_mem_nil y), ha⟩
      · rcases List.mem_cons.mp hx with hxa | hxr
        · rw [hxa] at hP
          exact absurd hP ha
        · obtain ⟨pre, y, post, hsplit, hpre, hy⟩ := ih ⟨x, hxr, hP⟩
          refine ⟨a :: pre, y, post, by rw [hsplit]; rfl, ?_, hy⟩
          intro z hz
          rcases List.mem_cons.mp hz with hza | hzp
          · rw [hza]; exact ha
          · exact hpre z hzp

/-- The errors of `Build` with a parser whose alias extraction never fails:
the wrapped error of the first entry for which the walk reports one, or, when
the walk reports none, the wrapped error of the first document that cannot be
read. -/
theorem Build_error_iff (lowerTable : Char → Char) (fs : FileSystem) (p : parser.Parser)
    (htotal : ∀ content, ∃ aliases, p.ParseAliases content = .ok aliases)
    (vaultPath : Str) (files : List Str) (err : GoError) :
    Build lowerTable fs p vaultPath files = .error err ↔
      ((∃ pre e post cause, fs.walk vaultPath = pre ++ e :: post
          ∧ (∀ x ∈ pre, x.err = none) ∧ e.err = some cause
          ∧ err = .wrap cause "walk vault failed")
       ∨ ((∀ e ∈ fs.walk vaultPath, e.err = none)
          ∧ ∃ pre f post cause, files = pre ++ f :: post
            ∧ (∀ x ∈ pre, ∃ content, fs.readFile x = .ok content)
            ∧ fs.readFile f = .error cause ∧ err = .wrap cause "read file failed")) := by
  unfold Build filepath.WalkDir
  cases hwalk : filepath.walkFold (indexEntry lowerTable) (fs.walk vaultPath) GoMap.empty with
  | error cause0 =>
      simp only
      obtain ⟨pre, e, post, hsplit, hpre, he⟩ :=
        (walkFold_indexEntry_error_iff lowerTable _ _ _).mp hwalk
      constructor
      · intro h
        cases h
        exact Or.inl ⟨pre, e, post, cause0, hsplit, hpre, he, rfl⟩
      · rintro (⟨pre2, e2, post2, cause, hsplit2, hpre2, he2, herr⟩ | ⟨hnone, _⟩)
        · have h2 := (walkFold_indexEntry_error_iff lowerTable _ GoMap.empty cause).mpr
            ⟨pre2, e2, post2, hsplit2, hpre2, he2⟩
          rw [hwalk] at h2
          cases h2
          rw [herr]
        · have := hnone e (by rw [hsplit]; simp)
          rw [he] at this
          cases this
  | ok indexed =>
      simp only
      have hnone : ∀ e ∈ fs.walk vaultPath, e.err = none := by
        intro e hmem
        cases herr : e.err with
        | none => rfl
        | some cause =>
            exfalso
            obtain ⟨pre, x, post, hsplit, hpre, hx⟩ :=
              exists_first (fun x : WalkEntry => x.err ≠ none) (fs.walk vaultPath)
                ⟨e, hmem, by show e.err ≠ none; rw [herr]; simp⟩
            cases hxe : x.err with
            | none => exact hx hxe
            | some c =>
                have h2 := (walkFold_indexEntry_error_iff lowerTable _ GoMap.empty c).mpr
                  ⟨pre, x, post, hsplit, fun y hy => by
                    have := hpre y hy
                    simpa using this, hxe⟩
                rw [hwalk] at h2
                cases h2
      cases hal : indexFiles lowerTable fs p files GoMap.empty with
      | error cause0 =>
          simp only
          obtain ⟨pre, f, post, cause, hsplit, hpre, hf, herr⟩ :=
            (indexFiles_error_iff lowerTable fs p htotal _ _ _).mp hal
          constructor
          · intro h
            cases h
            exact Or.inr ⟨hnone, pre, f, post, cause, hsplit, hpre, hf, herr⟩
          · rintro (⟨pre2, e2, post2, cause2, hsplit2, _, he2, _⟩ |
              ⟨_, pre2, f2, post2, cause2, hsplit2, hpre2, hf2, herr2⟩)
            · have := hnone e2 (by rw [hsplit2]; simp)
              rw [he2] at this
              cases this
            · have h2 := (indexFiles_error_iff lowerTable fs p htotal files GoMap.empty err).mpr
                ⟨pre2, f2, post2, cause2, hsplit2, hpre2, hf2, herr2⟩
              rw [hal] at h2
              cases h2
              rfl
      | ok aliases =>
          simp only
          constructor
          · intro h; cases h
          · rintro (⟨pre2, e2, post2, cause2, hsplit2, _, he2, _⟩ |
              ⟨_, pre2, f2, post2, cause2, hsplit2, hpre2, hf2, herr2⟩)
            · have := hnone e2 (by rw [hsplit2]; simp)
              rw [he2] at this
              cases this
            · have h2 := (indexFiles_error_iff lowerTable fs p htotal files GoMap.empty err).mpr
                ⟨pre2, f2, post2, cause2, hsplit2, hpre2, hf2, herr2⟩
              rw [hal] at h2
              cases h2

end index

/-! ## Collisions in the index -/

namespace index

/-- Walked entries that are directories or have another normalized base name
leave the entry of the key `k` as it was. -/
theorem walkFold_indexEntry_lookup_of_no_match (lowerTable : Char → Char) (k : Str) :
    ∀ (es : List WalkEntry) (m0 m : GoMap Str),
      filepath.walkFold (indexEntry lowerTable) es m0 = .ok m →
      (∀ e ∈ es, e.isDir = false → normalizeTarget lowerTable (filepath.Base e.path) ≠ k) →
      m.lookup k = m0.lookup k := by
  intro es
  induction es with
  | nil =>
      intro m0 m h _
      simp only [filepath.walkFold, Except.ok.injEq] at h
      rw [h]
  | cons e rest ih =>
      intro m0 m h hno
      simp only [filepath.walkFold] at h
      cases herr : e.err with
      | some err =>
          rw [indexEntry_of_err lowerTable m0 e err herr] at h
          cases h
      | none =>
          rw [indexEntry_of_no_err lowerTable m0 e herr] at h
          simp only at h
          rw [ih _ m h (fun x hx => hno x (List.mem_cons_of_mem e hx))]
          cases hdir : e.isDir with
          | true => simp only [if_true]
          | false =>
              simp only [Bool.false_eq_true, if_false]
              exact GoMap.lookup_set_ne m0 _ k _ (hno e (List.mem_cons_self e rest) hdir)

/-- The files mapping holds, for a normalized base name, the path of the last
walked file with that normalized base name. -/
theorem walkFold_indexEntry_last (lowerTable : Char → Char) (e : WalkEntry)
    (post : List WalkEntry) (hfile : e.isDir = false)
    (hlast : ∀ x ∈ post, x.isDir = false →
      normalizeTarget lowerTable (filepath.Base x.path)
        ≠ normalizeTarget lowerTable (filepath.Base e.path)) :
    ∀ (pre : List WalkEntry) (m0 m : GoMap Str),
      filepath.walkFold (indexEntry lowerTable) (pre ++ e :: post) m0 = .ok m →
      m.lookup (normalizeTarget lowerTable (filepath.Base e.path)) = some e.path := by
  intro pre
  induction pre with
  | nil =>
      intro m0 m h
      simp only [List.nil_append, filepath.walkFold] at h
      cases herr : e.err with
      | some err =>
          rw [indexEntry_of_err lowerTable m0 e err herr] at h
          cases h
      | none =>
          rw [indexEntry_of_no_err lowerTable m0 e herr] at h
          simp only [hfile, Bool.false_eq_true, if_false] at h
          rw [walkFold_indexEntry_lookup_of_no_match lowerTable _ post _ m h hlast]
          exact GoMap.lookup_set_self m0 _ _
  | cons x pre2 ih =>
      intro m0 m h
      simp only [List.cons_append, filepath.walkFold] at h
      cases hstep : indexEntry lowerTable m0 x with
      | error err => rw [hstep] at h; cases h
      | ok m1 =>
          rw [hstep] at h
          exact ih m1 m h

/-- The aliases of one document all map to that document. -/
theorem indexAliases_lookup_of_mem (lowerTable : Char → Char) (file : Str) :
    ∀ (declared : List Str) (m0 : GoMap Str) (a : Str), a ∈ declared →
      (indexAliases lowerTable file declared m0).lookup (normalizeTarget lowerTable a)
        = some file := by
  intro declared
  induction declared with
  | nil => intro m0 a ha; exact absurd ha (List.not_mem_nil a)
  | cons d rest ih =>
      intro m0 a ha
      simp only [indexAliases]
      by_cases hrest : a ∈ rest
      · exact ih _ a hrest
      · rcases List.mem_cons.mp ha with had | har
        · subst had
          by_cases hk : ∃ b ∈ rest, normalizeTarget lowerTable b = normalizeTarget lowerTable a
          · obtain ⟨b, hb, hbk⟩ := hk
            rw [← hbk]
            exact ih _ b hb
          · have hkeep : ∀ (l : List Str) (m1 : GoMap Str),
                (∀ b ∈ l, normalizeTarget lowerTable b ≠ normalizeTarget lowerTable a) →
                (indexAliases lowerTable file l m1).lookup (normalizeTarget lowerTable a)
                  = m1.lookup (normalizeTarget lowerTable a) := by
              intro l
              induction l with
              | nil => intro m1 _; rfl
              | cons c l2 ih2 =>
                  intro m1 hne
                  simp only [indexAliases]
                  rw [ih2 _ (fun b hb => hne b (List.mem_cons_of_mem c hb))]
                  exact GoMap.lookup_set_ne m1 _ _ _ (hne c (List.mem_cons_self c l2))
            rw [hkeep rest _ (fun b hb hbk => hk ⟨b, hb, hbk⟩)]
            exact GoMap.lookup_set_self m0 _ _
        · exact absurd har hrest

/-- Aliases with another normalized form leave the entry of the key `k` as it
was. -/
theorem indexAliases_lookup_of_no_match (lowerTable : Char → Char) (file k : Str) :
    ∀ (declared : List Str) (m0 : GoMap Str),
      (∀ b ∈ declared, normalizeTarget lowerTable b ≠ k) →
      (indexAliases lowerTable file declared m0).lookup k = m0.lookup k := by
  intro declared
  induction declared with
  | nil => intro m0 _; rfl
  | cons c rest ih =>
      intro m0 hne
      simp only [indexAliases]
      rw [ih _ (fun b hb => hne b (List.mem_cons_of_mem c hb))]
      exact GoMap.lookup_set_ne m0 _ _ _ (hne c (List.mem_cons_self c rest))

end index

namespace index

/-- Documents none of whose aliases has the normalized form `k` leave the
entry of the key `k` as it was. -/
theorem indexFiles_lookup_of_no_match (lowerTable : Char → Char) (fs : FileSystem)
    (p : parser.Parser) (k : Str) :
    ∀ (files : List Str) (m0 m : GoMap Str),
      indexFiles lowerTable fs p files m0 = .ok m →
      (∀ x ∈ files, ∀ content declared, fs.readFile x = .ok content →
        p.ParseAliases content = .ok declared →
        ∀ b ∈ declared, normalizeTarget lowerTable b ≠ k) →
      m.lookup k = m0.lookup k := by
  intro files
  induction files with
  | nil =>
      intro m0 m h _
      simp only [indexFiles, Except.ok.injEq] at h
      rw [h]
  | cons f rest ih =>
      intro m0 m h hno
      simp only [indexFiles] at h
      cases hread : fs.readFile f with
      | error err => rw [hread] at h; cases h
      | ok content =>
          rw [hread] at h
          simp only at h
          cases hparse : p.ParseAliases content with
          | error err => rw [hparse] at h; cases h
          | ok declared =>
              rw [hparse] at h
              simp only at h
              rw [ih _ m h (fun x hx => hno x (List.mem_cons_of_mem f hx))]
              exact indexAliases_lookup_of_no_match lowerTable f k declared m0
                (hno f (List.mem_cons_self f rest) content declared hread hparse)

/-- The aliases mapping holds, for a normalized alias, the path of the last
document of the list that declares an alias with that normalized form. -/
theorem indexFiles_last (lowerTable : Char → Char) (fs : FileSystem) (p : parser.Parser)
    (f : Str) (post : List Str) (content : Str) (declared : List Str) (a : Str)
    (hread : fs.readFile f = .ok content) (hparse : p.ParseAliases content = .ok declared)
    (ha : a ∈ declared)
    (hlast : ∀ x ∈ post, ∀ c d, fs.readFile x = .ok c → p.ParseAliases c = .ok d →
      ∀ b ∈ d, normalizeTarget lowerTable b ≠ normalizeTarget lowerTable a) :
    ∀ (pre : List Str) (m0 m : GoMap Str),
      indexFiles lowerTable fs p (pre ++ f :: post) m0 = .ok m →
      m.lookup (normalizeTarget lowerTable a) = some f := by
  intro pre
  induction pre with
  | nil =>
      intro m0 m h
      simp only [List.nil_append, indexFiles, hread, hparse] at h
      rw [indexFiles_lookup_of_no_match lowerTable fs p _ post _ m h hlast]
      exact indexAliases_lookup_of_mem lowerTable f declared m0 a ha
  | cons x pre2 ih =>
      intro m0 m h
      simp only [List.cons_append, indexFiles] at h
      cases hreadx : fs.readFile x with
      | error err => rw [hreadx] at h; cases h
      | ok cx =>
          rw [hreadx] at h
          simp only at h
          cases hparsex : p.ParseAliases cx with
          | error err => rw [hparsex] at h; cases h
          | ok dx =>
              rw [hparsex] at h
              simp only at h
              exact ih _ m h

/-- With a parser whose alias extraction never fails, `Build` returns an index
whenever the walk reports no error and every document can be read. -/
theorem Build_succeeds (lowerTable : Char → Char) (fs : FileSystem) (p : parser.Parser)
    (htotal : ∀ content, ∃ aliases, p.ParseAliases content = .ok aliases)
    (vaultPath : Str) (files : List Str)
    (hwalk : ∀ e ∈ fs.walk vaultPath, e.err = none)
    (hread : ∀ f ∈ files, ∃ content, fs.readFile f = .ok content) :
    ∃ idx, Build lowerTable fs p vaultPath files = .ok idx := by
  cases hb : Build lowerTable fs p vaultPath files with
  | ok idx => exact ⟨idx, rfl⟩
  | error err =>
      exfalso
      rcases (Build_error_iff lowerTable fs p htotal vaultPath files err).mp hb with
        ⟨pre, e, post, cause, hsplit, _, he, _⟩ | ⟨_, pre, f, post, cause, hsplit, _, hf, _⟩
      · have := hwalk e (by rw [hsplit]; simp)
        rw [he] at this
        cases this
      · obtain ⟨c, hc⟩ := hread f (by rw [hsplit]; simp)
        rw [hf] at hc
        cases hc

end index

/-! ## The order of strings and the text report -/

namespace sort

theorem toNat_injective (a b : Char) (h : a.toNat = b.toNat) : a = b := by
  apply Char.ext
  apply UInt32.ext
  exact h

theorem le_total : ∀ a b : Str, le a b ∨ le b a := by
  intro a
  induction a with
  | nil => intro b; cases b <;> simp [le, less]
  | cons c t ih =>
      intro b
      cases b with
      | nil => simp [le, less]
      | cons d u =>
          simp only [le, less]
          by_cases h1 : c.toNat < d.toNat
          · have h2 : ¬ d.toNat < c.toNat := by omega
            simp [h1, h2]
          · by_cases h2 : d.toNat < c.toNat
            · simp [h1, h2]
            · simp only [h1, h2, if_false]
              exact ih u

theorem le_trans : ∀ a b c : Str, le a b → le b c → le a c := by
  intro a
  induction a with
  | nil =>
      intro b c _ _
      cases c <;> simp [le, less]
  | cons x t ih =>
      intro b c hab hbc
      cases b with
      | nil => simp [le, less] at hab
      | cons y u =>
          cases c with
          | nil => simp [le, less] at hbc
          | cons z v =>
              simp only [le, less] at hab hbc ⊢
              by_cases h1 : y.toNat < x.toNat
              · simp [h1] at hab
              · by_cases h2 : x.toNat < y.toNat
                · by_cases h3 : z.toNat < y.toNat
                  · simp [h3] at hbc
                  · have h4 : ¬ z.toNat < x.toNat := by omega
                    have h5 : x.toNat < z.toNat := by omega
                    simp [h4, h5]
                · simp only [h1, h2, if_false] at hab
                  by_cases h3 : z.toNat < y.toNat
                  · simp [h3] at hbc
                  · by_cases h4 : y.toNat < z.toNat
                    · have h5 : ¬ z.toNat < x.toNat := by omega
                      have h6 : x.toNat < z.toNat := by omega
                      simp [h5, h6]
                    · simp only [h3, h4, if_false] at hbc
                      have h5 : ¬ z.toNat < x.toNat := by omega
                      have h6 : ¬ x.toNat < z.toNat := by omega
                      simp only [h5, h6, if_false]
                      exact ih u v hab hbc

theorem le_antisymm : ∀ a b : Str, le a b → le b a → a = b := by
  intro a
  induction a with
  | nil =>
      intro b hab hba
      cases b with
      | nil => rfl
      | cons y u => simp [le, less] at hba
  | cons x t ih =>
      intro b hab hba
      cases b with
      | nil => simp [le, less] at hab
      | cons y u =>
          simp only [le, less] at hab hba
          by_cases h1 : y.toNat < x.toNat
          · simp [h1] at hab
          · by_cases h2 : x.toNat < y.toNat
            · simp [h2] at hba
            · simp only [h1, h2, if_false] at hab hba
              have hxy : x = y := toNat_injective x y (by omega)
              rw [hxy, ih u hab hba]

/-- Two strings in the order `le` that differ are in the strict order. -/
theorem less_of_le_of_ne (a b : Str) (h : le a b) (hne : a ≠ b) : less a b = true := by
  cases hl : less a b with
  | true => rfl
  | false => exact absurd (le_antisymm a b h hl) hne

/-- The result of `sort.Strings` is a rearrangement of its argument. -/
theorem Strings_perm (x : List Str) : (Strings x).Perm x :=
  List.perm_insertionSort le x

/-- The result of `sort.Strings` is in increasing order. -/
theorem Strings_sorted (x : List Str) : (Strings x).Sorted le := by
  haveI : IsTotal Str le := ⟨le_total⟩
  haveI : IsTrans Str le := ⟨le_trans⟩
  exact List.sorted_insertionSort le x

/-- The result of `sort.Strings` does not depend on the order of its
argument. -/
theorem Strings_eq_of_perm (x y : List Str) (h : x.Perm y) : Strings x = Strings y := by
  haveI : IsAntisymm Str le := ⟨le_antisymm⟩
  exact List.eq_of_perm_of_sorted
    (((Strings_perm x).trans h).trans (Strings_perm y).symm)
    (Strings_sorted x) (Strings_sorted y)

end sort

namespace GoMap

theorem lookupEntries_eq_some_iff {V : Type} :
    ∀ (es : List (Str × V)) (k : Str) (v : V), (es.map Prod.fst).Nodup →
      (lookupEntries es k = some v ↔ (k, v) ∈ es) := by
  intro es
  induction es with
  | nil => intro k v _; simp [lookupEntries]
  | cons e rest ih =>
      intro k v hnd
      obtain ⟨k0, v0⟩ := e
      simp only [List.map_cons, List.nodup_cons] at hnd
      simp only [lookupEntries, List.mem_cons, Prod.mk.injEq]
      by_cases hk : k0 = k
      · subst hk
        simp only [if_true, Option.some.injEq, true_and]
        constructor
        · intro h; exact Or.inl h.symm
        · rintro (h | h)
          · exact h.symm
          · exact absurd (List.mem_map_of_mem Prod.fst h) hnd.1
      · simp only [hk, if_false]
        rw [ih k v hnd.2]
        constructor
        · intro h; exact Or.inr h
        · rintro (h | h)
          · exact absurd h.1.symm hk
          · exact h

/-- Maps with the same entries in another order hold the same value under
every key. -/
theorem lookup_eq_of_perm {V : Type} (m m2 : GoMap V) (hnd : m.keys.Nodup)
    (hperm : m2.entries.Perm m.entries) (k : Str) : m2.lookup k = m.lookup k := by
  have hnd2 : m2.keys.Nodup := (List.Perm.map Prod.fst hperm).nodup_iff.mpr hnd
  have hiff : ∀ v, m2.lookup k = some v ↔ m.lookup k = some v := by
    intro v
    unfold lookup
    rw [lookupEntries_eq_some_iff m2.entries k v hnd2,
      lookupEntries_eq_some_iff m.entries k v hnd]
    exact hperm.mem_iff
  cases h2 : m2.lookup k with
  | some v => exact ((hiff v).mp h2).symm
  | none =>
      cases h1 : m.lookup k with
      | none => rfl
      | some v => rw [(hiff v).mpr h1] at h2; cases h2

end GoMap

namespace formatter

theorem writeLinks_eq : ∀ (links : List model.BrokenLink) (sb : Str),
    textFormatter.writeLinks links sb = sb ++ (links.map defectLine).flatten := by
  intro links
  induction links with
  | nil => intro sb; simp [textFormatter.writeLinks]
  | cons link rest ih =>
      intro sb
      simp only [textFormatter.writeLinks, ih, List.map_cons, List.flatten_cons, defectLine,
        List.append_assoc]

theorem writeFiles_eq (brokenLinks : GoMap (List model.BrokenLink)) :
    ∀ (files : List Str) (sb : Str),
      textFormatter.writeFiles brokenLinks files sb
        = sb ++ (files.map (fileSection brokenLinks)).flatten := by
  intro files
  induction files with
  | nil => intro sb; simp [textFormatter.writeFiles]
  | cons file rest ih =>
      intro sb
      simp only [textFormatter.writeFiles, ih, writeLinks_eq, List.map_cons, List.flatten_cons,
        fileSection, List.append_assoc]

/-- The text report of a result with at least one file key: the header and the
sections of the file keys in increasing order. -/
theorem textFormat_eq (result : model.ValidationResult) (h : 0 < result.BrokenLinks.len) :
    textFormatter.Format result
      = .ok ("Broken links found in vault:\n\n".toList
          ++ ((sort.Strings result.BrokenLinks.keys).map
              (fileSection result.BrokenLinks)).flatten) := by
  have hne : ¬ result.BrokenLinks.len = 0 := Nat.pos_iff_ne_zero.mp h
  simp only [textFormatter.Format, hne, if_false, writeFiles_eq]

end formatter

/-! ## The order of the links -/

namespace parser

theorem OccursInOrder_append_left (x : Str) :
    ∀ (raws : List Str) (line : Str), OccursInOrder raws line → OccursInOrder raws (x ++ line) := by
  intro raws line h
  cases raws with
  | nil => trivial
  | cons raw rest =>
      obtain ⟨before, after, hline, hrest⟩ := h
      exact ⟨x ++ before, after, by rw [hline]; simp only [List.append_assoc], hrest⟩

/-- The matches of `findAllFrom` occur from left to right, without overlap,
behind the characters that are skipped. -/
theorem findAllFrom_in_order : ∀ (s : Str) (skip : Nat),
    OccursInOrder ((findAllFrom skip s).map (fun m => m.getD 1 [])) (s.drop skip) := by
  intro s
  induction s with
  | nil => intro skip; simp only [findAllFrom, List.map_nil]; trivial
  | cons c t ih =>
      intro skip
      cases skip with
      | succ k =>
          simp only [findAllFrom, List.drop_succ_cons]
          exact ih k
      | zero =>
          simp only [findAllFrom, List.drop_zero]
          cases hm : matchLinkAt (c :: t) with
          | none =>
              simp only
              have h0 := ih 0
              simp only [List.drop_zero] at h0
              exact OccursInOrder_append_left [c] _ t h0
          | some v =>
              obtain ⟨raw, inner⟩ := v
              simp only [List.map_cons, List.getD_cons_succ, List.getD_cons_zero]
              obtain ⟨_, _, hshape, rest, hsplit⟩ := matchLinkAt_some hm
              have hlen : 1 ≤ raw.length := by
                rcases hshape with h | h <;> rw [h] <;> simp
              refine ⟨[], rest, by simpa using hsplit, ?_⟩
              have hdrop : t.drop (raw.length - 1) = rest := by
                have h1 : (c :: t).drop raw.length = rest := by
                  rw [hsplit]
                  simp
                have h2 : raw.length = (raw.length - 1) + 1 := by omega
                rw [h2, List.drop_succ_cons] at h1
                exact h1
              rw [← hdrop]
              exact ih (raw.length - 1)

/-- The links of the matches of one line carry the matched texts and the
number of the line. -/
theorem parseMatches_findAllFrom (lineNum : Nat) : ∀ (s : Str) (skip : Nat),
    (parseMatches lineNum (findAllFrom skip s)).map (fun l => l.Raw)
        = (findAllFrom skip s).map (fun m => m.getD 1 [])
    ∧ ∀ l ∈ parseMatches lineNum (findAllFrom skip s), l.Line = lineNum + 1 := by
  intro s
  induction s with
  | nil =>
      intro skip
      simp only [findAllFrom, parseMatches, List.map_nil, List.not_mem_nil, false_implies,
        implies_true, and_self]
  | cons c t ih =>
      intro skip
      cases skip with
      | succ k =>
          simp only [findAllFrom]
          exact ih k
      | zero =>
          simp only [findAllFrom]
          cases hm : matchLinkAt (c :: t) with
          | none => exact ih 0
          | some v =>
              obtain ⟨raw, inner⟩ := v
              obtain ⟨ih1, ih2⟩ := ih (raw.length - 1)
              have hlen : ¬ [raw, raw, inner].length < 3 := by simp
              simp only [parseMatches, hlen, if_false, List.map_cons, List.getD_cons_succ,
                List.getD_cons_zero, ih1, List.mem_cons]
              refine ⟨by simp only [parseLink], ?_⟩
              rintro l (hl | hl)
              · rw [hl]
                simp only [parseLink]
              · exact ih2 l hl

theorem parseLines_Line_ge : ∀ (lines : List Str) (lineNum : Nat),
    ∀ l ∈ parseLines lineNum lines, lineNum + 1 ≤ l.Line := by
  intro lines
  induction lines with
  | nil => intro lineNum l h; simp [parseLines] at h
  | cons line rest ih =>
      intro lineNum l h
      simp only [parseLines, List.mem_append] at h
      rcases h with h | h
      · rw [(parseMatches_findAllFrom lineNum line 0).2 l h]
      · have := ih (lineNum + 1) l h
        omega

/-- The links of a text are in the order of their lines. -/
theorem parseLines_sorted : ∀ (lines : List Str) (lineNum : Nat),
    ((parseLines lineNum lines).map (fun l => l.Line)).Sorted (fun a b => a ≤ b) := by
  intro lines
  induction lines with
  | nil => intro lineNum; simp [parseLines]
  | cons line rest ih =>
      intro lineNum
      simp only [parseLines, List.map_append]
      unfold List.Sorted
      rw [List.pairwise_append]
      refine ⟨?_, ih (lineNum + 1), ?_⟩
      · rw [List.pairwise_map]
        apply List.pairwise_of_forall_mem_list
        intro a ha b hb
        rw [(parseMatches_findAllFrom lineNum line 0).2 a ha,
          (parseMatches_findAllFrom lineNum line 0).2 b hb]
      · intro a ha b hb
        obtain ⟨la, hla, rfl⟩ := List.mem_map.mp ha
        obtain ⟨lb, hlb, rfl⟩ := List.mem_map.mp hb
        rw [(parseMatches_findAllFrom lineNum line 0).2 la hla]
        exact Nat.le_of_lt (parseLines_Line_ge rest (lineNum + 1) lb hlb)

end parser

namespace parser

/-- The links of a text that carry the number of one line are the links of the
matches of that line. -/
theorem parseLines_filter_line : ∀ (lines : List Str) (lineNum i : Nat) (line : Str),
    lines.get? i = some line →
    (parseLines lineNum lines).filter (fun l => decide (l.Line = lineNum + i + 1))
      = parseMatches (lineNum + i) (FindAllStringSubmatch line) := by
  intro lines
  induction lines with
  | nil => intro lineNum i line h; simp at h
  | cons line0 rest ih =>
      intro lineNum i line h
      simp only [parseLines, List.filter_append]
      cases i with
      | zero =>
          simp only [List.get?_cons_zero, Option.some.injEq] at h
          subst h
          have hA : (parseMatches lineNum (FindAllStringSubmatch line0)).filter
              (fun l => decide (l.Line = lineNum + 0 + 1))
              = parseMatches lineNum (FindAllStringSubmatch line0) := by
            rw [List.filter_eq_self]
            intro l hl
            simp only [decide_eq_true_eq, Nat.add_zero]
            exact (parseMatches_findAllFrom lineNum line0 0).2 l hl
          have hB : (parseLines (lineNum + 1) rest).filter
              (fun l => decide (l.Line = lineNum + 0 + 1)) = [] := by
            rw [List.filter_eq_nil_iff]
            intro l hl
            have := parseLines_Line_ge rest (lineNum + 1) l hl
            simp only [decide_eq_true_eq, Nat.add_zero]
            omega
          rw [hA, hB, List.append_nil]
          rfl
      | succ j =>
          simp only [List.get?_cons_succ] at h
          have hA : (parseMatches lineNum (FindAllStringSubmatch line0)).filter
              (fun l => decide (l.Line = lineNum + (j + 1) + 1)) = [] := by
            rw [List.filter_eq_nil_iff]
            intro l hl
            have := (parseMatches_findAllFrom lineNum line0 0).2 l hl
            simp only [decide_eq_true_eq]
            omega
          have hB := ih (lineNum + 1) j line h
          have e1 : lineNum + (j + 1) + 1 = lineNum + 1 + j + 1 := by omega
          have e2 : lineNum + (j + 1) = lineNum + 1 + j := by omega
          rw [hA, List.nil_append, e1, e2]
          exact hB

end parser

/-! ## Reading the characters of the structured output -/

namespace json

theorem step_escape_ascii (ts : List Token) (acc : Str) : ∀ n : Nat, n < 128 →
    List.foldl step { tokens := ts, mode := .inStr acc } (escape (Char.ofNat n))
      = { tokens := ts, mode := .inStr (Char.ofNat n :: acc) } := by
  intro n hn
  interval_cases n <;> rfl

theorem step_plain (ts : List Token) (acc : Str) (c : Char)
    (h1 : c.toNat ≠ 0x22) (h2 : c.toNat ≠ 0x5c) (h3 : ¬ c.toNat < 0x20) :
    step { tokens := ts, mode := .inStr acc } c = { tokens := ts, mode := .inStr (c :: acc) } := by
  simp only [step, h1, h2, h3, if_false]

/-- Reading what `appendString` writes for one code point appends that code
point to the string being read. -/
theorem step_escape (ts : List Token) (acc : Str) (c : Char) :
    List.foldl step { tokens := ts, mode := .inStr acc } (escape c)
      = { tokens := ts, mode := .inStr (c :: acc) } := by
  by_cases h80 : c.toNat < 0x80
  · have h := step_escape_ascii ts acc c.toNat h80
    rw [Char.ofNat_toNat] at h
    exact h
  · by_cases hsep : c.toNat = 0x2028 ∨ c.toNat = 0x2029
    · rcases hsep with h | h
      · have hc : c = Char.ofNat 0x2028 := by
          rw [← Char.ofNat_toNat c, h]
        rw [hc]
        rfl
      · have hc : c = Char.ofNat 0x2029 := by
          rw [← Char.ofNat_toNat c, h]
        rw [hc]
        rfl
    · simp only [escape, h80, hsep, if_false, List.foldl_cons, List.foldl_nil]
      exact step_plain ts acc c (by omega) (by omega) (by omega)

/-- Reading what `appendString` writes for one step over the string appends
the code point read back for it. -/
theorem step_escapeElement (ts : List Token) (acc : Str) (e : Element) :
    List.foldl step { tokens := ts, mode := .inStr acc } (escapeElement e)
      = { tokens := ts, mode := .inStr (e.decoded :: acc) } := by
  cases e with
  | rune c => exact step_escape ts acc c
  | invalid b => rfl

theorem step_escape_all (ts : List Token) : ∀ (s : Text) (acc : Str),
    List.foldl step { tokens := ts, mode := .inStr acc } (s.map escapeElement).flatten
      = { tokens := ts, mode := .inStr (s.decoded.reverse ++ acc) } := by
  intro s
  induction s with
  | nil => intro acc; rfl
  | cons c t ih =>
      intro acc
      simp only [List.map_cons, List.flatten_cons, List.foldl_append, step_escapeElement, ih,
        Text.decoded, List.reverse_cons, List.append_assoc, List.singleton_append]

/-- Reading a string written by `appendString` yields the text read back for
it as one token. -/
theorem lex_appendString (ts : List Token) (s : Text) :
    List.foldl step { tokens := ts, mode := .idle } (appendString s)
      = { tokens := .str s.decoded :: ts, mode := .idle } := by
  unfold appendString
  rw [List.foldl_append, List.foldl_append]
  have h1 : List.foldl step { tokens := ts, mode := .idle } [Char.ofNat 0x22]
      = { tokens := ts, mode := .inStr [] } := rfl
  rw [h1, step_escape_all]
  simp only [List.foldl_cons, List.foldl_nil, step, List.append_nil, List.reverse_reverse]
  rfl

theorem stepIdle_digit (ts : List Token) : ∀ k : Nat, k < 10 →
    stepIdle ts (Nat.digitChar k) = { tokens := ts, mode := .inNum k } := by
  intro k hk
  interval_cases k <;> rfl

theorem step_digit (ts : List Token) (n : Nat) : ∀ k : Nat, k < 10 →
    step { tokens := ts, mode := .inNum n } (Nat.digitChar k)
      = { tokens := ts, mode := .inNum (n * 10 + k) } := by
  intro k hk
  interval_cases k <;> rfl

theorem lex_toDigitsCore (ts : List Token) : ∀ (fuel n : Nat) (ds : Str), n < fuel →
    List.foldl step { tokens := ts, mode := .idle } (Nat.toDigitsCore 10 fuel n ds)
      = List.foldl step { tokens := ts, mode := .inNum n } ds := by
  intro fuel
  induction fuel with
  | zero => intro n ds h; omega
  | succ f ih =>
      intro n ds h
      simp only [Nat.toDigitsCore]
      by_cases h0 : n / 10 = 0
      · simp only [h0, if_true, List.foldl_cons]
        have hn : n < 10 := by omega
        rw [Nat.mod_eq_of_lt hn]
        have hstep : step { tokens := ts, mode := .idle } (Nat.digitChar n)
            = stepIdle ts (Nat.digitChar n) := rfl
        rw [hstep, stepIdle_digit ts n hn]
      · simp only [h0, if_false]
        rw [ih (n / 10) _ (by omega)]
        simp only [List.foldl_cons]
        rw [step_digit ts (n / 10) (n % 10) (Nat.mod_lt n (by decide))]
        have : n / 10 * 10 + n % 10 = n := by omega
        rw [this]

/-- Reading the decimal digits of `n` leaves the reader inside the number
`n`. -/
theorem lex_Itoa (ts : List Token) (n : Nat) :
    List.foldl step { tokens := ts, mode := .idle } (strconv.Itoa n)
      = { tokens := ts, mode := .inNum n } := by
  unfold strconv.Itoa Nat.toDigits
  rw [lex_toDigitsCore ts (n + 1) n [] (by omega)]
  rfl

end json

namespace json

/-- Reading a record written by `MarshalIndent` yields the tokens of the
record. -/
theorem lex_encodeLink (ts : List Token) (b : BrokenLink) :
    List.foldl step { tokens := ts, mode := .idle } (encodeLink b)
      = { tokens := (linkTokens b).reverse ++ ts, mode := .idle } := by
  unfold encodeLink
  rw [List.foldl_append, List.foldl_append, List.foldl_append, List.foldl_append]
  have h1 : List.foldl step { tokens := ts, mode := .idle }
      "    \x7b\n      \x22link\x22: ".toList
      = { tokens := .colon :: .str "link".toList :: .lbrace :: ts, mode := .idle } := rfl
  rw [h1, lex_appendString]
  have h2 : List.foldl step
      { tokens := .str b.Link.decoded :: .colon :: .str "link".toList :: .lbrace :: ts, mode := .idle }
      ",\n      \x22line\x22: ".toList
      = { tokens := .colon :: .str "line".toList :: .comma :: .str b.Link.decoded :: .colon
            :: .str "link".toList :: .lbrace :: ts, mode := .idle } := rfl
  rw [h2, lex_Itoa]
  rfl

theorem lex_more_links : ∀ (rest : List BrokenLink) (ts : List Token),
    List.foldl step { tokens := ts, mode := .idle }
        (rest.map (fun b2 => ",\n".toList ++ encodeLink b2)).flatten
      = { tokens := ((rest.map (fun b2 => Token.comma :: linkTokens b2)).flatten).reverse ++ ts,
          mode := .idle } := by
  intro rest
  induction rest with
  | nil => intro ts; rfl
  | cons b rest2 ih =>
      intro ts
      simp only [List.map_cons, List.flatten_cons, List.foldl_append]
      have h1 : List.foldl step { tokens := ts, mode := .idle } ",\n".toList
          = { tokens := .comma :: ts, mode := .idle } := rfl
      rw [h1, lex_encodeLink, ih]
      simp only [List.reverse_append, List.reverse_cons, List.append_assoc, List.cons_append,
        List.nil_append]

/-- Reading a slice written by `MarshalIndent`, and the comma or newline
behind it, yields the tokens of the slice. -/
theorem lex_encodeLinks_then (links : Slice) (ts : List Token) (c : Char)
    (hc : c = ',' ∨ c = '\n') (tail : Str) :
    List.foldl step { tokens := ts, mode := .idle } (encodeLinks links ++ c :: tail)
      = List.foldl step (stepIdle ((linksTokens links).reverse ++ ts) c) tail := by
  rw [List.foldl_append, List.foldl_cons]
  congr 1
  cases links with
  | isNil =>
      have h1 : List.foldl step { tokens := ts, mode := .idle } (encodeLinks .isNil)
          = { tokens := ts, mode := .inWord "llun".toList } := rfl
      rw [h1]
      rcases hc with h | h <;> rw [h] <;> rfl
  | items l =>
      cases l with
      | nil =>
          have h1 : List.foldl step { tokens := ts, mode := .idle } (encodeLinks (.items []))
              = { tokens := (linksTokens (.items [])).reverse ++ ts, mode := .idle } := rfl
          rw [h1]
          rfl
      | cons b rest =>
          have h1 : List.foldl step { tokens := ts, mode := .idle }
              (encodeLinks (.items (b :: rest)))
              = { tokens := (linksTokens (.items (b :: rest))).reverse ++ ts,
                  mode := .idle } := by
            simp only [encodeLinks, linksTokens, List.foldl_append]
            have h2 : List.foldl step { tokens := ts, mode := .idle } "[\n".toList
                = { tokens := .lbrack :: ts, mode := .idle } := rfl
            rw [h2, lex_encodeLink, lex_more_links]
            simp only [List.reverse_append, List.reverse_cons, List.append_assoc,
              List.cons_append, List.nil_append, List.reverse_nil]
            rfl
          rw [h1]
          rfl

/-- Reading a key with its value, and the comma or newline behind it, yields
the tokens of the key and of the value. -/
theorem lex_encodeEntry_then (m : Map) (k : Text) (ts : List Token)
    (c : Char) (hc : c = ',' ∨ c = '\n') (tail : Str) :
    List.foldl step { tokens := ts, mode := .idle } (encodeEntry m k ++ c :: tail)
      = List.foldl step (stepIdle ((entryTokens m k).reverse ++ ts) c) tail := by
  unfold encodeEntry entryTokens
  simp only [List.append_assoc]
  rw [List.foldl_append, List.foldl_append, List.foldl_append]
  have h1 : List.foldl step { tokens := ts, mode := .idle } "  ".toList
      = { tokens := ts, mode := .idle } := rfl
  rw [h1, lex_appendString]
  have h2 : List.foldl step { tokens := .str k.decoded :: ts, mode := .idle } ": ".toList
      = { tokens := .colon :: .str k.decoded :: ts, mode := .idle } := rfl
  rw [h2, lex_encodeLinks_then _ _ c hc tail]
  simp only [List.reverse_append, List.reverse_cons, List.append_assoc, List.cons_append,
    List.nil_append, List.reverse_nil]

/-- Reading the keys of the map with their values, and the closing brace
behind them, yields their tokens. -/
theorem lex_entries (m : Map) :
    ∀ (rest : List Text) (k : Text) (ts : List Token) (tail : Str),
      List.foldl step { tokens := ts, mode := .idle }
          (encodeEntry m k ++ ((rest.map (fun k2 => ",\n".toList ++ encodeEntry m k2)).flatten
            ++ ("\n\x7d".toList ++ tail)))
        = List.foldl step
            { tokens := Token.rbrace
                :: ((rest.map (fun k2 => Token.comma :: entryTokens m k2)).flatten).reverse
                ++ ((entryTokens m k).reverse ++ ts),
              mode := .idle } tail := by
  intro rest
  induction rest with
  | nil =>
      intro k ts tail
      simp only [List.map_nil, List.flatten_nil, List.nil_append, List.reverse_nil]
      have hshape : "\n\x7d".toList ++ tail = '\n' :: (Char.ofNat 0x7d :: tail) := rfl
      rw [hshape, lex_encodeEntry_then m k ts '\n' (Or.inr rfl)]
      rfl
  | cons k2 rest2 ih =>
      intro k ts tail
      simp only [List.map_cons, List.flatten_cons, List.append_assoc]
      have hshape : ",\n".toList ++ (encodeEntry m k2
            ++ ((rest2.map (fun k3 => ",\n".toList ++ encodeEntry m k3)).flatten
              ++ ("\n\x7d".toList ++ tail)))
          = ',' :: ('\n' :: (encodeEntry m k2
            ++ ((rest2.map (fun k3 => ",\n".toList ++ encodeEntry m k3)).flatten
              ++ ("\n\x7d".toList ++ tail)))) := rfl
      rw [hshape, lex_encodeEntry_then m k ts ',' (Or.inl rfl)]
      have hstep : stepIdle ((entryTokens m k).reverse ++ ts) ','
          = { tokens := .comma :: ((entryTokens m k).reverse ++ ts), mode := .idle } := rfl
      rw [hstep, List.foldl_cons]
      have hnl : step { tokens := .comma :: ((entryTokens m k).reverse ++ ts), mode := .idle } '\n'
          = { tokens := .comma :: ((entryTokens m k).reverse ++ ts), mode := .idle } := rfl
      rw [hnl, ih k2 _ tail]
      simp only [List.reverse_append, List.reverse_cons, List.append_assoc, List.cons_append,
        List.nil_append]

end json

/-! ## Reading the tokens of the structured output -/

namespace json

theorem read_linkTokens_open (es : List (Text × Slice)) (k : Text) (b : BrokenLink) :
    List.foldl read (.arrOpen es k) (linkTokens b) = .arrItem es k [b.reread] := rfl

theorem read_linkTokens_comma (es : List (Text × Slice)) (k : Text)
    (acc : List BrokenLink) (b : BrokenLink) :
    List.foldl read (.arrComma es k acc) (linkTokens b) = .arrItem es k (acc ++ [b.reread]) :=
  rfl

theorem read_more_links (es : List (Text × Slice)) (k : Text) :
    ∀ (rest acc : List BrokenLink),
      List.foldl read (.arrItem es k acc)
          ((rest.map (fun b2 => Token.comma :: linkTokens b2)).flatten ++ [.rbrack])
        = .entry (setEntry es k (.items (acc ++ rest.map BrokenLink.reread))) := by
  intro rest
  induction rest with
  | nil => intro acc; simp only [List.map_nil, List.flatten_nil, List.append_nil]; rfl
  | cons b rest2 ih =>
      intro acc
      simp only [List.map_cons, List.flatten_cons, List.cons_append, List.append_assoc,
        List.foldl_cons, List.foldl_append]
      have h1 : read (.arrItem es k acc) .comma = .arrComma es k acc := rfl
      rw [h1, read_linkTokens_comma]
      have h2 := ih (acc ++ [b.reread])
      simp only [List.foldl_append, List.foldl_cons, List.foldl_nil] at h2 ⊢
      rw [h2]
      simp only [List.append_assoc, List.singleton_append]

/-- Reading the tokens of a slice yields the slice read back as the value of
the key. -/
theorem read_linksTokens (es : List (Text × Slice)) (k : Text) (links : Slice) :
    List.foldl read (.value es k) (linksTokens links) = .entry (setEntry es k links.reread) := by
  cases links with
  | isNil => rfl
  | items l =>
      cases l with
      | nil => rfl
      | cons b rest =>
          simp only [linksTokens, List.append_assoc, List.foldl_append, List.singleton_append,
            List.foldl_cons]
          have h1 : read (.value es k) .lbrack = .arrOpen es k := rfl
          rw [h1, read_linkTokens_open]
          have h2 := read_more_links es k rest [b.reread]
          simp only [List.foldl_append, List.foldl_cons, List.foldl_nil] at h2 ⊢
          rw [h2]
          rfl

theorem read_entryTokens_open (m0 : Map) (es : List (Text × Slice)) (k : Text) :
    List.foldl read (.objOpen es) (entryTokens m0 k)
      = .entry (setEntry es (Text.ofStr k.decoded) (m0.index k).reread) := by
  unfold entryTokens
  rw [List.foldl_append]
  exact read_linksTokens es _ (m0.index k)

theorem read_entryTokens_comma (m0 : Map) (es : List (Text × Slice)) (k : Text) :
    List.foldl read (.objComma es) (entryTokens m0 k)
      = .entry (setEntry es (Text.ofStr k.decoded) (m0.index k).reread) := by
  unfold entryTokens
  rw [List.foldl_append]
  exact read_linksTokens es _ (m0.index k)

theorem read_more_entries (m0 : Map) :
    ∀ (rest : List Text) (es : List (Text × Slice)),
      List.foldl read (.entry es)
          ((rest.map (fun k2 => Token.comma :: entryTokens m0 k2)).flatten ++ [.rbrace])
        = .done (.entries (rebuilt m0 rest es)) := by
  intro rest
  induction rest with
  | nil => intro es; rfl
  | cons k rest2 ih =>
      intro es
      simp only [List.map_cons, List.flatten_cons, List.cons_append, List.append_assoc,
        List.foldl_cons, List.foldl_append]
      have h1 : read (.entry es) .comma = .objComma es := rfl
      rw [h1, read_entryTokens_comma]
      have h2 := ih (setEntry es (Text.ofStr k.decoded) (m0.index k).reread)
      simp only [List.foldl_append, List.foldl_cons, List.foldl_nil] at h2 ⊢
      rw [h2]
      rfl

/-- The text `MarshalIndent` writes for a map that is not nil, followed by a
newline, decodes to the map rebuilt from the keys in increasing order. -/
theorem decode_MarshalIndent (es : List (Text × Slice)) :
    ∃ bytes, MarshalIndent (.entries es) = .ok bytes
      ∧ decode (bytes ++ "\n".toList)
          = some (.entries (rebuilt (.entries es) (sortKeys (es.map Prod.fst)) [])) := by
  unfold MarshalIndent
  simp only
  cases hkeys : sortKeys (es.map Prod.fst) with
  | nil => exact ⟨_, rfl, rfl⟩
  | cons k rest =>
      refine ⟨_, rfl, ?_⟩
      have hlex : List.foldl step { tokens := [], mode := .idle }
          ("\x7b\n".toList ++ encodeEntry (.entries es) k
            ++ (rest.map (fun k2 => ",\n".toList ++ encodeEntry (.entries es) k2)).flatten
            ++ "\n\x7d".toList ++ "\n".toList)
          = { tokens := Token.rbrace
                :: ((rest.map (fun k2 =>
                      Token.comma :: entryTokens (.entries es) k2)).flatten).reverse
                ++ ((entryTokens (.entries es) k).reverse ++ [Token.lbrace]),
              mode := .idle } := by
        simp only [List.append_assoc]
        rw [List.foldl_append]
        have h1 : List.foldl step { tokens := [], mode := .idle } "\x7b\n".toList
            = { tokens := [Token.lbrace], mode := .idle } := rfl
        rw [h1, lex_entries (.entries es) rest k [Token.lbrace] "\n".toList]
        rfl
      have hread : List.foldl read .start
          ([Token.lbrace] ++ (entryTokens (.entries es) k
            ++ ((rest.map (fun k2 => Token.comma :: entryTokens (.entries es) k2)).flatten
              ++ [Token.rbrace])))
          = .done (.entries (rebuilt (.entries es) (k :: rest) [])) := by
        have h1 : List.foldl read .start [Token.lbrace] = .objOpen [] := rfl
        rw [List.foldl_append, h1, List.foldl_append, read_entryTokens_open, read_more_entries]
        rfl
      unfold decode tokenize
      rw [hlex]
      simp only [List.reverse_cons, List.reverse_append, List.reverse_reverse,
        List.reverse_nil, List.nil_append, List.append_assoc]
      rw [hread]

end json

/-! ## Valid texts and the map read back -/

namespace json

theorem ofStr_decoded_of_valid : ∀ t : Text, t.valid = true → Text.ofStr t.decoded = t := by
  intro t
  induction t with
  | nil => intro _; rfl
  | cons e rest ih =>
      intro h
      simp only [Text.valid, List.all_cons, Bool.and_eq_true] at h
      have hrest : Text.ofStr (Text.decoded rest) = rest := ih h.2
      cases e with
      | invalid b => exact absurd h.1 (by simp [Element.isRune])
      | rune c =>
          simp only [Text.ofStr, Text.decoded, List.map_cons, Element.decoded, List.map_map]
            at hrest ⊢
          rw [hrest]

theorem valid_ofStr : ∀ s : Str, (Text.ofStr s).valid = true := by
  intro s
  induction s with
  | nil => rfl
  | cons c rest ih =>
      simp only [Text.valid, Text.ofStr, List.map_cons, List.all_cons, Element.isRune,
        Bool.true_and] at ih ⊢
      exact ih

theorem reread_of_valid : ∀ s : Slice, s.valid = true → s.reread = s := by
  intro s h
  cases s with
  | isNil => rfl
  | items l =>
      simp only [Slice.valid, List.all_eq_true] at h
      simp only [Slice.reread, Slice.items.injEq]
      have hmap : ∀ l2 : List BrokenLink, (∀ b ∈ l2, b.Link.valid = true) →
          l2.map BrokenLink.reread = l2 := by
        intro l2
        induction l2 with
        | nil => intro _; rfl
        | cons b rest ih =>
            intro hall
            have hb : b.reread = b := by
              simp only [BrokenLink.reread,
                ofStr_decoded_of_valid b.Link (hall b (List.mem_cons_self b rest))]
            rw [List.map_cons, hb, ih (fun x hx => hall x (List.mem_cons_of_mem b hx))]
      exact hmap l h

theorem lookupEntry_setEntry_self : ∀ (es : List (Text × Slice)) (k : Text) (v : Slice),
    lookupEntry (setEntry es k v) k = some v := by
  intro es
  induction es with
  | nil => intro k v; simp only [setEntry, lookupEntry, if_true]
  | cons e rest ih =>
      intro k v
      obtain ⟨k2, v2⟩ := e
      by_cases h : k2 = k
      · simp only [setEntry, h, if_true, lookupEntry]
      · simp only [setEntry, h, if_false, lookupEntry, ih]

theorem lookupEntry_setEntry_ne : ∀ (es : List (Text × Slice)) (k k3 : Text) (v : Slice),
    k ≠ k3 → lookupEntry (setEntry es k v) k3 = lookupEntry es k3 := by
  intro es
  induction es with
  | nil => intro k k3 v h; simp only [setEntry, lookupEntry, h, if_false]
  | cons e rest ih =>
      intro k k3 v h
      obtain ⟨k2, v2⟩ := e
      by_cases h2 : k2 = k
      · subst h2
        simp only [setEntry, if_true, lookupEntry, h, if_false]
      · simp only [setEntry, h2, if_false, lookupEntry, ih k k3 v h]

theorem lookupEntry_mem : ∀ (es : List (Text × Slice)) (k : Text) (v : Slice),
    lookupEntry es k = some v → (k, v) ∈ es := by
  intro es
  induction es with
  | nil => intro k v h; cases h
  | cons e rest ih =>
      intro k v h
      obtain ⟨k2, v2⟩ := e
      simp only [lookupEntry] at h
      by_cases h2 : k2 = k
      · rw [if_pos h2] at h
        cases h
        rw [h2]
        exact List.mem_cons_self _ _
      · rw [if_neg h2] at h
        exact List.mem_cons_of_mem _ (ih k v h)

theorem lookupEntry_isSome_iff : ∀ (es : List (Text × Slice)) (k : Text),
    (lookupEntry es k).isSome = true ↔ k ∈ es.map Prod.fst := by
  intro es
  induction es with
  | nil => intro k; simp [lookupEntry]
  | cons e rest ih =>
      intro k
      obtain ⟨k2, v2⟩ := e
      by_cases h : k2 = k
      · simp [lookupEntry, h]
      · have h3 : ¬ k = k2 := fun hh => h hh.symm
        simp only [lookupEntry, h, if_false, ih k, List.map_cons, List.mem_cons, h3, false_or]

/-- The entries built by assigning `f k` under every key `k` of `ks` hold
`f k` under the keys of `ks` and what they held before under the others. -/
theorem lookupEntry_foldl (f : Text → Slice) : ∀ (ks : List Text) (es0 : List (Text × Slice))
    (k : Text),
    lookupEntry (ks.foldl (fun acc k2 => setEntry acc k2 (f k2)) es0) k
      = if k ∈ ks then some (f k) else lookupEntry es0 k := by
  intro ks
  induction ks with
  | nil => intro es0 k; simp
  | cons k0 rest ih =>
      intro es0 k
      rw [List.foldl_cons, ih]
      by_cases hrest : k ∈ rest
      · simp only [hrest, if_true, List.mem_cons, or_true]
      · by_cases hk : k0 = k
        · subst hk
          simp only [hrest, if_false, List.mem_cons, true_or, if_true,
            lookupEntry_setEntry_self]
        · have hne : ¬ k = k0 := fun h => hk h.symm
          simp only [hrest, if_false, List.mem_cons, hne, or_self,
            lookupEntry_setEntry_ne es0 k0 k _ hk]

/-- For valid keys and values the entries read back are the entries built from
the keys and the values themselves. -/
theorem rebuilt_of_valid (m : Map) : ∀ (ks : List Text) (es0 : List (Text × Slice)),
    (∀ k ∈ ks, k.valid = true ∧ (m.index k).valid = true) →
    rebuilt m ks es0 = ks.foldl (fun acc k => setEntry acc k (m.index k)) es0 := by
  intro ks
  induction ks with
  | nil => intro es0 _; rfl
  | cons k rest ih =>
      intro es0 h
      have hk := h k (List.mem_cons_self k rest)
      have hstep : rebuilt m (k :: rest) es0
          = rebuilt m rest (setEntry es0 (Text.ofStr k.decoded) (m.index k).reread) := rfl
      rw [hstep, ofStr_decoded_of_valid k hk.1, reread_of_valid _ hk.2,
        ih _ (fun x hx => h x (List.mem_cons_of_mem k hx))]
      rfl

/-- In a valid map every key and every value under a key is valid. -/
theorem valid_index (es : List (Text × Slice)) (h : (Map.entries es).valid = true) (k : Text)
    (hk : k ∈ es.map Prod.fst) : k.valid = true ∧ ((Map.entries es).index k).valid = true := by
  simp only [Map.valid, List.all_eq_true, Bool.and_eq_true] at h
  refine ⟨?_, ?_⟩
  · obtain ⟨e, he, hfst⟩ := List.mem_map.mp hk
    rw [← hfst]
    exact (h e he).1
  · simp only [Map.index, Map.lookup]
    cases hl : lookupEntry es k with
    | none => rfl
    | some v => exact (h (k, v) (lookupEntry_mem es k v hl)).2

/-- The text written for a valid map that is not nil decodes to a map that is
not nil and holds the same value under every key. -/
theorem decode_valid (es : List (Text × Slice)) (h : (Map.entries es).valid = true) :
    ∃ bytes decoded, MarshalIndent (.entries es) = .ok bytes
      ∧ decode (bytes ++ "\n".toList) = some (.entries decoded)
      ∧ ∀ k, lookupEntry decoded k = lookupEntry es k := by
  obtain ⟨bytes, hbytes, hdecode⟩ := decode_MarshalIndent es
  refine ⟨bytes, _, hbytes, hdecode, ?_⟩
  intro k
  have hperm : (sortKeys (es.map Prod.fst)).Perm (es.map Prod.fst) :=
    List.perm_insertionSort keyLe _
  rw [rebuilt_of_valid (.entries es) _ []
    (fun x hx => valid_index es h x (hperm.mem_iff.mp hx)), lookupEntry_foldl]
  by_cases hk : k ∈ es.map Prod.fst
  · rw [if_pos (hperm.mem_iff.mpr hk)]
    have hsome := (lookupEntry_isSome_iff es k).mpr hk
    cases hl : lookupEntry es k with
    | none => rw [hl] at hsome; cases hsome
    | some v => simp only [Map.index, Map.lookup, hl, Option.getD_some]
  · rw [if_neg (fun hh => hk (hperm.mem_iff.mp hh))]
    have hnone : ¬ (lookupEntry es k).isSome = true :=
      fun hh => hk ((lookupEntry_isSome_iff es k).mp hh)
    cases hl : lookupEntry es k with
    | none => rfl
    | some v => rw [hl] at hnone; exact absurd rfl hnone

/-- The Go value a result of `Validate` stands for is valid. -/
theorem valid_ofResult (r : model.ValidationResult) : (ofResult r).BrokenLinks.valid = true := by
  simp only [ofResult, Map.valid, List.all_eq_true, Bool.and_eq_true]
  intro e he
  obtain ⟨e0, _, he0⟩ := List.mem_map.mp he
  rw [← he0]
  refine ⟨valid_ofStr e0.1, ?_⟩
  cases hl : e0.2 with
  | nil => rfl
  | cons b rest =>
      simp only [ofLinks, Slice.valid, List.all_eq_true]
      intro d hd
      obtain ⟨d0, _, hd0⟩ := List.mem_map.mp hd
      rw [← hd0]
      exact valid_ofStr d0.Link

end json

/-! ## Where the keys of the index come from -/

namespace GoMap

theorem hasKey_set_iff {V : Type} (m : GoMap V) (k k2 : Str) (v : V) :
    (m.set k v).hasKey k2 = true ↔ (k = k2 ∨ m.hasKey k2 = true) := by
  by_cases h : k = k2
  · subst h
    simp only [hasKey_set_self, true_or]
  · simp only [hasKey, lookup_set_ne m k k2 v h, h, false_or]

end GoMap

namespace index

/-- Every key of the files mapping is the normalized base name of a walked
file. -/
theorem walkFold_indexEntry_key (lowerTable : Char → Char) (k : Str) :
    ∀ (es : List WalkEntry) (m0 m : GoMap Str),
      filepath.walkFold (indexEntry lowerTable) es m0 = .ok m → m.hasKey k = true →
      m0.hasKey k = true
        ∨ ∃ e ∈ es, e.isDir = false ∧ normalizeTarget lowerTable (filepath.Base e.path) = k := by
  intro es
  induction es with
  | nil =>
      intro m0 m h hk
      simp only [filepath.walkFold, Except.ok.injEq] at h
      rw [h]
      exact Or.inl hk
  | cons e rest ih =>
      intro m0 m h hk
      simp only [filepath.walkFold] at h
      cases herr : e.err with
      | some err =>
          rw [indexEntry_of_err lowerTable m0 e err herr] at h
          cases h
      | none =>
          rw [indexEntry_of_no_err lowerTable m0 e herr] at h
          simp only at h
          rcases ih _ m h hk with h1 | ⟨x, hx, hx2⟩
          · cases hdir : e.isDir with
            | true =>
                rw [hdir] at h1
                exact Or.inl h1
            | false =>
                rw [hdir] at h1
                simp only [Bool.false_eq_true, if_false] at h1
                rcases (GoMap.hasKey_set_iff m0 _ k _).mp h1 with h2 | h2
                · exact Or.inr ⟨e, List.mem_cons_self e rest, hdir, h2⟩
                · exact Or.inl h2
          · exact Or.inr ⟨x, List.mem_cons_of_mem e hx, hx2⟩

theorem indexAliases_key (lowerTable : Char → Char) (file k : Str) :
    ∀ (declared : List Str) (m0 : GoMap Str),
      (indexAliases lowerTable file declared m0).hasKey k = true →
      m0.hasKey k = true ∨ ∃ a ∈ declared, normalizeTarget lowerTable a = k := by
  intro declared
  induction declared with
  | nil => intro m0 h; exact Or.inl h
  | cons d rest ih =>
      intro m0 h
      simp only [indexAliases] at h
      rcases ih _ h with h1 | ⟨a, ha, hak⟩
      · rcases (GoMap.hasKey_set_iff m0 _ k _).mp h1 with h2 | h2
        · exact Or.inr ⟨d, List.mem_cons_self d rest, h2⟩
        · exact Or.inl h2
      · exact Or.inr ⟨a, List.mem_cons_of_mem d ha, hak⟩

/-- Every key of the aliases mapping is the normalized form of an alias that a
document of the list declares. -/
theorem indexFiles_key (lowerTable : Char → Char) (fs : FileSystem) (p : parser.Parser)
    (k : Str) :
    ∀ (files : List Str) (m0 m : GoMap Str),
      indexFiles lowerTable fs p files m0 = .ok m → m.hasKey k = true →
      m0.hasKey k = true
        ∨ ∃ f ∈ files, ∃ content declared, fs.readFile f = .ok content
            ∧ p.ParseAliases content = .ok declared
            ∧ ∃ a ∈ declared, normalizeTarget lowerTable a = k := by
  intro files
  induction files with
  | nil =>
      intro m0 m h hk
      simp only [indexFiles, Except.ok.injEq] at h
      rw [h]
      exact Or.inl hk
  | cons f rest ih =>
      intro m0 m h hk
      simp only [indexFiles] at h
      cases hread : fs.readFile f with
      | error err => rw [hread] at h; cases h
      | ok content =>
          rw [hread] at h
          simp only at h
          cases hparse : p.ParseAliases content with
          | error err => rw [hparse] at h; cases h
          | ok declared =>
              rw [hparse] at h
              simp only at h
              rcases ih _ m h hk with h1 | ⟨x, hx, c, d, hc, hd, ha⟩
              · rcases indexAliases_key lowerTable f k declared m0 h1 with h2 | h2
                · exact Or.inl h2
                · exact Or.inr ⟨f, List.mem_cons_self f rest, content, declared, hread,
                    hparse, h2⟩
              · exact Or.inr ⟨x, List.mem_cons_of_mem f hx, c, d, hc, hd, ha⟩

/-- After a successful `Build` a target resolves exactly when its normalized
form is the normalized base name of a walked file or the normalized form of an
alias that a document of the list declares. -/
theorem Build_Resolve_iff (lowerTable : Char → Char) (fs : FileSystem) (p : parser.Parser)
    (vaultPath : Str) (files : List Str) (idx : VaultIndex)
    (h : Build lowerTable fs p vaultPath files = .ok idx) (t : Str) :
    (idx.files.hasKey (normalizeTarget lowerTable t) = true ↔
      ∃ e ∈ fs.walk vaultPath, e.isDir = false
        ∧ normalizeTarget lowerTable (filepath.Base e.path) = normalizeTarget lowerTable t)
    ∧ (idx.aliases.hasKey (normalizeTarget lowerTable t) = true ↔
      ∃ f ∈ files, ∃ content declared, fs.readFile f = .ok content
        ∧ p.ParseAliases content = .ok declared
        ∧ ∃ a ∈ declared, normalizeTarget lowerTable a = normalizeTarget lowerTable t) := by
  obtain ⟨hwalk, hfiles⟩ := Build_ok lowerTable fs p vaultPath files idx h
  refine ⟨⟨?_, ?_⟩, ⟨?_, ?_⟩⟩
  · intro hk
    rcases walkFold_indexEntry_key lowerTable _ _ _ _ hwalk hk with h0 | h1
    · cases h0
    · exact h1
  · rintro ⟨e, he, hdir, hnorm⟩
    rw [← hnorm]
    exact (walkFold_indexEntry lowerTable _ _ _ hwalk).2 e he hdir
  · intro hk
    rcases indexFiles_key lowerTable fs p _ _ _ _ hfiles hk with h0 | h1
    · cases h0
    · exact h1
  · rintro ⟨f, hf, content, declared, hread, hparse, a, ha, hnorm⟩
    rw [← hnorm]
    exact (indexFiles_hasKey lowerTable fs p files GoMap.empty idx.aliases hfiles).2
      f hf content declared hread hparse a ha

end index

/-! ## Separators and empty names -/

namespace filepath

/-- The base name of a path holds a separator only when the path consists of
separators. -/
theorem Base_separator (path : Str) (h : '/' ∈ Base path) : ∀ c ∈ path, c = '/' := by
  unfold Base at h
  by_cases hnil : path = []
  · subst hnil
    intro c hc
    cases hc
  · rw [if_neg hnil] at h
    simp only at h
    by_cases hlast : ((path.reverse.dropWhile (fun c => c == '/')).reverse.reverse.takeWhile
        (fun c => c != '/')).reverse = []
    · -- the path without its trailing separators is empty
      have hrev : (path.reverse.dropWhile (fun c => c == '/')).reverse.reverse.takeWhile
          (fun c => c != '/') = [] := List.reverse_eq_nil_iff.mp hlast
      rw [List.reverse_reverse] at hrev
      have hdrop : path.reverse.dropWhile (fun c => c == '/') = [] := by
        cases hd : path.reverse.dropWhile (fun c => c == '/') with
        | nil => rfl
        | cons x rest =>
            exfalso
            have hx : ¬ (fun c : Char => c == '/') x = true := by
              have := List.head_dropWhile_not (fun c : Char => c == '/') path.reverse
                (by rw [hd]; simp)
              simpa [hd] using this
            rw [hd, List.takeWhile_cons] at hrev
            have hx2 : (x != '/') = true := by simpa using hx
            rw [hx2] at hrev
            simp at hrev
      intro c hc
      have hall := List.dropWhile_eq_nil_iff.mp hdrop c (List.mem_reverse.mpr hc)
      simpa using hall
    · rw [if_neg hlast] at h
      exfalso
      have h2 := List.mem_reverse.mp h
      have h3 := List.mem_takeWhile_imp h2
      simp at h3

end filepath

namespace index

theorem toLowerRune_separator (lowerTable : Char → Char)
    (hlow : ∀ c : Char, 0x7F < c.toNat → lowerTable c ≠ '/') (c : Char)
    (h : strings.toLowerRune lowerTable c = '/') : c = '/' := by
  unfold strings.toLowerRune at h
  by_cases hascii : c.toNat ≤ 0x7F
  · rw [if_pos hascii] at h
    by_cases hup : 'A'.toNat ≤ c.toNat ∧ c.toNat ≤ 'Z'.toNat
    · rw [if_pos hup] at h
      exfalso
      have h65 : 65 ≤ c.toNat := hup.1
      have h90 : c.toNat ≤ 90 := hup.2
      have hn := strings.toNat_ofNat_shift c.toNat h65 h90
      have h32 : 'a'.toNat - 'A'.toNat = 32 := by decide
      rw [h32] at h
      rw [h] at hn
      have h47 : '/'.toNat = 47 := by decide
      omega
    · rw [if_neg hup] at h
      exact h
  · rw [if_neg hascii] at h
    exact absurd h (hlow c (by omega))

theorem toLowerRune_of_separator (lowerTable : Char → Char) :
    strings.toLowerRune lowerTable '/' = '/' := by
  unfold strings.toLowerRune
  rw [if_pos (by decide), if_neg (by decide)]

/-- The normalized form of a target with a separator has a separator. -/
theorem normalizeTarget_separator (lowerTable : Char → Char) (t : Str) (h : '/' ∈ t) :
    '/' ∈ normalizeTarget lowerTable t := by
  have htrim : '/' ∈ strings.TrimSuffix t ".md".toList := by
    cases hs : strings.HasSuffix t ".md".toList with
    | false => rw [strings.TrimSuffix_of_not_HasSuffix hs]; exact h
    | true =>
        have hshape := strings.eq_append_of_HasSuffix hs
        rw [hshape] at h
        rcases List.mem_append.mp h with h1 | h1
        · exact h1
        · exact absurd h1 (by decide)
  unfold normalizeTarget strings.ToLower
  exact List.mem_map.mpr ⟨'/', htrim, toLowerRune_of_separator lowerTable⟩

/-- The normalized form of a name without a separator has no separator, when
lowercasing does not produce one. -/
theorem normalizeTarget_no_separator (lowerTable : Char → Char)
    (hlow : ∀ c : Char, 0x7F < c.toNat → lowerTable c ≠ '/') (b : Str)
    (h : '/' ∈ normalizeTarget lowerTable b) : '/' ∈ b := by
  unfold normalizeTarget strings.ToLower at h
  obtain ⟨c, hc, hcl⟩ := List.mem_map.mp h
  have hc2 : c = '/' := toLowerRune_separator lowerTable hlow c hcl
  subst hc2
  cases hs : strings.HasSuffix b ".md".toList with
  | false =>
      rw [strings.TrimSuffix_of_not_HasSuffix hs] at hc
      exact hc
  | true =>
      have hshape := strings.eq_append_of_HasSuffix hs
      rw [hshape]
      exact List.mem_append_left _ hc

/-- The normalized form of a name is empty exactly for the empty name and the
name `.md`. -/
theorem normalizeTarget_eq_nil_iff (lowerTable : Char → Char) (t : Str) :
    normalizeTarget lowerTable t = [] ↔ (t = [] ∨ t = ".md".toList) := by
  unfold normalizeTarget strings.ToLower
  rw [List.map_eq_nil_iff]
  cases hs : strings.HasSuffix t ".md".toList with
  | false =>
      rw [strings.TrimSuffix_of_not_HasSuffix hs]
      constructor
      · intro h; exact Or.inl h
      · rintro (h | h)
        · exact h
        · rw [h] at hs
          exact absurd hs (by decide)
  | true =>
      have hshape := strings.eq_append_of_HasSuffix hs
      constructor
      · intro h
        rw [h] at hshape
        exact Or.inr hshape
      · rintro (h | h)
        · rw [h] at hs
          exact absurd hs (by decide)
        · rw [h]
          decide

end index

/-! ## Unresolved links are listed -/

namespace validator

/-- The pass over the documents keeps the defects recorded before it and
records every link of a document that the resolver does not resolve. -/
theorem validateFiles_lists (p : parser.Parser) (r : resolver.Resolver) (idx : index.VaultIndex) :
    ∀ (files : List Str) (m0 m : GoMap (List model.BrokenLink)),
      validateFiles p r idx files m0 = .ok m →
      (∀ f x, x ∈ m0.index f → x ∈ m.index f)
      ∧ (∀ f ∈ files, ∀ links, p.ParseFile f = .ok links →
          ∀ l ∈ links, r.Resolve l idx = false →
            ({ Link := l.Raw, Line := l.Line } : model.BrokenLink) ∈ m.index f) := by
  intro files
  induction files with
  | nil =>
      intro m0 m h
      simp only [validateFiles, Except.ok.injEq] at h
      subst h
      exact ⟨fun _ _ hx => hx, fun f hf => absurd hf (List.not_mem_nil f)⟩
  | cons file rest ih =>
      intro m0 m h
      simp only [validateFiles] at h
      cases hparse : p.ParseFile file with
      | error err => rw [hparse] at h; cases h
      | ok links0 =>
          rw [hparse] at h
          simp only at h
          obtain ⟨ihmono, ihnew⟩ := ih _ m h
          obtain ⟨hidx, hother, _, _⟩ := validateLinks_spec r idx file links0 m0
          have hmono1 : ∀ f x, x ∈ m0.index f →
              x ∈ (validateLinks r idx file links0 m0).index f := by
            intro f x hx
            by_cases hf : f = file
            · subst hf
              rw [hidx]
              exact List.mem_append_left _ hx
            · have := hother f hf
              simp only [GoMap.index, this]
              exact hx
          refine ⟨fun f x hx => ihmono f x (hmono1 f x hx), ?_⟩
          intro f hf links hlinks l hl hres
          by_cases hfile : f = file
          · subst hfile
            rw [hparse] at hlinks
            cases hlinks
            apply ihmono
            rw [hidx]
            apply List.mem_append_right
            simp only [unresolvedRecords, List.mem_map, List.mem_filter]
            exact ⟨l, ⟨hl, by simp [hres]⟩, rfl⟩
          · rcases List.mem_cons.mp hf with h1 | h1
            · exact absurd h1 hfile
            · exact ihnew f h1 links hlinks l hl hres

/-- A successful `Validate` lists, for every scanned document, every link of
the document that the resolver does not resolve against the index built. -/
theorem Validate_lists (s : scanner.Scanner) (p : parser.Parser) (b : index.Builder)
    (r : resolver.Resolver) (vaultPath : Str) (result : model.ValidationResult)
    (h : Validate s p b r vaultPath = .ok result) :
    ∃ files idx, s.Scan vaultPath = .ok files ∧ b.Build vaultPath files = .ok idx
      ∧ ∀ f ∈ files, ∀ links, p.ParseFile f = .ok links →
          ∀ l ∈ links, r.Resolve l idx = false →
            ({ Link := l.Raw, Line := l.Line } : model.BrokenLink) ∈ result.BrokenLinks.index f := by
  obtain ⟨files, idx, hscan, hbuild, hvf⟩ := Validate_ok s p b r vaultPath result h
  exact ⟨files, idx, hscan, hbuild,
    (validateFiles_lists p r idx files GoMap.empty result.BrokenLinks hvf).2⟩

end validator

/-! ## References to a heading only -/

namespace filepath

theorem Base_ne_nil (path : Str) : Base path ≠ [] := by
  unfold Base
  by_cases hnil : path = []
  · rw [if_pos hnil]
    decide
  · rw [if_neg hnil]
    simp only
    by_cases hlast : ((path.reverse.dropWhile (fun c => c == '/')).reverse.reverse.takeWhile
        (fun c => c != '/')).reverse = []
    · rw [if_pos hlast]
      decide
    · rw [if_neg hlast]
      exact hlast

end filepath

namespace parser

/-- A link whose content between the brackets starts with `#` has an empty
target. -/
theorem parseLink_Target_of_hash (raw rest : Str) (isEmbed : Bool) (lineNum : Nat) :
    (parseLink raw ('#' :: rest) isEmbed lineNum).Target = [] := by
  rw [parseLink_Target]
  have h : ('#' :: rest).takeWhile (fun c => c != '|' && c != '#') = [] := by
    rw [List.takeWhile_cons]
    simp
  rw [h]
  rfl

/-- A link extracted from a text whose raw text starts with `[[#` or `![[#`
has an empty target. -/
theorem Target_of_heading_only (content : Str) (l : model.Link)
    (hl : l ∈ parseContent content)
    (hraw : strings.HasPrefix l.Raw "[[#".toList = true
      ∨ strings.HasPrefix l.Raw "![[#".toList = true) :
    l.Target = [] := by
  obtain ⟨i, line, raw, inner, suffix, _, hmatch, _, hlink⟩ := mem_parseContent content l hl
  obtain ⟨hne, _, hshape, _⟩ := matchLinkAt_some hmatch
  have hRaw : l.Raw = raw := by rw [hlink]; rfl
  rw [hRaw] at hraw
  have hinner : ∃ rest, inner = '#' :: rest := by
    cases inner with
    | nil => exact absurd rfl hne
    | cons c rest =>
        refine ⟨rest, ?_⟩
        rcases hraw with h | h
        · obtain ⟨t, ht⟩ := (strings.HasPrefix_iff _ _).mp h
          rcases hshape with hs | hs
          · rw [hs] at ht
            simp [String.toList] at ht
          · rw [hs] at ht
            simp [String.toList] at ht
            rw [ht.1]
        · obtain ⟨t, ht⟩ := (strings.HasPrefix_iff _ _).mp h
          rcases hshape with hs | hs
          · rw [hs] at ht
            simp [String.toList] at ht
            rw [ht.1]
          · rw [hs] at ht
            simp [String.toList] at ht
  obtain ⟨rest, hrest⟩ := hinner
  rw [hlink, hrest]
  exact parseLink_Target_of_hash raw rest _ _

end parser

namespace index

/-- After a successful `Build` the empty target resolves exactly when a walked
file has the base name `.md` or a document of the list declares the alias
`.md` or the empty alias. -/
theorem Build_Resolve_nil_iff (lowerTable : Char → Char) (fs : FileSystem) (p : parser.Parser)
    (vaultPath : Str) (files : List Str) (idx : VaultIndex)
    (h : Build lowerTable fs p vaultPath files = .ok idx) :
    idx.Resolve lowerTable [] = true ↔
      ((∃ e ∈ fs.walk vaultPath, e.isDir = false ∧ filepath.Base e.path = ".md".toList)
        ∨ ∃ f ∈ files, ∃ content declared, fs.readFile f = .ok content
            ∧ p.ParseAliases content = .ok declared
            ∧ ∃ a ∈ declared, a = [] ∨ a = ".md".toList) := by
  have hnil : normalizeTarget lowerTable [] = [] := rfl
  obtain ⟨hf, ha⟩ := Build_Resolve_iff lowerTable fs p vaultPath files idx h []
  rw [Resolve_iff, hf, ha, hnil]
  constructor
  · rintro (⟨e, he, hdir, hnorm⟩ | ⟨f, hfm, content, declared, hread, hparse, a, hamem, hnorm⟩)
    · rcases (normalizeTarget_eq_nil_iff lowerTable _).mp hnorm with h1 | h1
      · exact absurd h1 (filepath.Base_ne_nil e.path)
      · exact Or.inl ⟨e, he, hdir, h1⟩
    · exact Or.inr ⟨f, hfm, content, declared, hread, hparse, a, hamem,
        (normalizeTarget_eq_nil_iff lowerTable a).mp hnorm⟩
  · rintro (⟨e, he, hdir, hbase⟩ | ⟨f, hfm, content, declared, hread, hparse, a, hamem, hcase⟩)
    · exact Or.inl ⟨e, he, hdir, (normalizeTarget_eq_nil_iff lowerTable _).mpr (Or.inr hbase)⟩
    · exact Or.inr ⟨f, hfm, content, declared, hread, hparse, a, hamem,
        (normalizeTarget_eq_nil_iff lowerTable a).mpr hcase⟩

end index

/-! ## The closing marker of the metadata block -/

namespace strings

/-- An occurrence of the closing marker between two newlines that starts
inside `b` makes `---` a line of `b`. -/
theorem line_of_marker (a b c rest : Str)
    (h : b ++ '\n' :: rest = a ++ "\n---\n".toList ++ c) (hlen : a.length < b.length) :
    "---".toList ∈ Split '\n' b := by
  have h3 : Split '\n' "---".toList = ["---".toList] := by decide
  rw [List.append_assoc] at h
  rcases List.append_eq_append_iff.mp h with ⟨a2, ha, _⟩ | ⟨d, hb, hd⟩
  · rw [ha] at hlen
    simp at hlen
  · -- `b = a ++ d` and the marker starts with `d`
    cases d with
    | nil =>
        rw [hb] at hlen
        simp at hlen
    | cons x0 d0 =>
        simp only [String.toList, List.cons_append, List.cons.injEq] at hd
        obtain ⟨hx0, hd0⟩ := hd
        subst hx0
        have hline : "---".toList ∈ Split '\n' d0 := by
          cases d0 with
          | nil => simp at hd0
          | cons x1 d1 =>
              simp only [List.cons_append, List.cons.injEq] at hd0
              obtain ⟨hx1, hd1⟩ := hd0
              subst hx1
              cases d1 with
              | nil => simp at hd1
              | cons x2 d2 =>
                  simp only [List.cons_append, List.cons.injEq] at hd1
                  obtain ⟨hx2, hd2⟩ := hd1
                  subst hx2
                  cases d2 with
                  | nil => simp at hd2
                  | cons x3 d3 =>
                      simp only [List.cons_append, List.cons.injEq] at hd2
                      obtain ⟨hx3, hd3⟩ := hd2
                      subst hx3
                      cases d3 with
                      | nil => decide
                      | cons x4 d4 =>
                          simp only [List.cons_append, List.cons.injEq] at hd3
                          obtain ⟨hx4, _⟩ := hd3
                          subst hx4
                          have hshape : ('-' :: '-' :: '-' :: '\n' :: d4 : Str)
                              = "---".toList ++ '\n' :: d4 := rfl
                          rw [hshape, Split_append_sep, h3]
                          simp
        rw [hb, Split_append_sep]
        exact List.mem_append_right _ hline

end strings

namespace parser

/-- A text whose closing marker is its end, without a newline behind it, has
no metadata block, when no line of the body is the marker. -/
theorem extractFrontmatter_open_end (b : Str) (hb : "---".toList ∉ strings.Split '\n' b) :
    extractFrontmatter ("---\n".toList ++ b ++ "\n---".toList) = [] := by
  rcases extractFrontmatter_cases ("---\n".toList ++ b ++ "\n---".toList) with
    ⟨block, tail, hshape, _, _⟩ | ⟨_, h⟩
  · exfalso
    simp only [List.append_assoc] at hshape
    have hcancel := List.append_cancel_left hshape
    have h2 : b ++ '\n' :: "---".toList = block ++ "\n---\n".toList ++ tail := by
      rw [List.append_assoc]
      exact hcancel
    by_cases hlen : block.length < b.length
    · exact hb (strings.line_of_marker block b tail _ h2 hlen)
    · have hl := congrArg List.length h2
      simp [String.toList] at hl
      omega
  · exact h

/-- A text whose closing marker is followed by a newline has the body as its
metadata block, when no line of the body is the marker. -/
theorem extractFrontmatter_closed (b tail : Str) (hb : "---".toList ∉ strings.Split '\n' b) :
    extractFrontmatter ("---\n".toList ++ b ++ "\n---\n".toList ++ tail) = b := by
  apply extractFrontmatter_of_shape
  intro a c h
  by_contra hlen
  have h2 : b ++ '\n' :: ("---\n".toList ++ tail) = a ++ "\n---\n".toList ++ c := by
    rw [← h]
    simp [String.toList]
  exact hb (strings.line_of_marker a b c _ h2 (by omega))

end parser

/-! # The claims -/

/-- C1: in a successful `Validate` run whose scanner returns pairwise
distinct document paths, the defect list of every document `f` is exactly the
sequence of records `(Link = l.Raw, Line = l.Line)` of the links `l` extracted
from `f`, in extraction order, for which the resolver returns false; a path
that is not a document has no defects, and no path is a key twice. -/
theorem C1_aggregation_completeness (s : scanner.Scanner) (p : parser.Parser)
    (b : index.Builder) (r : resolver.Resolver) (vaultPath : Str)
    (result : model.ValidationResult)
    (hval : validator.Validate s p b r vaultPath = .ok result)
    (files : List Str) (hscan : s.Scan vaultPath = .ok files) (hnodup : files.Nodup) :
    ∃ idx, b.Build vaultPath files = .ok idx
      ∧ (∀ f ∈ files, ∃ links, p.ParseFile f = .ok links
          ∧ result.BrokenLinks.index f
              = (links.filter (fun l => !r.Resolve l idx)).map
                  (fun l => { Link := l.Raw, Line := l.Line }))
      ∧ (∀ f, f ∉ files → result.BrokenLinks.index f = [])
      ∧ result.BrokenLinks.keys.Nodup := by
  obtain ⟨files2, idx, hscan2, hbuild, hfiles⟩ := validator.Validate_ok s p b r vaultPath result hval
  rw [hscan] at hscan2
  cases hscan2
  obtain ⟨h1, h2, _, h4, h5, _⟩ :=
    validator.validateFiles_spec p r idx files GoMap.empty result.BrokenLinks hfiles
  refine ⟨idx, hbuild, ?_, ?_, ?_⟩
  · intro f hf
    obtain ⟨links, hparse⟩ := h1 f hf
    refine ⟨links, hparse, ?_⟩
    have h := h5 hnodup f hf links hparse
    simpa [GoMap.index, GoMap.empty, GoMap.lookup, GoMap.lookupEntries,
      validator.unresolvedRecords] using h
  · intro f hf
    have hl : result.BrokenLinks.lookup f = none := h2 f hf
    simp only [GoMap.index, hl, Option.getD_none]
  · exact h4 (by simp [GoMap.keys, GoMap.empty])

/-- C1 on the vault `/vault`: the run succeeds, the scanner lists two distinct
documents, the defect list of `Note.md` is its one broken link and `Other.md`
has no defects. -/
theorem C1_aggregation_completeness_witness :
    validator.Validate sample.vaultScanner sample.vaultParser sample.vaultBuilder
        sample.vaultResolver "/vault".toList = .ok sample.vaultResult
    ∧ sample.vaultScanner.Scan "/vault".toList = .ok sample.vaultDocuments
    ∧ sample.vaultDocuments.Nodup
    ∧ sample.vaultResult.BrokenLinks.index "/vault/Note.md".toList
        = [{ Link := "[[Missing]]".toList, Line := 4 }]
    ∧ sample.vaultResult.BrokenLinks.index "/vault/Other.md".toList = []
    ∧ sample.vaultResult.BrokenLinks.keys.Nodup := by
  obtain ⟨_, _, _, _, h⟩ := C1_aggregation_completeness sample.vaultScanner sample.vaultParser
    sample.vaultBuilder sample.vaultResolver "/vault".toList sample.vaultResult (by decide)
    sample.vaultDocuments (by decide) (by decide)
  exact ⟨by decide, by decide, by decide, by decide, by decide, h⟩

/-- C2: for every index and every target `t`, `Resolve(t)` is true if and only
if the normalized target (one trailing `.md` removed if present, then
lowercased) is a key of the files mapping or a key of the aliases mapping. -/
theorem C2_resolve_iff_normalized_key (lowerTable : Char → Char) (v : index.VaultIndex)
    (t : Str) :
    (v.Resolve lowerTable t = true ↔
      (index.normalizeTarget lowerTable t ∈ v.files.keys ∨
        index.normalizeTarget lowerTable t ∈ v.aliases.keys)) ∧
    index.normalizeTarget lowerTable t
      = strings.ToLower lowerTable
          (if strings.HasSuffix t ".md".toList then t.take (t.length - 3) else t) := by
  refine ⟨?_, rfl⟩
  rw [index.Resolve_iff, GoMap.hasKey_iff_mem_keys, GoMap.hasKey_iff_mem_keys]

/-- C3: resolution depends on the target of the link only: two links with the
same target get the same answer whatever their heading, alias, embed flag, raw
text and line are, and that answer is `index.Resolve(Target)`. -/
theorem C3_resolution_depends_on_target_only (lowerTable : Char → Char)
    (idx : index.VaultIndex) (target raw1 heading1 alias1 raw2 heading2 alias2 : Str)
    (isEmbed1 isEmbed2 : Bool) (line1 line2 : Nat) :
    resolver.Resolve lowerTable
        { Raw := raw1, Target := target, Heading := heading1, Alias := alias1,
          IsEmbed := isEmbed1, Line := line1 } idx
      = resolver.Resolve lowerTable
        { Raw := raw2, Target := target, Heading := heading2, Alias := alias2,
          IsEmbed := isEmbed2, Line := line2 } idx
    ∧ resolver.Resolve lowerTable
        { Raw := raw1, Target := target, Heading := heading1, Alias := alias1,
          IsEmbed := isEmbed1, Line := line1 } idx
      = idx.Resolve lowerTable target :=
  ⟨rfl, rfl⟩

/-- C4: in the result of a successful `Validate`, a path is a key of
`BrokenLinks` if and only if it is a scanned document with at least one
unresolved extracted link; no key maps to an empty defect list; and the mapping
is empty exactly when no document has an unresolved link. -/
theorem C4_keys_are_documents_with_defects (s : scanner.Scanner) (p : parser.Parser)
    (b : index.Builder) (r : resolver.Resolver) (vaultPath : Str)
    (result : model.ValidationResult)
    (hval : validator.Validate s p b r vaultPath = .ok result) :
    ∃ files idx, s.Scan vaultPath = .ok files ∧ b.Build vaultPath files = .ok idx
      ∧ (∀ f, f ∈ result.BrokenLinks.keys ↔
          (f ∈ files ∧ ∃ links, p.ParseFile f = .ok links ∧
            ∃ l ∈ links, r.Resolve l idx = false))
      ∧ (∀ f defects, result.BrokenLinks.lookup f = some defects → defects ≠ [])
      ∧ (result.BrokenLinks.len = 0 ↔
          ∀ f ∈ files, ∀ links, p.ParseFile f = .ok links →
            ∀ l ∈ links, r.Resolve l idx = true) := by
  obtain ⟨files, idx, hscan, hbuild, hfiles⟩ := validator.Validate_ok s p b r vaultPath result hval
  obtain ⟨_, _, h3, _, _, h6⟩ :=
    validator.validateFiles_spec p r idx files GoMap.empty result.BrokenLinks hfiles
  have hinv := h3 validator.NoEmptyList_empty
  have hempty : ∀ f, (GoMap.empty : GoMap (List model.BrokenLink)).index f = [] := by
    intro f
    simp [GoMap.index, GoMap.empty, GoMap.lookup, GoMap.lookupEntries]
  have hkeys : ∀ f, f ∈ result.BrokenLinks.keys ↔
      (f ∈ files ∧ ∃ links, p.ParseFile f = .ok links ∧
        ∃ l ∈ links, r.Resolve l idx = false) := by
    intro f
    rw [← GoMap.hasKey_iff_mem_keys, validator.hasKey_iff_index_ne_nil _ hinv, h6 f, hempty f]
    simp
  refine ⟨files, idx, hscan, hbuild, hkeys, hinv, ?_⟩
  have hlen : result.BrokenLinks.len = 0 ↔ ∀ f, f ∉ result.BrokenLinks.keys := by
    simp only [GoMap.len, GoMap.keys, List.length_eq_zero]
    constructor
    · intro h f
      simp [h]
    · intro h
      cases hes : result.BrokenLinks.entries with
      | nil => rfl
      | cons e rest =>
          exfalso
          apply h e.1
          simp [hes]
  rw [hlen]
  constructor
  · intro h f hf links hparse l hl
    cases hres : r.Resolve l idx with
    | true => rfl
    | false => exact absurd ((hkeys f).mpr ⟨hf, links, hparse, l, hl, hres⟩) (h f)
  · intro h f hkey
    obtain ⟨hf, links, hparse, l, hl, hres⟩ := (hkeys f).mp hkey
    rw [h f hf links hparse l hl] at hres
    cases hres

/-- C4 on the vault `/vault`: the run succeeds, the only key is `Note.md`, and
its defect list is not empty. -/
theorem C4_keys_are_documents_with_defects_witness :
    validator.Validate sample.vaultScanner sample.vaultParser sample.vaultBuilder
        sample.vaultResolver "/vault".toList = .ok sample.vaultResult
    ∧ sample.vaultResult.BrokenLinks.keys = ["/vault/Note.md".toList]
    ∧ sample.vaultResult.BrokenLinks.index "/vault/Note.md".toList ≠ [] := by
  obtain ⟨_, _, _, _, _, h, _⟩ := C4_keys_are_documents_with_defects sample.vaultScanner
    sample.vaultParser sample.vaultBuilder sample.vaultResolver "/vault".toList
    sample.vaultResult (by decide)
  exact ⟨by decide, by decide, h "/vault/Note.md".toList _ rfl⟩

/-- C5 at a failing input: `Note.MD` and `Note.md` differ only in letter
case, yet in the vault `/vault`, which holds `Note.md`, the second resolves and
the first does not, because the suffix `.md` is removed before lowercasing. -/
theorem C5_case_of_extension_matters :
    index.Build sample.asciiTable sample.vaultFS sample.vaultParser "/vault".toList
        sample.vaultDocuments = .ok sample.vaultIndex
    ∧ strings.ToLower sample.asciiTable "Note.MD".toList
        = strings.ToLower sample.asciiTable "Note.md".toList
    ∧ index.normalizeTarget sample.asciiTable "Note.md".toList = "note".toList
    ∧ index.normalizeTarget sample.asciiTable "Note.MD".toList = "note.md".toList
    ∧ sample.vaultIndex.Resolve sample.asciiTable "Note.md".toList = true
    ∧ sample.vaultIndex.Resolve sample.asciiTable "Note.MD".toList = false := by
  decide

/-- C6, as stated, fails: normalizing `a.md.md` gives `a.md`, and normalizing
that again gives `a`. -/
theorem C6_counterexample :
    index.normalizeTarget sample.asciiTable "a.md.md".toList = "a.md".toList
    ∧ index.normalizeTarget sample.asciiTable
        (index.normalizeTarget sample.asciiTable "a.md.md".toList) = "a".toList
    ∧ index.normalizeTarget sample.asciiTable
        (index.normalizeTarget sample.asciiTable "a.md.md".toList)
      ≠ index.normalizeTarget sample.asciiTable "a.md.md".toList := by
  decide

/-- C6, amended: normalizing twice is normalizing once for every string whose
normalized form does not itself end in `.md`, given that the case table maps
every rune to a rune that lowering leaves unchanged. -/
theorem C6_normalize_idempotent_without_suffix (lowerTable : Char → Char)
    (htable : ∀ r : Char, 0x7F < r.toNat →
      strings.toLowerRune lowerTable (lowerTable r) = lowerTable r)
    (x : Str)
    (hx : strings.HasSuffix (index.normalizeTarget lowerTable x) ".md".toList = false) :
    index.normalizeTarget lowerTable (index.normalizeTarget lowerTable x)
      = index.normalizeTarget lowerTable x := by
  rw [index.normalizeTarget_of_not_HasSuffix lowerTable hx]
  exact strings.ToLower_idem lowerTable htable _

/-- C6, amended, at `My Note.md`, whose normalized form `my note` does not end
in `.md`. -/
theorem C6_normalize_idempotent_without_suffix_witness :
    strings.HasSuffix (index.normalizeTarget sample.asciiTable "My Note.md".toList)
        ".md".toList = false
    ∧ index.normalizeTarget sample.asciiTable "My Note.md".toList = "my note".toList
    ∧ index.normalizeTarget sample.asciiTable
        (index.normalizeTarget sample.asciiTable "My Note.md".toList)
      = index.normalizeTarget sample.asciiTable "My Note.md".toList :=
  ⟨by decide, by decide,
    C6_normalize_idempotent_without_suffix sample.asciiTable
      (fun r hr => by
        have hn : ¬ r.toNat ≤ 0x7F := by omega
        simp only [sample.asciiTable, strings.toLowerRune, if_neg hn])
      "My Note.md".toList (by decide)⟩

/-- C7, as stated, fails: in the vault `/vault`, which holds `Note.md`, the
target `Note.md` resolves and the target `Note.md.md` does not. -/
theorem C7_counterexample :
    index.Build sample.asciiTable sample.vaultFS sample.vaultParser "/vault".toList
        sample.vaultDocuments = .ok sample.vaultIndex
    ∧ sample.vaultIndex.Resolve sample.asciiTable "Note.md".toList = true
    ∧ sample.vaultIndex.Resolve sample.asciiTable ("Note.md".toList ++ ".md".toList) = false := by
  decide

/-- C7, amended: for every index and every target `x` that does not itself end
in `.md`, `Resolve(x) = Resolve(x + ".md")`; and after a successful `Build`,
for every vault file named `x + ".md"` both `Resolve(x)` and
`Resolve(x + ".md")` are true. -/
theorem C7_extension_insensitive (lowerTable : Char → Char) (idx : index.VaultIndex) (x : Str)
    (hx : strings.HasSuffix x ".md".toList = false) :
    idx.Resolve lowerTable x = idx.Resolve lowerTable (x ++ ".md".toList)
    ∧ ∀ (fs : FileSystem) (p : parser.Parser) (vaultPath : Str) (files : List Str),
        index.Build lowerTable fs p vaultPath files = .ok idx →
        ∀ e ∈ fs.walk vaultPath, e.isDir = false → filepath.Base e.path = x ++ ".md".toList →
          idx.Resolve lowerTable x = true ∧ idx.Resolve lowerTable (x ++ ".md".toList) = true := by
  have hnorm : index.normalizeTarget lowerTable x
      = index.normalizeTarget lowerTable (x ++ ".md".toList) := by
    rw [index.normalizeTarget_append_md, index.normalizeTarget_of_not_HasSuffix lowerTable hx]
  have heq := index.Resolve_eq_of_normalizeTarget_eq lowerTable idx hnorm
  refine ⟨heq, ?_⟩
  intro fs p vaultPath files hbuild e he hfile hbase
  have hkey := index.Build_files_hasKey lowerTable fs p vaultPath files idx hbuild e he hfile
  rw [hbase] at hkey
  have hres : idx.Resolve lowerTable (x ++ ".md".toList) = true :=
    (index.Resolve_iff lowerTable idx _).mpr (Or.inl hkey)
  exact ⟨heq.trans hres, hres⟩

/-- C7, amended, at the target `Note` and the file `/vault/Note.md` of the
vault `/vault`. -/
theorem C7_extension_insensitive_witness :
    strings.HasSuffix "Note".toList ".md".toList = false
    ∧ index.Build sample.asciiTable sample.vaultFS sample.vaultParser "/vault".toList
        sample.vaultDocuments = .ok sample.vaultIndex
    ∧ filepath.Base "/vault/Note.md".toList = "Note".toList ++ ".md".toList
    ∧ sample.vaultIndex.Resolve sample.asciiTable "Note".toList
      = sample.vaultIndex.Resolve sample.asciiTable ("Note".toList ++ ".md".toList)
    ∧ sample.vaultIndex.Resolve sample.asciiTable "Note".toList = true
    ∧ sample.vaultIndex.Resolve sample.asciiTable ("Note".toList ++ ".md".toList) = true :=
  have h := C7_extension_insensitive sample.asciiTable sample.vaultIndex "Note".toList
    (by decide)
  have h2 := h.2 sample.vaultFS sample.vaultParser "/vault".toList sample.vaultDocuments
    (by decide) { path := "/vault/Note.md".toList, isDir := false, err := none }
    (by decide) rfl (by decide)
  ⟨by decide, by decide, by decide, h.1, h2.1, h2.2⟩

/-- C9 at a failing input: `Note.md` of the vault `/vault` declares the alias
`Guide.md`, which resolves; `GUIDE.MD` equals it up to letter case and does
not resolve, because the suffix `.md` is removed before lowercasing. -/
theorem C9_alias_case_of_extension_matters :
    index.Build sample.asciiTable sample.vaultFS sample.vaultParser "/vault".toList
        sample.vaultDocuments = .ok sample.vaultIndex
    ∧ (sample.vaultFS.readFile "/vault/Note.md".toList).toOption.map
        (fun content => sample.vaultParser.ParseAliases content)
        = some (.ok ["AI".toList, "Guide.md".toList])
    ∧ strings.ToLower sample.asciiTable "GUIDE.MD".toList
        = strings.ToLower sample.asciiTable "Guide.md".toList
    ∧ sample.vaultIndex.Resolve sample.asciiTable "Guide.md".toList = true
    ∧ sample.vaultIndex.Resolve sample.asciiTable "GUIDE.MD".toList = false := by
  decide

/-- C10, as stated, fails: the heading-only link `[[#Heading]]` is extracted
with an empty target. -/
theorem C10_counterexample :
    parser.parseContent "See [[#Heading]]".toList
      = [{ Raw := "[[#Heading]]".toList, Target := [], Heading := "Heading".toList,
           Alias := [], IsEmbed := false, Line := 1 }] := by
  decide

/-- C10, amended: for every link extracted from a text, the content between
the brackets is not empty, and the target is empty exactly when the part of
that content before its first `|` and its first `#` is white space only (as in
`[[#H]]`, `[[|a]]` or `[[ ]]`); in every other case the target is not empty. -/
theorem C10_target_empty_iff_blank (content : Str) (l : model.Link)
    (hl : l ∈ parser.parseContent content) :
    ∃ inner : Str, inner ≠ []
      ∧ l.Raw = (if l.IsEmbed then "!".toList else []) ++ "[[".toList ++ inner ++ "]]".toList
      ∧ (l.Target = [] ↔
          ∀ c ∈ inner.takeWhile (fun c => c != '|' && c != '#'), strings.isSpace c = true) := by
  obtain ⟨i, line, raw, inner, suffix, _, hmatch, _, hlink⟩ := parser.mem_parseContent content l hl
  obtain ⟨hne, _, hraw, _⟩ := parser.matchLinkAt_some hmatch
  refine ⟨inner, hne, ?_, ?_⟩
  · rw [hlink]
    rcases hraw with hraw | hraw
    · have hp : strings.HasPrefix raw "!".toList = true := by
        rw [hraw]
        simp [strings.HasPrefix, String.toList]
      simp only [parser.parseLink, hp, if_true]
      rw [hraw]
      simp [String.toList]
    · have hp : strings.HasPrefix raw "!".toList = false := by
        rw [hraw]
        simp [strings.HasPrefix, String.toList]
      simp only [parser.parseLink, hp]
      rw [hraw]
      simp [String.toList]
  · rw [hlink, parser.parseLink_Target, strings.TrimSpace_eq_nil_iff]

/-- C10, amended, at the link `[[Note#Heading]]` of the text
`See [[Note#Heading]]`, whose target `Note` is not empty. -/
theorem C10_target_empty_iff_blank_witness :
    ({ Raw := "[[Note#Heading]]".toList, Target := "Note".toList, Heading := "Heading".toList,
       Alias := [], IsEmbed := false, Line := 1 } : model.Link)
      ∈ parser.parseContent "See [[Note#Heading]]".toList
    ∧ ∃ inner : Str, inner ≠ []
      ∧ "[[Note#Heading]]".toList = "[[".toList ++ inner ++ "]]".toList
      ∧ ("Note".toList = [] ↔
          ∀ c ∈ inner.takeWhile (fun c => c != '|' && c != '#'), strings.isSpace c = true) := by
  obtain ⟨inner, h1, h2, h3⟩ := C10_target_empty_iff_blank "See [[Note#Heading]]".toList
    { Raw := "[[Note#Heading]]".toList, Target := "Note".toList, Heading := "Heading".toList,
      Alias := [], IsEmbed := false, Line := 1 } (by decide)
  exact ⟨by decide, inner, h1, by simpa using h2, h3⟩

/-- C11: the raw text of every extracted link is the matched source text: it
stands as a contiguous part of line number `Line` of the text (lines obtained
by splitting on the newline), at a place where the pattern matches; it holds no
newline; and it is an optional `!`, then `[[`, then one or more characters none
of which is `]`, then `]]`.  So a text that yields a link holds `[[`. -/
theorem C11_raw_is_matched_text (content : Str) (l : model.Link)
    (hl : l ∈ parser.parseContent content) :
    ∃ line pre post inner,
      1 ≤ l.Line ∧ (strings.Split '\n' content).get? (l.Line - 1) = some line
      ∧ line = pre ++ l.Raw ++ post
      ∧ parser.matchLinkAt (l.Raw ++ post) = some (l.Raw, inner)
      ∧ '\n' ∉ l.Raw
      ∧ inner ≠ [] ∧ (∀ c ∈ inner, c ≠ ']')
      ∧ (l.Raw = "![[".toList ++ inner ++ "]]".toList
          ∨ l.Raw = "[[".toList ++ inner ++ "]]".toList)
      ∧ "[[".toList <:+: content := by
  obtain ⟨i, line, pre, raw, inner, post, hi, hline, hmatch, _, hlink⟩ :=
    parser.mem_parseContent_pos content l hl
  obtain ⟨hne, hno, hraw, _⟩ := parser.matchLinkAt_some hmatch
  have hRaw : l.Raw = raw := by rw [hlink]; rfl
  have hLine : l.Line = i + 1 := by rw [hlink]; rfl
  have hnl : '\n' ∉ line :=
    strings.not_mem_of_mem_Split '\n' content line (List.get?_mem hi)
  obtain ⟨a, b, hab, _, _⟩ := strings.Split_get? '\n' content i line hi
  refine ⟨line, pre, post, inner, by omega, ?_, ?_, ?_, ?_, hne, hno, ?_, ?_⟩
  · rw [hLine]
    simpa using hi
  · rw [hRaw]; exact hline
  · rw [hRaw]; exact hmatch
  · rw [hRaw]
    intro hmem
    apply hnl
    rw [hline]
    simp [hmem]
  · rw [hRaw]; exact hraw
  · rcases hraw with hraw | hraw
    · refine ⟨a ++ pre ++ "!".toList, inner ++ "]]".toList ++ post ++ b, ?_⟩
      rw [hab, hline, hraw]
      simp [String.toList]
    · refine ⟨a ++ pre, inner ++ "]]".toList ++ post ++ b, ?_⟩
      rw [hab, hline, hraw]
      simp [String.toList]

/-- C11 at the second line of a text of two lines. -/
theorem C11_raw_is_matched_text_witness :
    ({ Raw := "![[b.png]]".toList, Target := "b.png".toList, Heading := [], Alias := [],
       IsEmbed := true, Line := 2 } : model.Link)
      ∈ parser.parseContent "intro\nsee ![[b.png]] here".toList
    ∧ ∃ line pre post inner,
      1 ≤ 2 ∧ (strings.Split '\n' "intro\nsee ![[b.png]] here".toList).get? (2 - 1) = some line
      ∧ line = pre ++ "![[b.png]]".toList ++ post
      ∧ parser.matchLinkAt ("![[b.png]]".toList ++ post) = some ("![[b.png]]".toList, inner)
      ∧ '\n' ∉ "![[b.png]]".toList
      ∧ inner ≠ [] ∧ (∀ c ∈ inner, c ≠ ']')
      ∧ ("![[b.png]]".toList = "![[".toList ++ inner ++ "]]".toList
          ∨ "![[b.png]]".toList = "[[".toList ++ inner ++ "]]".toList)
      ∧ "[[".toList <:+: "intro\nsee ![[b.png]] here".toList :=
  ⟨by decide,
    C11_raw_is_matched_text "intro\nsee ![[b.png]] here".toList
      { Raw := "![[b.png]]".toList, Target := "b.png".toList, Heading := [], Alias := [],
        IsEmbed := true, Line := 2 } (by decide)⟩

/-- C12: with `c` the inner content of an extracted link (the text between
`[[` and `]]`): when `c` has no `|`, the alias is empty and the target is `c`
cut at its first `#` and trimmed; when `c` is `left`, its first `|` and
`right`, the alias is `right` as written and the target is `left` cut at its
first `#` and trimmed; a `#` in `right` starts no heading, the heading being
empty when `left` has no `#`. -/
theorem C12_target_and_alias (content : Str) (l : model.Link)
    (hl : l ∈ parser.parseContent content) :
    ∃ c : Str, c ≠ []
      ∧ l.Raw = (if l.IsEmbed then "!".toList else []) ++ "[[".toList ++ c ++ "]]".toList
      ∧ ('|' ∉ c →
          l.Alias = [] ∧ l.Target = strings.TrimSpace (c.takeWhile (fun x => x != '#')))
      ∧ (∀ left right, c = left ++ '|' :: right → '|' ∉ left →
          l.Alias = right
          ∧ l.Target = strings.TrimSpace (left.takeWhile (fun x => x != '#'))
          ∧ ('#' ∉ left → l.Heading = [])) := by
  obtain ⟨i, line, pre, raw, inner, post, _, _, hmatch, _, hlink⟩ :=
    parser.mem_parseContent_pos content l hl
  obtain ⟨hne, _, hraw, _, _⟩ := parser.raw_shape hmatch
  refine ⟨inner, hne, ?_, ?_, ?_⟩
  · rw [hlink]
    exact hraw
  · intro hbar
    obtain ⟨h1, h2, _, _⟩ := parser.parseLink_without_bar raw inner
      (strings.HasPrefix raw "!".toList) (i + 1) hbar
    rw [hlink]
    exact ⟨h1, h2⟩
  · intro left right hc hbar
    obtain ⟨h1, h2, h3, _⟩ := parser.parseLink_with_bar raw left right
      (strings.HasPrefix raw "!".toList) (i + 1) hbar
    rw [hlink, hc]
    exact ⟨h1, h2, h3⟩

/-- C12 at the link `[[ Note #Intro|see #1 | here]]`. -/
theorem C12_target_and_alias_witness :
    ({ Raw := "[[ Note #Intro|see #1 | here]]".toList, Target := "Note".toList,
       Heading := "Intro".toList, Alias := "see #1 | here".toList, IsEmbed := false,
       Line := 1 } : model.Link)
      ∈ parser.parseContent "[[ Note #Intro|see #1 | here]]".toList
    ∧ ∃ c : Str, c ≠ []
      ∧ "[[ Note #Intro|see #1 | here]]".toList = "[[".toList ++ c ++ "]]".toList
      ∧ ('|' ∉ c →
          "see #1 | here".toList = []
          ∧ "Note".toList = strings.TrimSpace (c.takeWhile (fun x => x != '#')))
      ∧ (∀ left right, c = left ++ '|' :: right → '|' ∉ left →
          "see #1 | here".toList = right
          ∧ "Note".toList = strings.TrimSpace (left.takeWhile (fun x => x != '#'))
          ∧ ('#' ∉ left → "Intro".toList = [])) := by
  obtain ⟨c, h1, h2, h3, h4⟩ := C12_target_and_alias "[[ Note #Intro|see #1 | here]]".toList
    { Raw := "[[ Note #Intro|see #1 | here]]".toList, Target := "Note".toList,
      Heading := "Intro".toList, Alias := "see #1 | here".toList, IsEmbed := false,
      Line := 1 } (by decide)
  exact ⟨by decide, c, h1, by simpa using h2, h3, h4⟩

/-- C13, as stated, fails: in `[[Note# Intro ]]` the text to the right of the
`#` is ` Intro `, with a space on either side, and the heading recorded is
`Intro`. -/
theorem C13_counterexample :
    parser.parseContent "[[Note# Intro ]]".toList
      = [{ Raw := "[[Note# Intro ]]".toList, Target := "Note".toList,
           Heading := "Intro".toList, Alias := [], IsEmbed := false, Line := 1 }]
    ∧ "Intro".toList ≠ " Intro ".toList := by
  decide

/-- C13, amended: with `part` the part of the inner content of an extracted
link that precedes the first `|`, the heading is the text to the right of the
first `#` of `part`, trimmed of surrounding white space, and is empty when
`part` has no `#`. -/
theorem C13_heading_is_trimmed (content : Str) (l : model.Link)
    (hl : l ∈ parser.parseContent content) :
    ∃ c : Str,
      l.Raw = (if l.IsEmbed then "!".toList else []) ++ "[[".toList ++ c ++ "]]".toList
      ∧ ('#' ∉ c.takeWhile (fun x => x != '|') → l.Heading = [])
      ∧ (∀ x y, c.takeWhile (fun x => x != '|') = x ++ '#' :: y → '#' ∉ x →
          l.Heading = strings.TrimSpace y) := by
  obtain ⟨i, line, pre, raw, inner, post, _, _, hmatch, _, hlink⟩ :=
    parser.mem_parseContent_pos content l hl
  obtain ⟨_, _, hraw, _, _⟩ := parser.raw_shape hmatch
  refine ⟨inner, ?_, ?_⟩
  · rw [hlink]
    exact hraw
  · by_cases hbar : '|' ∈ inner
    · obtain ⟨left, right, hc, hleft, htake⟩ := strings.split_at_first inner '|' hbar
      obtain ⟨_, _, h3, h4⟩ := parser.parseLink_with_bar raw left right
        (strings.HasPrefix raw "!".toList) (i + 1) hleft
      rw [htake, hlink, hc]
      exact ⟨h3, h4⟩
    · obtain ⟨_, _, h3, h4⟩ := parser.parseLink_without_bar raw inner
        (strings.HasPrefix raw "!".toList) (i + 1) hbar
      rw [strings.takeWhile_of_not_mem inner '|' hbar, hlink]
      exact ⟨h3, h4⟩

/-- C13, amended, at the link `[[Note# Intro |x#y]]`. -/
theorem C13_heading_is_trimmed_witness :
    ({ Raw := "[[Note# Intro |x#y]]".toList, Target := "Note".toList,
       Heading := "Intro".toList, Alias := "x#y".toList, IsEmbed := false,
       Line := 1 } : model.Link)
      ∈ parser.parseContent "[[Note# Intro |x#y]]".toList
    ∧ ∃ c : Str,
      "[[Note# Intro |x#y]]".toList = "[[".toList ++ c ++ "]]".toList
      ∧ ('#' ∉ c.takeWhile (fun x => x != '|') → "Intro".toList = [])
      ∧ (∀ x y, c.takeWhile (fun x => x != '|') = x ++ '#' :: y → '#' ∉ x →
          "Intro".toList = strings.TrimSpace y) := by
  obtain ⟨c, h1, h2, h3⟩ := C13_heading_is_trimmed "[[Note# Intro |x#y]]".toList
    { Raw := "[[Note# Intro |x#y]]".toList, Target := "Note".toList,
      Heading := "Intro".toList, Alias := "x#y".toList, IsEmbed := false,
      Line := 1 } (by decide)
  exact ⟨by decide, c, by simpa using h1, h2, h3⟩

/-- C14: for every extracted link, the embed flag is true if and only if the
matched text starts with `!`; then the raw text is `![[`, the inner content
and `]]`; otherwise the raw text starts with `[[` and the character just
before it in its line, if there is one, is not `!`. -/
theorem C14_embed_iff_bang (content : Str) (l : model.Link)
    (hl : l ∈ parser.parseContent content) :
    ∃ line pre post inner,
      (strings.Split '\n' content).get? (l.Line - 1) = some line
      ∧ line = pre ++ l.Raw ++ post
      ∧ parser.matchLinkAt (l.Raw ++ post) = some (l.Raw, inner)
      ∧ (l.IsEmbed = true ↔ l.Raw.head? = some '!')
      ∧ (l.IsEmbed = true → l.Raw = "![[".toList ++ inner ++ "]]".toList)
      ∧ (l.IsEmbed = false →
          l.Raw = "[[".toList ++ inner ++ "]]".toList ∧ pre.getLast? ≠ some '!') := by
  obtain ⟨i, line, pre, raw, inner, post, hi, hline, hmatch, hpre, hlink⟩ :=
    parser.mem_parseContent_pos content l hl
  obtain ⟨_, _, hraw, hiff, hplain⟩ := parser.raw_shape hmatch
  have hRaw : l.Raw = raw := by rw [hlink]; rfl
  have hLine : l.Line = i + 1 := by rw [hlink]; rfl
  have hEmbed : l.IsEmbed = strings.HasPrefix raw "!".toList := by rw [hlink]; rfl
  refine ⟨line, pre, post, inner, ?_, ?_, ?_, ?_, ?_, ?_⟩
  · rw [hLine]
    simpa using hi
  · rw [hRaw]; exact hline
  · rw [hRaw]; exact hmatch
  · rw [hRaw, hEmbed]; exact hiff
  · intro he
    rw [hEmbed] at he
    rw [he, if_pos rfl] at hraw
    rw [hRaw]
    simpa [String.toList] using hraw
  · intro he
    rw [hEmbed] at he
    refine ⟨?_, hpre (hplain he)⟩
    rw [he] at hraw
    rw [hRaw]
    simpa [String.toList] using hraw

/-- C14 at the two links of the line `![[a]] !x[[b]]`. -/
theorem C14_embed_iff_bang_witness :
    parser.parseContent "![[a]] !x[[b]]".toList
      = [{ Raw := "![[a]]".toList, Target := "a".toList, Heading := [], Alias := [],
           IsEmbed := true, Line := 1 },
         { Raw := "[[b]]".toList, Target := "b".toList, Heading := [], Alias := [],
           IsEmbed := false, Line := 1 }]
    ∧ ∃ line pre post inner,
      (strings.Split '\n' "![[a]] !x[[b]]".toList).get? (1 - 1) = some line
      ∧ line = pre ++ "[[b]]".toList ++ post
      ∧ parser.matchLinkAt ("[[b]]".toList ++ post) = some ("[[b]]".toList, inner)
      ∧ (false = true ↔ "[[b]]".toList.head? = some '!')
      ∧ (false = true → "[[b]]".toList = "![[".toList ++ inner ++ "]]".toList)
      ∧ (false = false →
          "[[b]]".toList = "[[".toList ++ inner ++ "]]".toList ∧ pre.getLast? ≠ some '!') :=
  ⟨by decide,
    C14_embed_iff_bang "![[a]] !x[[b]]".toList
      { Raw := "[[b]]".toList, Target := "b".toList, Heading := [], Alias := [],
        IsEmbed := false, Line := 1 } (by decide)⟩

/-- C15: for every extracted link, the text is `before`, the raw text of the
link at a place where the pattern matches, and `after`, with the line number
equal to one plus the number of newlines in `before`; the line number is at
least one and at most the number of lines, which is one plus the number of
newlines of the text. -/
theorem C15_line_number (content : Str) (l : model.Link)
    (hl : l ∈ parser.parseContent content) :
    ∃ before after inner,
      content = before ++ l.Raw ++ after
      ∧ parser.matchLinkAt (l.Raw ++ after) = some (l.Raw, inner)
      ∧ l.Line = 1 + before.count '\n'
      ∧ 1 ≤ l.Line ∧ l.Line ≤ (strings.Split '\n' content).length
      ∧ (strings.Split '\n' content).length = 1 + content.count '\n' := by
  obtain ⟨i, line, pre, raw, inner, post, hi, hline, hmatch, _, hlink⟩ :=
    parser.mem_parseContent_pos content l hl
  have hRaw : l.Raw = raw := by rw [hlink]; rfl
  have hLine : l.Line = i + 1 := by rw [hlink]; rfl
  have hnl : '\n' ∉ line :=
    strings.not_mem_of_mem_Split '\n' content line (List.get?_mem hi)
  obtain ⟨a, b, hab, hcount, _⟩ := strings.Split_get? '\n' content i line hi
  have hpre : pre.count '\n' = 0 := by
    apply List.count_eq_zero.mpr
    intro hmem
    apply hnl
    rw [hline]
    simp [hmem]
  have hlt : i < (strings.Split '\n' content).length := by
    obtain ⟨h, _⟩ := List.get?_eq_some.mp hi
    exact h
  refine ⟨a ++ pre, post ++ b, inner, ?_, ?_, ?_, ?_, ?_, ?_⟩
  · rw [hRaw, hab, hline]
    simp
  · rw [hRaw]
    exact parser.matchLinkAt_rest hmatch _
  · rw [hLine, List.count_append, hcount, hpre]
    omega
  · omega
  · omega
  · rw [strings.Split_length]
    omega

/-- C15 at the link on the third line of a text of four lines. -/
theorem C15_line_number_witness :
    ({ Raw := "[[Note2]]".toList, Target := "Note2".toList, Heading := [], Alias := [],
       IsEmbed := false, Line := 3 } : model.Link)
      ∈ parser.parseContent "Line 1: [[Note1]]\nLine 2\nLine 3: [[Note2]]\n".toList
    ∧ ∃ before after inner,
      "Line 1: [[Note1]]\nLine 2\nLine 3: [[Note2]]\n".toList
        = before ++ "[[Note2]]".toList ++ after
      ∧ parser.matchLinkAt ("[[Note2]]".toList ++ after) = some ("[[Note2]]".toList, inner)
      ∧ 3 = 1 + before.count '\n'
      ∧ 1 ≤ 3
      ∧ 3 ≤ (strings.Split '\n' "Line 1: [[Note1]]\nLine 2\nLine 3: [[Note2]]\n".toList).length
      ∧ (strings.Split '\n' "Line 1: [[Note1]]\nLine 2\nLine 3: [[Note2]]\n".toList).length
          = 1 + "Line 1: [[Note1]]\nLine 2\nLine 3: [[Note2]]\n".toList.count '\n' :=
  ⟨by decide,
    C15_line_number "Line 1: [[Note1]]\nLine 2\nLine 3: [[Note2]]\n".toList
      { Raw := "[[Note2]]".toList, Target := "Note2".toList, Heading := [], Alias := [],
        IsEmbed := false, Line := 3 } (by decide)⟩

/-- C16, as stated, fails: for the target `C#`, without heading and alias, the
synthesized occurrence is `[[C#]]`, and the one link extracted from it has the
target `C`. -/
theorem C16_counterexample :
    parser.synthesize "C#".toList none none false = "[[C#]]".toList
    ∧ parser.parseContent (parser.synthesize "C#".toList none none false)
      = [{ Raw := "[[C#]]".toList, Target := "C".toList, Heading := [], Alias := [],
           IsEmbed := false, Line := 1 }]
    ∧ "C".toList ≠ "C#".toList := by
  decide

/-- C16, amended: for every non-empty target `T` without `]`, `|`, `#` and
newline and without leading or trailing white space, every optional heading `H`
without `]`, `|` and newline and without leading or trailing white space, every
optional alias `A` without `]` and newline, and every embed flag `E`, the
synthesized occurrence yields exactly one link, with target `T`, heading `H`
(empty when absent), alias `A` (empty when absent) and embed flag `E`. -/
theorem C16_round_trip (T : Str) (H A : Option Str) (E : Bool)
    (hT1 : T ≠ [])
    (hT2 : ∀ c ∈ T, c ≠ ']' ∧ c ≠ '|' ∧ c ≠ '#' ∧ c ≠ '\n')
    (hT3 : strings.isTrimmed T = true)
    (hH : ∀ h, H = some h →
      (∀ c ∈ h, c ≠ ']' ∧ c ≠ '|' ∧ c ≠ '\n') ∧ strings.isTrimmed h = true)
    (hA : ∀ a, A = some a → ∀ c ∈ a, c ≠ ']' ∧ c ≠ '\n') :
    parser.parseContent (parser.synthesize T H A E)
      = [{ Raw := parser.synthesize T H A E, Target := T, Heading := H.getD [],
           Alias := A.getD [], IsEmbed := E, Line := 1 }] :=
  parser.parseContent_synthesize T H A E hT1 hT2 hT3 hH hA

/-- C16, amended, at the target `Note`, the heading `Heading`, the alias
`Display` and the embed flag set. -/
theorem C16_round_trip_witness :
    parser.synthesize "Note".toList (some "Heading".toList) (some "Display".toList) true
      = "![[Note#Heading|Display]]".toList
    ∧ parser.parseContent
        (parser.synthesize "Note".toList (some "Heading".toList) (some "Display".toList) true)
      = [{ Raw := parser.synthesize "Note".toList (some "Heading".toList)
                    (some "Display".toList) true,
           Target := "Note".toList, Heading := (some "Heading".toList).getD [],
           Alias := (some "Display".toList).getD [], IsEmbed := true, Line := 1 }] :=
  ⟨by decide,
    C16_round_trip "Note".toList (some "Heading".toList) (some "Display".toList) true
      (by decide) (by decide) (by decide)
      (fun h hh => by
        cases hh
        exact ⟨by decide, by decide⟩)
      (fun a ha => by
        cases ha
        decide)⟩

/-- C17: `Validate` returns a result exactly when the enumeration, the index
construction and the parse of every document succeed; a failure of the
enumeration, of the index construction or of the parse of a document makes it
return the wrapped error, and with it no result, whatever was collected from
earlier documents. -/
theorem C17_no_partial_result (s : scanner.Scanner) (p : parser.Parser) (b : index.Builder)
    (r : resolver.Resolver) (vaultPath : Str) :
    ((∃ result, validator.Validate s p b r vaultPath = .ok result) ↔
      ∃ files idx, s.Scan vaultPath = .ok files ∧ b.Build vaultPath files = .ok idx
        ∧ ∀ f ∈ files, ∃ links, p.ParseFile f = .ok links)
    ∧ (∀ e, s.Scan vaultPath = .error e →
        validator.Validate s p b r vaultPath = .error (.wrap e "scan failed"))
    ∧ (∀ files e, s.Scan vaultPath = .ok files → b.Build vaultPath files = .error e →
        validator.Validate s p b r vaultPath = .error (.wrap e "build index failed"))
    ∧ (∀ files idx, s.Scan vaultPath = .ok files → b.Build vaultPath files = .ok idx →
        (∃ f ∈ files, ∃ e, p.ParseFile f = .error e) →
        ∃ f ∈ files, ∃ e, p.ParseFile f = .error e
          ∧ validator.Validate s p b r vaultPath = .error (.wrap e "parse file failed")) := by
  refine ⟨⟨?_, ?_⟩, ?_, ?_, ?_⟩
  · rintro ⟨result, hval⟩
    obtain ⟨files, idx, hscan, hbuild, hfiles⟩ :=
      validator.Validate_ok s p b r vaultPath result hval
    exact ⟨files, idx, hscan, hbuild,
      (validator.validateFiles_spec p r idx files GoMap.empty result.BrokenLinks hfiles).1⟩
  · rintro ⟨files, idx, hscan, hbuild, hall⟩
    obtain ⟨m, hm⟩ := (validator.validateFiles_result p r idx files GoMap.empty).1 hall
    exact ⟨{ BrokenLinks := m }, by simp only [validator.Validate, hscan, hbuild, hm]⟩
  · intro e hscan
    simp only [validator.Validate, hscan]
  · intro files e hscan hbuild
    simp only [validator.Validate, hscan, hbuild]
  · intro files idx hscan hbuild hfail
    obtain ⟨f, hf, e, he, hv⟩ :=
      (validator.validateFiles_result p r idx files GoMap.empty).2 hfail
    exact ⟨f, hf, e, he, by simp only [validator.Validate, hscan, hbuild, hv]⟩

/-- C17 at a run in which the first document holds a broken link and the
second document cannot be read: the run returns the wrapped read error. -/
theorem C17_no_partial_result_witness :
    sample.lockedScanner.Scan "/vault".toList
      = .ok ["/vault/Note.md".toList, "/vault/Locked.md".toList]
    ∧ (parser.New sample.yamlDecoder sample.lockedFS).ParseFile "/vault/Note.md".toList
      = .ok [{ Raw := "[[Missing]]".toList, Target := "Missing".toList, Heading := [],
               Alias := [], IsEmbed := false, Line := 1 }]
    ∧ validator.Validate sample.lockedScanner (parser.New sample.yamlDecoder sample.lockedFS)
        sample.emptyBuilder sample.vaultResolver "/vault".toList
      = .error (.wrap (.wrap (.base "permission denied") "read file failed")
          "parse file failed")
    ∧ ∃ f ∈ ["/vault/Note.md".toList, "/vault/Locked.md".toList], ∃ e,
        (parser.New sample.yamlDecoder sample.lockedFS).ParseFile f = .error e
        ∧ validator.Validate sample.lockedScanner
            (parser.New sample.yamlDecoder sample.lockedFS) sample.emptyBuilder
            sample.vaultResolver "/vault".toList = .error (.wrap e "parse file failed") :=
  ⟨by decide, by decide, by decide,
    (C17_no_partial_result sample.lockedScanner (parser.New sample.yamlDecoder sample.lockedFS)
      sample.emptyBuilder sample.vaultResolver "/vault".toList).2.2.2
      ["/vault/Note.md".toList, "/vault/Locked.md".toList]
      { files := GoMap.empty, aliases := GoMap.empty } (by decide) (by decide)
      ⟨"/vault/Locked.md".toList, by decide,
        .wrap (.base "permission denied") "read file failed", by decide⟩⟩

/-- C18: `ParseAliases` never returns an error, whatever the text holds and
whatever the decoder returns; a text that is not `---`, a newline, a block and
a closing `---` between two newlines yields no aliases, and so does a block
for which the decoder returns an error. -/
theorem C18_alias_extraction_never_fails (unmarshal : Str → Except GoError parser.Dynamic)
    (content : Str) :
    (∃ aliases, parser.ParseAliases unmarshal content = .ok aliases)
    ∧ ((∀ a b, content ≠ "---\n".toList ++ a ++ "\n---\n".toList ++ b) →
        parser.ParseAliases unmarshal content = .ok [])
    ∧ (∀ e, unmarshal (parser.extractFrontmatter content) = .error e →
        parser.ParseAliases unmarshal content = .ok []) := by
  refine ⟨?_, ?_, ?_⟩
  · rw [parser.ParseAliases_eq]
    by_cases h : parser.extractFrontmatter content = []
    · exact ⟨[], by simp only [h, if_true]⟩
    · simp only [h, if_false]
      cases unmarshal (parser.extractFrontmatter content) with
      | error e => exact ⟨[], rfl⟩
      | ok v =>
          cases v with
          | isNil => exact ⟨[], rfl⟩
          | isString v => exact ⟨[v], rfl⟩
          | isSlice v => exact ⟨v.filterMap id, rfl⟩
          | isOther => exact ⟨[], rfl⟩
  · intro hshape
    rcases parser.extractFrontmatter_cases content with ⟨block, tail, h1, _, _⟩ | ⟨_, h2⟩
    · exact absurd h1 (hshape block tail)
    · rw [parser.ParseAliases_eq]
      simp only [h2, if_true]
  · intro e he
    rw [parser.ParseAliases_eq, he]
    by_cases h : parser.extractFrontmatter content = []
    · simp only [h, if_true]
    · simp only [h, if_false]

/-- C19: when `ParseAliases` yields an alias, the text is `---`, a newline, a
block, the closing `---` between two newlines and a tail, so its first line is
`---` and a later line is `---`; when the text starts with `---` and a newline
and the rest holds a closing `---` between two newlines, the block extracted is
the text before the first such closing marker, and the result depends on the
decoder through what it returns for that block only; a text that does not
start with `---` and a newline yields no aliases. -/
theorem C19_block_is_delimited (unmarshal : Str → Except GoError parser.Dynamic)
    (content : Str) :
    (∀ aliases, parser.ParseAliases unmarshal content = .ok aliases → aliases ≠ [] →
      ∃ block tail i,
        content = "---\n".toList ++ block ++ "\n---\n".toList ++ tail
        ∧ (strings.Split '\n' content).get? 0 = some "---".toList
        ∧ 1 ≤ i ∧ (strings.Split '\n' content).get? i = some "---".toList)
    ∧ (∀ rest, content = "---\n".toList ++ rest →
        (∃ a b, rest = a ++ "\n---\n".toList ++ b) →
        ∃ block tail,
          rest = block ++ "\n---\n".toList ++ tail
          ∧ (∀ a b, rest = a ++ "\n---\n".toList ++ b → block.length ≤ a.length)
          ∧ parser.extractFrontmatter content = block
          ∧ ∀ unmarshal2 : Str → Except GoError parser.Dynamic,
              unmarshal2 block = unmarshal block →
              parser.ParseAliases unmarshal2 content = parser.ParseAliases unmarshal content)
    ∧ (strings.HasPrefix content "---\n".toList = false →
        parser.ParseAliases unmarshal content = .ok []) := by
  refine ⟨?_, ?_, ?_⟩
  · intro aliases hparse hne
    rcases parser.extractFrontmatter_cases content with ⟨block, tail, h1, _, _⟩ | ⟨_, h2⟩
    · refine ⟨block, tail, 1 + (strings.Split '\n' block).length, h1, ?_, by omega, ?_⟩
      · rw [h1, strings.Split_frontmatter]
        rfl
      · rw [h1, strings.Split_frontmatter]
        rw [List.get?_eq_getElem?, List.getElem?_append_right (by simp; omega)]
        have : 1 + (strings.Split '\n' block).length
            - (["---".toList] ++ strings.Split '\n' block).length = 0 := by
          simp
          omega
        rw [this]
        simp
    · rw [parser.ParseAliases_eq] at hparse
      simp only [h2, if_true, Except.ok.injEq] at hparse
      exact absurd hparse.symm hne
  · intro rest hrest hocc
    rcases parser.extractFrontmatter_cases content with ⟨block, tail, h1, h2, h3⟩ | ⟨h4, _⟩
    · have hr : rest = block ++ "\n---\n".toList ++ tail := by
        rw [hrest] at h1
        have := List.append_cancel_left (by simpa [List.append_assoc] using h1 :
          "---\n".toList ++ rest = "---\n".toList ++ (block ++ "\n---\n".toList ++ tail))
        exact this
      refine ⟨block, tail, hr, ?_, h3, ?_⟩
      · intro a b hab
        exact h2 a b (by rw [← hr]; exact hab)
      · intro unmarshal2 hsame
        rw [parser.ParseAliases_eq, parser.ParseAliases_eq, h3, hsame]
    · obtain ⟨a, b, hab⟩ := hocc
      exfalso
      apply h4 a b
      rw [hrest, hab]
      simp [List.append_assoc]
  · intro hp
    have hext : parser.extractFrontmatter content = [] := by
      simp only [parser.extractFrontmatter, hp]
      rfl
    rw [parser.ParseAliases_eq]
    simp only [hext, if_true]

/-- C19 at a text with two closing markers: the block ends at the first. -/
theorem C19_block_is_delimited_witness :
    parser.ParseAliases sample.yamlDecoder
        "---\naliases: MyAlias\n---\nbody\n---\nmore".toList = .ok ["MyAlias".toList]
    ∧ parser.extractFrontmatter "---\naliases: MyAlias\n---\nbody\n---\nmore".toList
        = "aliases: MyAlias".toList
    ∧ ∃ block tail i,
        "---\naliases: MyAlias\n---\nbody\n---\nmore".toList
          = "---\n".toList ++ block ++ "\n---\n".toList ++ tail
        ∧ (strings.Split '\n' "---\naliases: MyAlias\n---\nbody\n---\nmore".toList).get? 0
            = some "---".toList
        ∧ 1 ≤ i
        ∧ (strings.Split '\n' "---\naliases: MyAlias\n---\nbody\n---\nmore".toList).get? i
            = some "---".toList :=
  ⟨by decide, by decide,
    (C19_block_is_delimited sample.yamlDecoder
      "---\naliases: MyAlias\n---\nbody\n---\nmore".toList).1
      ["MyAlias".toList] (by decide) (by decide)⟩

/-- C20: for a text that is `---`, a newline, a block, the first closing `---`
between two newlines and a tail, and a decoder that returns the value `v` for
the block (no value for an empty block): `ParseAliases` returns `[v]` when `v`
is a string, the string elements of `v` in their order when `v` is a list, and
no aliases when `v` is nil (key absent or null) or of another type. -/
theorem C20_alias_value_shapes (unmarshal : Str → Except GoError parser.Dynamic)
    (block tail : Str) (v : parser.Dynamic)
    (hfirst : ∀ a b, block ++ "\n---\n".toList ++ tail = a ++ "\n---\n".toList ++ b →
      block.length ≤ a.length)
    (hdecoded : unmarshal block = .ok v)
    (hempty : block = [] → v = .isNil) :
    parser.ParseAliases unmarshal ("---\n".toList ++ block ++ "\n---\n".toList ++ tail)
      = .ok (parser.aliasesOfValue v) := by
  rw [parser.ParseAliases_eq, parser.extractFrontmatter_of_shape block tail hfirst]
  by_cases hb : block = []
  · rw [hempty hb]
    simp only [hb, if_true]
    rfl
  · simp only [hb, if_false, hdecoded]
    cases v <;> rfl

/-- C20 at a list with a number between two strings. -/
theorem C20_alias_value_shapes_witness :
    sample.yamlDecoder "aliases: [AI, 42, ML]".toList
      = .ok (.isSlice [some "AI".toList, none, some "ML".toList])
    ∧ strings.cutFirst "\n---\n".toList
        ("aliases: [AI, 42, ML]".toList ++ "\n---\n".toList ++ "Content here".toList)
      = some ("aliases: [AI, 42, ML]".toList, "Content here".toList)
    ∧ parser.ParseAliases sample.yamlDecoder
        ("---\n".toList ++ "aliases: [AI, 42, ML]".toList ++ "\n---\n".toList
          ++ "Content here".toList)
      = .ok (parser.aliasesOfValue (.isSlice [some "AI".toList, none, some "ML".toList]))
    ∧ parser.aliasesOfValue (.isSlice [some "AI".toList, none, some "ML".toList])
      = ["AI".toList, "ML".toList] :=
  ⟨by decide, by decide,
    C20_alias_value_shapes sample.yamlDecoder "aliases: [AI, 42, ML]".toList
      "Content here".toList (.isSlice [some "AI".toList, none, some "ML".toList])
      (strings.cutFirst_some "\n---\n".toList
        ("aliases: [AI, 42, ML]".toList ++ "\n---\n".toList ++ "Content here".toList)
        "aliases: [AI, 42, ML]".toList "Content here".toList (by decide)).2
      (by decide) (fun h => absurd h (by decide)), by decide⟩

/-- C21: on the vault of the first end-to-end scenario (`ValidNote.md`,
`image.png`, `WithAlias.md` declaring the aliases `MyAlias` and `Another`, and
`BrokenLinks.md` with its six references on lines 3 to 8), `Validate` with the
scanner, parser, index builder and resolver of the program returns the mapping
with the single key `BrokenLinks.md`, whose defect list is `[[DoesNotExist]]`
on line 4 followed by `![[missing.png]]` on line 6. -/
theorem C21_scenario_one (lowerTable : Char → Char) :
    validator.Validate (scanner.New none sample.scenarioFS)
      (parser.New sample.scenarioDecoder sample.scenarioFS)
      (index.New lowerTable sample.scenarioFS
        (parser.New sample.scenarioDecoder sample.scenarioFS))
      (resolver.New lowerTable) "/vault".toList
    = .ok { BrokenLinks := ⟨[("/vault/BrokenLinks.md".toList,
        [{ Link := "[[DoesNotExist]]".toList, Line := 4 },
         { Link := "![[missing.png]]".toList, Line := 6 }])]⟩ } := by
  set_option maxRecDepth 100000 in
  rfl

/-- C22: with the parser of the program, `Build` returns an error if and only
if the walk of the vault reports an error for some entry or one of the listed
documents cannot be read; every error it returns is such a file system error
wrapped as `walk vault failed` or as `read file failed`, never as
`parse aliases failed`; and an error is returned in place of an index. -/
theorem C22_build_fails_only_on_file_system_errors (lowerTable : Char → Char)
    (unmarshal : Str → Except GoError parser.Dynamic) (fs : FileSystem)
    (vaultPath : Str) (files : List Str) :
    ((∃ err, index.Build lowerTable fs (parser.New unmarshal fs) vaultPath files = .error err) ↔
      ((∃ e ∈ fs.walk vaultPath, e.err ≠ none)
        ∨ ∃ f ∈ files, ∃ cause, fs.readFile f = .error cause))
    ∧ (∀ err, index.Build lowerTable fs (parser.New unmarshal fs) vaultPath files = .error err →
        (∃ e ∈ fs.walk vaultPath, ∃ cause, e.err = some cause
            ∧ err = .wrap cause "walk vault failed")
        ∨ (∃ f ∈ files, ∃ cause, fs.readFile f = .error cause
            ∧ err = .wrap cause "read file failed"))
    ∧ (∀ err, index.Build lowerTable fs (parser.New unmarshal fs) vaultPath files = .error err →
        ∀ idx, index.Build lowerTable fs (parser.New unmarshal fs) vaultPath files ≠ .ok idx) := by
  have htotal : ∀ content, ∃ aliases,
      (parser.New unmarshal fs).ParseAliases content = .ok aliases :=
    fun content => parser.ParseAliases_total unmarshal content
  have hshape : ∀ err,
      index.Build lowerTable fs (parser.New unmarshal fs) vaultPath files = .error err →
        (∃ e ∈ fs.walk vaultPath, ∃ cause, e.err = some cause
            ∧ err = .wrap cause "walk vault failed")
        ∨ (∃ f ∈ files, ∃ cause, fs.readFile f = .error cause
            ∧ err = .wrap cause "read file failed") := by
    intro err hb
    rcases (index.Build_error_iff lowerTable fs _ htotal vaultPath files err).mp hb with
      ⟨pre, e, post, cause, hsplit, _, he, herr⟩ | ⟨_, pre, f, post, cause, hsplit, _, hf, herr⟩
    · exact Or.inl ⟨e, by rw [hsplit]; simp, cause, he, herr⟩
    · exact Or.inr ⟨f, by rw [hsplit]; simp, cause, hf, herr⟩
  refine ⟨⟨?_, ?_⟩, hshape, ?_⟩
  · rintro ⟨err, hb⟩
    rcases hshape err hb with ⟨e, he, cause, hc, _⟩ | ⟨f, hf, cause, hc, _⟩
    · exact Or.inl ⟨e, he, by rw [hc]; simp⟩
    · exact Or.inr ⟨f, hf, cause, hc⟩
  · intro h
    cases hb : index.Build lowerTable fs (parser.New unmarshal fs) vaultPath files with
    | error err => exact ⟨err, rfl⟩
    | ok idx =>
        exfalso
        have hparts := index.Build_ok lowerTable fs _ vaultPath files idx hb
        rcases h with ⟨e, he, hne⟩ | ⟨f, hf, cause, hc⟩
        · obtain ⟨pre, x, post, hsplit, hpre, hx⟩ :=
            index.exists_first (fun x : WalkEntry => x.err ≠ none) (fs.walk vaultPath)
              ⟨e, he, hne⟩
          cases hxe : x.err with
          | none => exact hx hxe
          | some c =>
              have h2 := (index.walkFold_indexEntry_error_iff lowerTable _ GoMap.empty c).mpr
                ⟨pre, x, post, hsplit, fun y hy => by simpa using hpre y hy, hxe⟩
              rw [hparts.1] at h2
              cases h2
        · obtain ⟨pre, x, post, hsplit, hpre, c, hx⟩ :=
            index.exists_first (fun x : Str => ∃ c, fs.readFile x = .error c) files
              ⟨f, hf, cause, hc⟩
          have h2 := (index.indexFiles_error_iff lowerTable fs _ htotal files GoMap.empty
            (.wrap c "read file failed")).mpr
            ⟨pre, x, post, c, hsplit, fun y hy => by
              cases hy2 : fs.readFile y with
              | ok content => exact ⟨content, rfl⟩
              | error c2 => exact absurd ⟨c2, hy2⟩ (hpre y hy), hx, rfl⟩
          rw [hparts.2] at h2
          cases h2
  · intro err hb idx hok
    rw [hb] at hok
    cases hok

/-- C23: with the parser of the program, `Build` returns an index whenever the
walk reports no error and every listed document can be read, whatever names
collide; in the index it returns, the files mapping holds for a normalized base
name the path of the last walked file with that normalized base name, and the
aliases mapping holds for a normalized alias the path of the last document of
the list that declares an alias with that normalized form. -/
theorem C23_last_write_wins (lowerTable : Char → Char)
    (unmarshal : Str → Except GoError parser.Dynamic) (fs : FileSystem)
    (vaultPath : Str) (files : List Str) :
    (((∀ e ∈ fs.walk vaultPath, e.err = none) ∧ (∀ f ∈ files, ∃ content, fs.readFile f = .ok content))
      → ∃ idx, index.Build lowerTable fs (parser.New unmarshal fs) vaultPath files = .ok idx)
    ∧ ∀ idx, index.Build lowerTable fs (parser.New unmarshal fs) vaultPath files = .ok idx →
      (∀ pre e post, fs.walk vaultPath = pre ++ e :: post → e.isDir = false →
        (∀ x ∈ post, x.isDir = false →
          index.normalizeTarget lowerTable (filepath.Base x.path)
            ≠ index.normalizeTarget lowerTable (filepath.Base e.path)) →
        idx.files.lookup (index.normalizeTarget lowerTable (filepath.Base e.path))
          = some e.path)
      ∧ (∀ pre f post content declared a, files = pre ++ f :: post →
        fs.readFile f = .ok content → parser.ParseAliases unmarshal content = .ok declared →
        a ∈ declared →
        (∀ x ∈ post, ∀ c d, fs.readFile x = .ok c → parser.ParseAliases unmarshal c = .ok d →
          ∀ b ∈ d, index.normalizeTarget lowerTable b ≠ index.normalizeTarget lowerTable a) →
        idx.aliases.lookup (index.normalizeTarget lowerTable a) = some f) := by
  refine ⟨?_, ?_⟩
  · rintro ⟨hwalk, hread⟩
    exact index.Build_succeeds lowerTable fs _
      (fun content => parser.ParseAliases_total unmarshal content) vaultPath files hwalk hread
  · intro idx hb
    have hparts := index.Build_ok lowerTable fs _ vaultPath files idx hb
    refine ⟨?_, ?_⟩
    · intro pre e post hsplit hfile hlast
      have h1 := hparts.1
      rw [hsplit] at h1
      exact index.walkFold_indexEntry_last lowerTable e post hfile hlast pre _ _ h1
    · intro pre f post content declared a hsplit hread hparse ha hlast
      have h2 := hparts.2
      rw [hsplit] at h2
      exact index.indexFiles_last lowerTable fs (parser.New unmarshal fs) f post content
        declared a hread hparse ha hlast pre _ _ h2

theorem C23_last_write_wins_witness :
    index.Build sample.asciiTable sample.collisionFS
        (parser.New sample.collisionDecoder sample.collisionFS) "/vault".toList
        sample.collisionDocuments = .ok sample.collisionIndex
    ∧ sample.collisionIndex.files.lookup
        (index.normalizeTarget sample.asciiTable (filepath.Base "/vault/b/note.md".toList))
        = some "/vault/b/note.md".toList
    ∧ sample.collisionIndex.aliases.lookup
        (index.normalizeTarget sample.asciiTable "home".toList)
        = some "/vault/b/note.md".toList :=
  have hb : index.Build sample.asciiTable sample.collisionFS
        (parser.New sample.collisionDecoder sample.collisionFS) "/vault".toList
        sample.collisionDocuments = .ok sample.collisionIndex := by decide
  ⟨hb,
    ((C23_last_write_wins sample.asciiTable sample.collisionDecoder sample.collisionFS
      "/vault".toList sample.collisionDocuments).2 sample.collisionIndex hb).1
      [ { path := "/vault".toList, isDir := true, err := none },
        { path := "/vault/a".toList, isDir := true, err := none },
        { path := "/vault/a/Note.md".toList, isDir := false, err := none },
        { path := "/vault/b".toList, isDir := true, err := none } ]
      { path := "/vault/b/note.md".toList, isDir := false, err := none }
      [ { path := "/vault/c.md".toList, isDir := false, err := none } ]
      (by decide) (by decide) (by decide),
    ((C23_last_write_wins sample.asciiTable sample.collisionDecoder sample.collisionFS
      "/vault".toList sample.collisionDocuments).2 sample.collisionIndex hb).2
      ["/vault/a/Note.md".toList] "/vault/b/note.md".toList ["/vault/c.md".toList]
      "---\naliases: home\n---\nSecond".toList ["home".toList] "home".toList
      (by decide) (by decide) (by decide) (by decide)
      (by
        intro x hx c d hc hd b hb2
        have hx2 : x = "/vault/c.md".toList := by simpa using hx
        subst hx2
        have hc2 : c = "---\naliases: Note\n---\nThird".toList := by
          have : sample.collisionFS.readFile "/vault/c.md".toList
              = .ok "---\naliases: Note\n---\nThird".toList := by decide
          rw [this] at hc
          cases hc
          rfl
        subst hc2
        have hd2 : d = ["Note".toList] := by
          have : parser.ParseAliases sample.collisionDecoder
              "---\naliases: Note\n---\nThird".toList = .ok ["Note".toList] := by decide
          rw [this] at hd
          cases hd
          rfl
        subst hd2
        have hb3 : b = "Note".toList := by simpa using hb2
        subst hb3
        decide)⟩

/-- C24: the files mapping of the index `Build` returns is the mapping the
walk of the vault produced: indexing the aliases leaves it unchanged, it is the
same for every parser and every list of documents, and it maps the normalized
base name of a walked file to the path of the last walked file with that
normalized base name, also when a document declares an alias with that
normalized form. -/
theorem C24_alias_never_overrides_file (lowerTable : Char → Char) (fs : FileSystem)
    (p : parser.Parser) (vaultPath : Str) (files : List Str) (idx : index.VaultIndex)
    (h : index.Build lowerTable fs p vaultPath files = .ok idx) :
    filepath.WalkDir fs vaultPath (index.indexEntry lowerTable) GoMap.empty = .ok idx.files
    ∧ (∀ p2 files2 idx2, index.Build lowerTable fs p2 vaultPath files2 = .ok idx2 →
        idx2.files = idx.files)
    ∧ (∀ pre e post, fs.walk vaultPath = pre ++ e :: post → e.isDir = false →
        (∀ x ∈ post, x.isDir = false →
          index.normalizeTarget lowerTable (filepath.Base x.path)
            ≠ index.normalizeTarget lowerTable (filepath.Base e.path)) →
        idx.files.lookup (index.normalizeTarget lowerTable (filepath.Base e.path))
          = some e.path) := by
  have hparts := index.Build_ok lowerTable fs p vaultPath files idx h
  refine ⟨hparts.1, ?_, ?_⟩
  · intro p2 files2 idx2 h2
    have h3 := (index.Build_ok lowerTable fs p2 vaultPath files2 idx2 h2).1
    rw [hparts.1] at h3
    exact (Except.ok.inj h3).symm
  · intro pre e post hsplit hfile hlast
    have h1 := hparts.1
    rw [hsplit] at h1
    exact index.walkFold_indexEntry_last lowerTable e post hfile hlast pre _ _ h1

theorem C24_alias_never_overrides_file_witness :
    index.Build sample.asciiTable sample.collisionFS
        (parser.New sample.collisionDecoder sample.collisionFS) "/vault".toList
        sample.collisionDocuments = .ok sample.collisionIndex
    ∧ sample.collisionIndex.aliases.lookup "note".toList = some "/vault/c.md".toList
    ∧ sample.collisionIndex.files.lookup "note".toList = some "/vault/b/note.md".toList
    ∧ filepath.WalkDir sample.collisionFS "/vault".toList (index.indexEntry sample.asciiTable)
        GoMap.empty = .ok sample.collisionIndex.files :=
  ⟨by decide, by decide, by decide,
    (C24_alias_never_overrides_file sample.asciiTable sample.collisionFS
      (parser.New sample.collisionDecoder sample.collisionFS) "/vault".toList
      sample.collisionDocuments sample.collisionIndex (by decide)).1⟩

theorem C25_counterexample :
    main.Run sample.asciiTable sample.yamlDecoder none sample.lockedFS
        { Vault := "/vault".toList, Format := "xml".toList }
      = { stdout := [],
          termination := .returned (some (.wrap (.wrap (.base "permission denied")
            "read file failed") "build index failed")) }
    ∧ (main.Run sample.asciiTable sample.yamlDecoder none sample.lockedFS
        { Vault := "/vault".toList, Format := "xml".toList }).termination
      ≠ .returned (some (main.invalidFormat "xml".toList)) := by
  decide

/-- C25 (amended): `Run` validates the vault before it looks at the output
format.  For a format other than `text` and `json`, `Run` returns the
invalid-format error, without printing anything, when the validation of the
vault succeeds, and returns the error of the validation when it fails. -/
theorem C25_invalid_format_rejected_after_validation (lowerTable : Char → Char)
    (unmarshal : Str → Except GoError parser.Dynamic) (ctxErr : Option GoError)
    (fs : FileSystem) (a : main.application)
    (hjson : a.Format ≠ "json".toList) (htext : a.Format ≠ "text".toList) :
    (∀ result,
      validator.Validate (scanner.New ctxErr fs) (parser.New unmarshal fs)
        (index.New lowerTable fs (parser.New unmarshal fs)) (resolver.New lowerTable) a.Vault
        = .ok result →
      main.Run lowerTable unmarshal ctxErr fs a
        = { stdout := [], termination := .returned (some (main.invalidFormat a.Format)) })
    ∧ (∀ err,
      validator.Validate (scanner.New ctxErr fs) (parser.New unmarshal fs)
        (index.New lowerTable fs (parser.New unmarshal fs)) (resolver.New lowerTable) a.Vault
        = .error err →
      main.Run lowerTable unmarshal ctxErr fs a
        = { stdout := [], termination := .returned (some err) }) := by
  refine ⟨?_, ?_⟩
  · intro result hval
    simp only [main.Run, hval, hjson, htext, if_false]
  · intro err hval
    simp only [main.Run, hval]

theorem C25_invalid_format_rejected_after_validation_witness :
    main.Run sample.asciiTable sample.scenarioDecoder none sample.scenarioFS
        { Vault := "/vault".toList, Format := "xml".toList }
      = { stdout := [],
          termination := .returned (some (.base
            "invalid format: xml (must be \x27text\x27 or \x27json\x27)")) } :=
  (C25_invalid_format_rejected_after_validation sample.asciiTable sample.scenarioDecoder none
    sample.scenarioFS { Vault := "/vault".toList, Format := "xml".toList }
    (by decide) (by decide)).1
    { BrokenLinks := ⟨[("/vault/BrokenLinks.md".toList,
        [{ Link := "[[DoesNotExist]]".toList, Line := 4 },
         { Link := "![[missing.png]]".toList, Line := 6 }])]⟩ }
    (by set_option maxRecDepth 100000 in rfl)

/-- C26: when the validation of the vault succeeds with the result `result`
and the formatter selected by the format option (`json` or `text`) renders it
as `output`, `Run` prints `output` in full; it then ends the process with
status 1 when the result mapping has at least one file key and otherwise
returns nil; so, with a `service.Main` that returns 0 for nil, the process
exits non-zero if and only if the mapping has at least one file key, and exits
zero for a clean vault. -/
theorem C26_exit_status (lowerTable : Char → Char)
    (unmarshal : Str → Except GoError parser.Dynamic) (ctxErr : Option GoError)
    (fs : FileSystem) (a : main.application) (result : model.ValidationResult)
    (f : formatter.Formatter) (output : Str)
    (hval : validator.Validate (scanner.New ctxErr fs) (parser.New unmarshal fs)
        (index.New lowerTable fs (parser.New unmarshal fs)) (resolver.New lowerTable) a.Vault
        = .ok result)
    (hsel : (a.Format = "json".toList ∧ f = formatter.NewJSONFormatter)
      ∨ (a.Format = "text".toList ∧ f = formatter.NewTextFormatter))
    (hout : f.Format result = .ok output) :
    (main.Run lowerTable unmarshal ctxErr fs a).stdout = output
    ∧ (0 < result.BrokenLinks.len →
        (main.Run lowerTable unmarshal ctxErr fs a).termination = .exited 1)
    ∧ (result.BrokenLinks.len = 0 →
        (main.Run lowerTable unmarshal ctxErr fs a).termination = .returned none)
    ∧ (∀ serviceMain : Option GoError → Nat, serviceMain none = 0 →
        (main.exitStatus serviceMain (main.Run lowerTable unmarshal ctxErr fs a) ≠ 0
          ↔ 0 < result.BrokenLinks.len)) := by
  have hrun : main.Run lowerTable unmarshal ctxErr fs a
      = if result.BrokenLinks.len > 0 then { stdout := output, termination := .exited 1 }
        else { stdout := output, termination := .returned none } := by
    rcases hsel with ⟨hfmt, hf⟩ | ⟨hfmt, hf⟩
    · subst hf
      simp only [main.Run, hval, hfmt, if_true, hout]
    · subst hf
      have hne : ¬ "text".toList = "json".toList := by decide
      simp only [main.Run, hval, hfmt, hne, if_true, if_false, hout]
  by_cases hlen : result.BrokenLinks.len > 0
  · rw [hrun, if_pos hlen]
    refine ⟨rfl, fun _ => rfl, fun h0 => absurd h0 (Nat.pos_iff_ne_zero.mp hlen), ?_⟩
    intro serviceMain _
    simp only [main.exitStatus]
    exact ⟨fun _ => hlen, fun _ => by decide⟩
  · rw [hrun, if_neg hlen]
    refine ⟨rfl, fun h0 => absurd h0 hlen, fun _ => rfl, ?_⟩
    intro serviceMain h0
    simp only [main.exitStatus, h0]
    exact ⟨fun h => absurd rfl h, fun h => absurd h hlen⟩

theorem C26_exit_status_witness :
    ((main.Run sample.asciiTable sample.scenarioDecoder none sample.mutualFS
        { Vault := "/vault".toList, Format := "text".toList }).stdout
        = "No broken links found.\n".toList
      ∧ (main.Run sample.asciiTable sample.scenarioDecoder none sample.mutualFS
        { Vault := "/vault".toList, Format := "text".toList }).termination = .returned none)
    ∧ ((main.Run sample.asciiTable sample.scenarioDecoder none sample.scenarioFS
        { Vault := "/vault".toList, Format := "text".toList }).stdout
        = ("Broken links found in vault:\n\n/vault/BrokenLinks.md:\n"
          ++ "  Line 4: [[DoesNotExist]]\n  Line 6: ![[missing.png]]\n\n").toList
      ∧ (main.Run sample.asciiTable sample.scenarioDecoder none sample.scenarioFS
        { Vault := "/vault".toList, Format := "text".toList }).termination = .exited 1) :=
  have clean := C26_exit_status sample.asciiTable sample.scenarioDecoder none sample.mutualFS
    { Vault := "/vault".toList, Format := "text".toList } { BrokenLinks := GoMap.empty }
    formatter.NewTextFormatter "No broken links found.\n".toList
    (by set_option maxRecDepth 100000 in rfl) (Or.inr ⟨rfl, rfl⟩) (by decide)
  have broken := C26_exit_status sample.asciiTable sample.scenarioDecoder none sample.scenarioFS
    { Vault := "/vault".toList, Format := "text".toList }
    { BrokenLinks := ⟨[("/vault/BrokenLinks.md".toList,
        [{ Link := "[[DoesNotExist]]".toList, Line := 4 },
         { Link := "![[missing.png]]".toList, Line := 6 }])]⟩ }
    formatter.NewTextFormatter
    ("Broken links found in vault:\n\n/vault/BrokenLinks.md:\n"
      ++ "  Line 4: [[DoesNotExist]]\n  Line 6: ![[missing.png]]\n\n").toList
    (by set_option maxRecDepth 100000 in rfl) (Or.inr ⟨rfl, rfl⟩) (by decide)
  ⟨⟨clean.1, clean.2.2.1 (by decide)⟩, ⟨broken.1, broken.2.1 (by decide)⟩⟩

/-- C27: for every validation result whose mapping has no file keys the text
formatter returns the text `No broken links found.` with a newline and no
error; this is the rendered result of the validation of the vault of the second
end-to-end scenario, two documents that link only to each other. -/
theorem C27_clean_result_in_text :
    (∀ result : model.ValidationResult, result.BrokenLinks.len = 0 →
      formatter.textFormatter.Format result = .ok "No broken links found.\n".toList)
    ∧ ∀ lowerTable : Char → Char, ∃ result,
      validator.Validate (scanner.New none sample.mutualFS)
        (parser.New sample.scenarioDecoder sample.mutualFS)
        (index.New lowerTable sample.mutualFS
          (parser.New sample.scenarioDecoder sample.mutualFS))
        (resolver.New lowerTable) "/vault".toList = .ok result
      ∧ result.BrokenLinks.len = 0
      ∧ formatter.NewTextFormatter.Format result = .ok "No broken links found.\n".toList := by
  refine ⟨?_, ?_⟩
  · intro result h
    simp only [formatter.textFormatter.Format, h, if_true]
  · intro lowerTable
    exact ⟨{ BrokenLinks := GoMap.empty }, by set_option maxRecDepth 100000 in rfl, rfl, rfl⟩

/-- C28: for a validation result with at least one file key (the keys of a map
are distinct), the text formatter returns the header
`Broken links found in vault:` and an empty line, followed by one section for
each file key, the keys in increasing order; a section is the path and a colon
on one line, then one line `Line N: raw-text` (indented by two spaces) for each
defect in the order of the defect list of the file, then an empty line, also
after the last section; and the output is the same for every order in which
the map yields its entries. -/
theorem C28_text_report (result : model.ValidationResult)
    (hlen : 0 < result.BrokenLinks.len) (hnodup : result.BrokenLinks.keys.Nodup) :
    (∃ files : List Str, files.Perm result.BrokenLinks.keys
        ∧ files.Pairwise (fun a b => sort.less a b = true)
        ∧ formatter.textFormatter.Format result
          = .ok ("Broken links found in vault:\n\n".toList
              ++ (files.map (fun file =>
                    file ++ ":\n".toList
                      ++ ((result.BrokenLinks.index file).map (fun b =>
                            "  Line ".toList ++ strconv.Itoa b.Line ++ ": ".toList ++ b.Link
                              ++ "\n".toList)).flatten
                      ++ "\n".toList)).flatten))
    ∧ ∀ result2 : model.ValidationResult,
        result2.BrokenLinks.entries.Perm result.BrokenLinks.entries →
        formatter.textFormatter.Format result2 = formatter.textFormatter.Format result := by
  refine ⟨⟨sort.Strings result.BrokenLinks.keys, sort.Strings_perm _, ?_, ?_⟩, ?_⟩
  · have hs := sort.Strings_sorted result.BrokenLinks.keys
    have hnd : (sort.Strings result.BrokenLinks.keys).Nodup :=
      (sort.Strings_perm result.BrokenLinks.keys).nodup_iff.mpr hnodup
    unfold List.Sorted at hs
    exact (hs.and hnd).imp (fun hab => sort.less_of_le_of_ne _ _ hab.1 hab.2)
  · exact formatter.textFormat_eq result hlen
  · intro result2 hperm
    have hlen2 : 0 < result2.BrokenLinks.len := by
      unfold GoMap.len at hlen ⊢
      rw [hperm.length_eq]
      exact hlen
    have hkeys : sort.Strings result2.BrokenLinks.keys = sort.Strings result.BrokenLinks.keys :=
      sort.Strings_eq_of_perm _ _ (List.Perm.map Prod.fst hperm)
    have hsec : formatter.fileSection result2.BrokenLinks
        = formatter.fileSection result.BrokenLinks := by
      funext file
      simp only [formatter.fileSection, GoMap.index,
        GoMap.lookup_eq_of_perm result.BrokenLinks result2.BrokenLinks hnodup hperm file]
    rw [formatter.textFormat_eq result hlen, formatter.textFormat_eq result2 hlen2, hkeys, hsec]

theorem C28_text_report_witness :
    formatter.textFormatter.Format
        { BrokenLinks := ⟨[("/vault/zzz.md".toList, [{ Link := "[[Link3]]".toList, Line := 1 }]),
            ("/vault/aaa.md".toList, [{ Link := "[[Dead1]]".toList, Line := 5 },
              { Link := "[[Dead2]]".toList, Line := 10 }])]⟩ }
      = .ok ("Broken links found in vault:\n\n"
          ++ "/vault/aaa.md:\n  Line 5: [[Dead1]]\n  Line 10: [[Dead2]]\n\n"
          ++ "/vault/zzz.md:\n  Line 1: [[Link3]]\n\n").toList
    ∧ formatter.textFormatter.Format
        { BrokenLinks := ⟨[("/vault/aaa.md".toList, [{ Link := "[[Dead1]]".toList, Line := 5 },
              { Link := "[[Dead2]]".toList, Line := 10 }]),
            ("/vault/zzz.md".toList, [{ Link := "[[Link3]]".toList, Line := 1 }])]⟩ }
      = formatter.textFormatter.Format
        { BrokenLinks := ⟨[("/vault/zzz.md".toList, [{ Link := "[[Link3]]".toList, Line := 1 }]),
            ("/vault/aaa.md".toList, [{ Link := "[[Dead1]]".toList, Line := 5 },
              { Link := "[[Dead2]]".toList, Line := 10 }])]⟩ } :=
  ⟨by decide,
    (C28_text_report
      { BrokenLinks := ⟨[("/vault/zzz.md".toList, [{ Link := "[[Link3]]".toList, Line := 1 }]),
          ("/vault/aaa.md".toList, [{ Link := "[[Dead1]]".toList, Line := 5 },
            { Link := "[[Dead2]]".toList, Line := 10 }])]⟩ }
      (by decide) (by decide)).2
      { BrokenLinks := ⟨[("/vault/aaa.md".toList, [{ Link := "[[Dead1]]".toList, Line := 5 },
            { Link := "[[Dead2]]".toList, Line := 10 }]),
          ("/vault/zzz.md".toList, [{ Link := "[[Link3]]".toList, Line := 1 }])]⟩ }
      (List.Perm.swap _ _ [])⟩

/-- C29, as stated, fails: for the result whose map is nil the JSON formatter
writes `null`, not the empty object; and for a result with the link text `[[`,
the byte `0xe9`, `]]`, which is not valid UTF-8, the output holds the escape
for U+FFFD in place of the byte, so decoding it yields another link text. -/
theorem C29_counterexample :
    formatter.jsonFormatter.Format { BrokenLinks := .isNil } = .ok "null\n".toList
    ∧ "null\n".toList ≠ "\x7b\x7d\n".toList
    ∧ (formatter.jsonFormatter.Format
        { BrokenLinks := .entries [(json.Text.ofStr "/vault/a.md".toList,
            .items [{ Link := [.rune '[', .rune '[', .invalid 0xe9, .rune ']', .rune ']'],
                      Line := 1 }])] }).toOption.bind json.decode
      = some (.entries [(json.Text.ofStr "/vault/a.md".toList,
            .items [{ Link := [.rune '[', .rune '[', .rune (Char.ofNat 0xfffd), .rune ']',
                        .rune ']'],
                      Line := 1 }])])
    ∧ (formatter.jsonFormatter.Format
        { BrokenLinks := .entries [(json.Text.ofStr "/vault/a.md".toList,
            .items [{ Link := [.rune '[', .rune '[', .invalid 0xe9, .rune ']', .rune ']'],
                      Line := 1 }])] }).toOption.bind json.decode
      ≠ some (.entries [(json.Text.ofStr "/vault/a.md".toList,
            .items [{ Link := [.rune '[', .rune '[', .invalid 0xe9, .rune ']', .rune ']'],
                      Line := 1 }])]) := by
  set_option maxRecDepth 100000 in
  decide

/-- C29, amended: for every validation result the JSON formatter returns no
error.  When the file paths and the link texts of the result are valid UTF-8,
its output, decoded as a JSON value of file path to list of records with the
fields `link` and `line`, is a map that is nil exactly when the map of the
result is nil and that holds under every key the slice the result holds under
it, with the same link texts and line numbers in the same order, and has no
other key.  A map that is empty and not nil is written as the empty object and
a newline, and a nil map as `null` and a newline.  The Go value a result of
`Validate` stands for is valid and its map is not nil, so a result of
`Validate` without defects is written as the empty object. -/
theorem C29_json_round_trip (result : json.ValidationResult) :
    (∃ output, formatter.jsonFormatter.Format result = .ok output)
    ∧ (result.BrokenLinks.valid = true →
        ∃ output decoded, formatter.jsonFormatter.Format result = .ok output
          ∧ json.decode output = some decoded
          ∧ (decoded = .isNil ↔ result.BrokenLinks = .isNil)
          ∧ ∀ k, decoded.lookup k = result.BrokenLinks.lookup k)
    ∧ (result.BrokenLinks = .entries [] →
        formatter.jsonFormatter.Format result = .ok "\x7b\x7d\n".toList)
    ∧ (result.BrokenLinks = .isNil →
        formatter.jsonFormatter.Format result = .ok "null\n".toList)
    ∧ ∀ r : model.ValidationResult,
        formatter.NewJSONFormatter.Format r = formatter.jsonFormatter.Format (json.ofResult r)
        ∧ (json.ofResult r).BrokenLinks.valid = true
        ∧ (json.ofResult r).BrokenLinks ≠ .isNil
        ∧ (r.BrokenLinks.len = 0 →
            formatter.NewJSONFormatter.Format r = .ok "\x7b\x7d\n".toList) := by
  refine ⟨?_, ?_, ?_, ?_, ?_⟩
  · cases hm : result.BrokenLinks with
    | isNil =>
        refine ⟨"null".toList ++ "\n".toList, ?_⟩
        simp only [formatter.jsonFormatter.Format, hm, json.MarshalIndent]
    | entries es =>
        obtain ⟨bytes, hbytes, _⟩ := json.decode_MarshalIndent es
        refine ⟨bytes ++ "\n".toList, ?_⟩
        simp only [formatter.jsonFormatter.Format, hm, hbytes]
  · intro hvalid
    cases hm : result.BrokenLinks with
    | isNil =>
        refine ⟨"null\n".toList, .isNil, ?_, by decide, ?_, fun k => rfl⟩
        · simp only [formatter.jsonFormatter.Format, hm, json.MarshalIndent]
          rfl
        · exact ⟨fun _ => rfl, fun _ => rfl⟩
    | entries es =>
        rw [hm] at hvalid
        obtain ⟨bytes, decoded, hbytes, hdecode, hlookup⟩ := json.decode_valid es hvalid
        refine ⟨bytes ++ "\n".toList, .entries decoded, ?_, hdecode, ?_, hlookup⟩
        · simp only [formatter.jsonFormatter.Format, hm, hbytes]
        · exact ⟨fun h => (by cases h), fun h => (by cases h)⟩
  · intro hm
    simp only [formatter.jsonFormatter.Format, hm]
    rfl
  · intro hm
    simp only [formatter.jsonFormatter.Format, hm]
    rfl
  · intro r
    refine ⟨rfl, json.valid_ofResult r, fun h => (by cases h), ?_⟩
    intro hlen
    have hentries : r.BrokenLinks.entries = [] := List.length_eq_zero.mp hlen
    simp only [formatter.NewJSONFormatter, formatter.jsonFormatter.Format, json.ofResult,
      hentries, List.map_nil]
    rfl

/-- C29, amended, at the result of the test of the JSON formatter: two
documents, the first with two defects. -/
theorem C29_json_round_trip_witness :
    (json.ofResult
      { BrokenLinks := ⟨[("/vault/file2.md".toList,
            [{ Link := "![[missing.png]]".toList, Line := 3 }]),
          ("/vault/file1.md".toList,
            [{ Link := "[[Dead1]]".toList, Line := 5 },
             { Link := "[[Dead2]]".toList, Line := 10 }])]⟩ }).BrokenLinks.valid = true
    ∧ (formatter.NewJSONFormatter.Format
      { BrokenLinks := ⟨[("/vault/file2.md".toList,
            [{ Link := "![[missing.png]]".toList, Line := 3 }]),
          ("/vault/file1.md".toList,
            [{ Link := "[[Dead1]]".toList, Line := 5 },
             { Link := "[[Dead2]]".toList, Line := 10 }])]⟩ }).toOption.bind json.decode
      = some (.entries
          [(json.Text.ofStr "/vault/file1.md".toList,
            .items [{ Link := json.Text.ofStr "[[Dead1]]".toList, Line := 5 },
                    { Link := json.Text.ofStr "[[Dead2]]".toList, Line := 10 }]),
           (json.Text.ofStr "/vault/file2.md".toList,
            .items [{ Link := json.Text.ofStr "![[missing.png]]".toList, Line := 3 }])])
    ∧ ∃ output decoded,
        formatter.jsonFormatter.Format (json.ofResult
          { BrokenLinks := ⟨[("/vault/file2.md".toList,
                [{ Link := "![[missing.png]]".toList, Line := 3 }]),
              ("/vault/file1.md".toList,
                [{ Link := "[[Dead1]]".toList, Line := 5 },
                 { Link := "[[Dead2]]".toList, Line := 10 }])]⟩ }) = .ok output
        ∧ json.decode output = some decoded
        ∧ (decoded = .isNil ↔ (json.ofResult
          { BrokenLinks := ⟨[("/vault/file2.md".toList,
                [{ Link := "![[missing.png]]".toList, Line := 3 }]),
              ("/vault/file1.md".toList,
                [{ Link := "[[Dead1]]".toList, Line := 5 },
                 { Link := "[[Dead2]]".toList, Line := 10 }])]⟩ }).BrokenLinks = .isNil)
        ∧ ∀ k, decoded.lookup k = (json.ofResult
          { BrokenLinks := ⟨[("/vault/file2.md".toList,
                [{ Link := "![[missing.png]]".toList, Line := 3 }]),
              ("/vault/file1.md".toList,
                [{ Link := "[[Dead1]]".toList, Line := 5 },
                 { Link := "[[Dead2]]".toList, Line := 10 }])]⟩ }).BrokenLinks.lookup k :=
  ⟨by decide, by set_option maxRecDepth 100000 in decide,
    (C29_json_round_trip (json.ofResult
      { BrokenLinks := ⟨[("/vault/file2.md".toList,
            [{ Link := "![[missing.png]]".toList, Line := 3 }]),
          ("/vault/file1.md".toList,
            [{ Link := "[[Dead1]]".toList, Line := 5 },
             { Link := "[[Dead2]]".toList, Line := 10 }])]⟩ })).2.1 (by decide)⟩

/-- C30: the links `parseContent` returns for a text have non-decreasing line
numbers, and the links that carry the number of one line are the occurrences
in that line from left to right, without overlap; so, when the scanner lists
no document twice, every defect list of the result of `Validate` with the
parser of the program has non-decreasing line numbers. -/
theorem C30_document_order :
    (∀ content : Str,
      ((parser.parseContent content).map (fun l => l.Line)).Sorted (fun a b => a ≤ b)
      ∧ ∀ i line, (strings.Split '\n' content).get? i = some line →
          parser.OccursInOrder
            (((parser.parseContent content).filter
              (fun l => decide (l.Line = i + 1))).map (fun l => l.Raw)) line)
    ∧ ∀ (unmarshal : Str → Except GoError parser.Dynamic) (fs : FileSystem)
        (s : scanner.Scanner) (b : index.Builder) (r : resolver.Resolver) (vaultPath : Str)
        (files : List Str) (result : model.ValidationResult),
        s.Scan vaultPath = .ok files → files.Nodup →
        validator.Validate s (parser.New unmarshal fs) b r vaultPath = .ok result →
        ∀ file links, result.BrokenLinks.lookup file = some links →
          (links.map (fun d => d.Line)).Sorted (fun a b => a ≤ b) := by
  refine ⟨?_, ?_⟩
  · intro content
    refine ⟨parser.parseLines_sorted _ 0, ?_⟩
    intro i line hline
    have hfilter := parser.parseLines_filter_line _ 0 i line hline
    simp only [Nat.zero_add] at hfilter
    unfold parser.parseContent
    rw [hfilter]
    unfold parser.FindAllStringSubmatch
    rw [(parser.parseMatches_findAllFrom i line 0).1]
    have := parser.findAllFrom_in_order line 0
    simpa only [List.drop_zero] using this
  · intro unmarshal fs s b r vaultPath files result hscan hnodup hval file links hlookup
    obtain ⟨files2, idx, hscan2, _, hvf⟩ :=
      validator.Validate_ok s (parser.New unmarshal fs) b r vaultPath result hval
    rw [hscan] at hscan2
    cases hscan2
    obtain ⟨hparsed, hother, _, _, hindex, _⟩ :=
      validator.validateFiles_spec (parser.New unmarshal fs) r idx files GoMap.empty
        result.BrokenLinks hvf
    have hmem : file ∈ files := by
      by_contra hnot
      have := hother file hnot
      rw [hlookup] at this
      cases this
    obtain ⟨links0, hparse⟩ := hparsed file hmem
    have hidx := hindex hnodup file hmem links0 hparse
    have hlinks : links = validator.unresolvedRecords r idx links0 := by
      have h1 : result.BrokenLinks.index file = links := by
        simp only [GoMap.index, hlookup, Option.getD_some]
      rw [← h1, hidx]
      rfl
    have hsorted : (links0.map (fun l => l.Line)).Sorted (fun a b => a ≤ b) := by
      have hp : parser.ParseFile fs file = .ok links0 := hparse
      unfold parser.ParseFile at hp
      cases hread : fs.readFile file with
      | error err => rw [hread] at hp; cases hp
      | ok content =>
          rw [hread] at hp
          simp only [Except.ok.injEq] at hp
          rw [← hp]
          exact parser.parseLines_sorted _ 0
    rw [hlinks]
    simp only [validator.unresolvedRecords, List.map_map]
    exact List.Pairwise.sublist
      (List.Sublist.map (fun l : model.Link => l.Line) (List.filter_sublist links0)) hsorted

/-- C31: for every non-empty target `T` without `]`, `|`, `#` and newline and
without leading or trailing white space, every optional heading `H` without
`]`, `|` and newline and without leading or trailing white space, every
optional alias `A` without `]` and newline, and every embed flag `E`,
`parseContent` applied to the text `!` (when `E`), `[[`, `T`, `#` and `H` (when
present), `|` and `A` (when present), `]]` returns exactly one link: its raw
text is the whole text, its target is `T`, its heading is `H` (empty when
absent), its alias is `A` (empty when absent), its embed flag is `E` and its
line is 1. -/
theorem C31_well_formed_round_trip (T : Str) (H A : Option Str) (E : Bool)
    (hT1 : T ≠ [])
    (hT2 : ∀ c ∈ T, c ≠ ']' ∧ c ≠ '|' ∧ c ≠ '#' ∧ c ≠ '\n')
    (hT3 : strings.isTrimmed T = true)
    (hH : ∀ h, H = some h →
      (∀ c ∈ h, c ≠ ']' ∧ c ≠ '|' ∧ c ≠ '\n') ∧ strings.isTrimmed h = true)
    (hA : ∀ a, A = some a → ∀ c ∈ a, c ≠ ']' ∧ c ≠ '\n') :
    ∃ l : model.Link,
      parser.parseContent
          ((if E then "!".toList else []) ++ "[[".toList ++ T ++ parser.headingPart H
            ++ parser.aliasPart A ++ "]]".toList) = [l]
      ∧ l.Raw = (if E then "!".toList else []) ++ "[[".toList ++ T ++ parser.headingPart H
            ++ parser.aliasPart A ++ "]]".toList
      ∧ l.Target = T ∧ l.Heading = H.getD [] ∧ l.Alias = A.getD []
      ∧ l.IsEmbed = E ∧ l.Line = 1 :=
  ⟨_, parser.parseContent_synthesize T H A E hT1 hT2 hT3 hH hA, rfl, rfl, rfl, rfl, rfl, rfl⟩

theorem C31_well_formed_round_trip_witness :
    parser.parseContent "[[Project Plan#Open items|the plan | draft]]".toList
      = [{ Raw := "[[Project Plan#Open items|the plan | draft]]".toList,
           Target := "Project Plan".toList, Heading := "Open items".toList,
           Alias := "the plan | draft".toList, IsEmbed := false, Line := 1 }]
    ∧ ∃ l : model.Link,
      parser.parseContent
          ((if false then "!".toList else []) ++ "[[".toList ++ "Project Plan".toList
            ++ parser.headingPart (some "Open items".toList)
            ++ parser.aliasPart (some "the plan | draft".toList) ++ "]]".toList) = [l]
      ∧ l.Raw = (if false then "!".toList else []) ++ "[[".toList ++ "Project Plan".toList
            ++ parser.headingPart (some "Open items".toList)
            ++ parser.aliasPart (some "the plan | draft".toList) ++ "]]".toList
      ∧ l.Target = "Project Plan".toList
      ∧ l.Heading = (some "Open items".toList).getD []
      ∧ l.Alias = (some "the plan | draft".toList).getD []
      ∧ l.IsEmbed = false ∧ l.Line = 1 :=
  ⟨by decide,
    C31_well_formed_round_trip "Project Plan".toList (some "Open items".toList)
      (some "the plan | draft".toList) false (by decide) (by decide) (by decide)
      (fun h hh => by
        cases hh
        exact ⟨by decide, by decide⟩)
      (fun a ha => by
        cases ha
        decide)⟩

/-- C32: for every index and any two targets `x` and `y` that are equal after
lowercasing and of which both or neither end in the exact suffix `.md`, the
normalized forms are equal, so `Resolve(x) = Resolve(y)`, and the resolver
gives two links with these targets the same answer. -/
theorem C32_case_insensitive_up_to_suffix (lowerTable : Char → Char)
    (idx : index.VaultIndex) (x y : Str)
    (hlow : strings.ToLower lowerTable x = strings.ToLower lowerTable y)
    (hsuf : strings.HasSuffix x ".md".toList = strings.HasSuffix y ".md".toList) :
    index.normalizeTarget lowerTable x = index.normalizeTarget lowerTable y
    ∧ idx.Resolve lowerTable x = idx.Resolve lowerTable y
    ∧ ∀ link1 link2 : model.Link, link1.Target = x → link2.Target = y →
        resolver.Resolve lowerTable link1 idx = resolver.Resolve lowerTable link2 idx := by
  have hnorm := index.normalizeTarget_congr lowerTable hlow hsuf
  have hres := index.Resolve_eq_of_normalizeTarget_eq lowerTable idx hnorm
  refine ⟨hnorm, hres, ?_⟩
  intro link1 link2 h1 h2
  simp only [resolver.Resolve, h1, h2, hres]

theorem C32_case_insensitive_up_to_suffix_witness :
    strings.ToLower sample.asciiTable "NOTE.md".toList
      = strings.ToLower sample.asciiTable "note.md".toList
    ∧ strings.HasSuffix "NOTE.md".toList ".md".toList = true
    ∧ strings.HasSuffix "note.md".toList ".md".toList = true
    ∧ index.normalizeTarget sample.asciiTable "NOTE.md".toList = "note".toList
    ∧ index.normalizeTarget sample.asciiTable "NOTE.md".toList
      = index.normalizeTarget sample.asciiTable "note.md".toList
    ∧ sample.vaultIndex.Resolve sample.asciiTable "NOTE.md".toList
      = sample.vaultIndex.Resolve sample.asciiTable "note.md".toList :=
  have h := C32_case_insensitive_up_to_suffix sample.asciiTable sample.vaultIndex
    "NOTE.md".toList "note.md".toList (by decide) (by decide)
  ⟨by decide, by decide, by decide, by decide, h.1, h.2.1⟩

/-- C33: in a vault whose walked files have a name (a path that does not
consist of separators only), with a lower-case table that yields no separator,
the files mapping that `Build` returns has no key with a separator; so a target
`t` that contains `/` resolves if and only if a document of the list declares
an alias whose normalized form is that of `t`, and `Validate` lists every link
whose target contains `/` as a defect of its document unless such an alias is
declared, also when the path names a file of the vault. -/
theorem C33_folder_paths_never_match_a_file (lowerTable : Char → Char)
    (unmarshal : Str → Except GoError parser.Dynamic) (fs : FileSystem) (vaultPath : Str)
    (hlow : ∀ c : Char, 0x7F < c.toNat → lowerTable c ≠ '/')
    (hpaths : ∀ e ∈ fs.walk vaultPath, e.isDir = false → ∃ c ∈ e.path, c ≠ '/') :
    (∀ files idx t,
      index.Build lowerTable fs (parser.New unmarshal fs) vaultPath files = .ok idx →
      '/' ∈ t →
      idx.files.hasKey (index.normalizeTarget lowerTable t) = false
      ∧ (idx.Resolve lowerTable t = true ↔
          ∃ f ∈ files, ∃ content declared, fs.readFile f = .ok content
            ∧ parser.ParseAliases unmarshal content = .ok declared
            ∧ ∃ a ∈ declared,
                index.normalizeTarget lowerTable a = index.normalizeTarget lowerTable t))
    ∧ (∀ (s : scanner.Scanner) files result,
      s.Scan vaultPath = .ok files →
      validator.Validate s (parser.New unmarshal fs)
        (index.New lowerTable fs (parser.New unmarshal fs)) (resolver.New lowerTable) vaultPath
        = .ok result →
      ∀ doc ∈ files, ∀ content, fs.readFile doc = .ok content →
      ∀ l ∈ parser.parseContent content, '/' ∈ l.Target →
        ({ Link := l.Raw, Line := l.Line } : model.BrokenLink) ∈ result.BrokenLinks.index doc
        ∨ ∃ f ∈ files, ∃ content2 declared, fs.readFile f = .ok content2
            ∧ parser.ParseAliases unmarshal content2 = .ok declared
            ∧ ∃ a ∈ declared,
                index.normalizeTarget lowerTable a
                  = index.normalizeTarget lowerTable l.Target) := by
  have hfiles : ∀ files idx t,
      index.Build lowerTable fs (parser.New unmarshal fs) vaultPath files = .ok idx →
      '/' ∈ t → idx.files.hasKey (index.normalizeTarget lowerTable t) = false := by
    intro files idx t hbuild ht
    cases hk : idx.files.hasKey (index.normalizeTarget lowerTable t) with
    | false => rfl
    | true =>
        exfalso
        obtain ⟨e, he, hdir, hnorm⟩ :=
          (index.Build_Resolve_iff lowerTable fs _ vaultPath files idx hbuild t).1.mp hk
        have hsep : '/' ∈ index.normalizeTarget lowerTable (filepath.Base e.path) := by
          rw [hnorm]
          exact index.normalizeTarget_separator lowerTable t ht
        have hbase := index.normalizeTarget_no_separator lowerTable hlow _ hsep
        obtain ⟨c, hc, hne⟩ := hpaths e he hdir
        exact hne (filepath.Base_separator e.path hbase c hc)
  have hiff : ∀ files idx t,
      index.Build lowerTable fs (parser.New unmarshal fs) vaultPath files = .ok idx →
      '/' ∈ t →
      (idx.Resolve lowerTable t = true ↔
          ∃ f ∈ files, ∃ content declared, fs.readFile f = .ok content
            ∧ parser.ParseAliases unmarshal content = .ok declared
            ∧ ∃ a ∈ declared,
                index.normalizeTarget lowerTable a = index.normalizeTarget lowerTable t) := by
    intro files idx t hbuild ht
    rw [index.Resolve_iff, hfiles files idx t hbuild ht]
    simp only [Bool.false_eq_true, false_or]
    exact (index.Build_Resolve_iff lowerTable fs _ vaultPath files idx hbuild t).2
  refine ⟨fun files idx t hbuild ht => ⟨hfiles files idx t hbuild ht, hiff files idx t hbuild ht⟩,
    ?_⟩
  intro s files result hscan hval doc hdoc content hread l hl ht
  obtain ⟨files2, idx, hscan2, hbuild, hlist⟩ := validator.Validate_lists s _ _ _ vaultPath result hval
  rw [hscan] at hscan2
  cases hscan2
  have hparse : (parser.New unmarshal fs).ParseFile doc = .ok (parser.parseContent content) := by
    simp only [parser.New, parser.ParseFile, hread]
  cases hres : idx.Resolve lowerTable l.Target with
  | false =>
      exact Or.inl (hlist doc hdoc _ hparse l hl hres)
  | true =>
      exact Or.inr ((hiff files idx l.Target hbuild ht).mp hres)

theorem C33_folder_paths_never_match_a_file_witness :
    validator.Validate (scanner.New none sample.folderFS)
        (parser.New sample.scenarioDecoder sample.folderFS)
        (index.New sample.asciiTable sample.folderFS
          (parser.New sample.scenarioDecoder sample.folderFS))
        (resolver.New sample.asciiTable) "/vault".toList = .ok sample.folderResult
    ∧ ({ Link := "[[folder/Note]]".toList, Line := 1 } : model.BrokenLink)
        ∈ sample.folderResult.BrokenLinks.index "/vault/Index.md".toList
    ∧ (∀ files idx t,
        index.Build sample.asciiTable sample.folderFS
          (parser.New sample.scenarioDecoder sample.folderFS) "/vault".toList files = .ok idx →
        '/' ∈ t →
        idx.files.hasKey (index.normalizeTarget sample.asciiTable t) = false
        ∧ (idx.Resolve sample.asciiTable t = true ↔
            ∃ f ∈ files, ∃ content declared, sample.folderFS.readFile f = .ok content
              ∧ parser.ParseAliases sample.scenarioDecoder content = .ok declared
              ∧ ∃ a ∈ declared,
                  index.normalizeTarget sample.asciiTable a
                    = index.normalizeTarget sample.asciiTable t)) :=
  ⟨by set_option maxRecDepth 100000 in decide, by decide,
    (C33_folder_paths_never_match_a_file sample.asciiTable sample.scenarioDecoder
      sample.folderFS "/vault".toList
      (fun c hc h => by
        have h2 : c = '/' := h
        rw [h2] at hc
        exact absurd hc (by decide))
      (by decide)).1⟩

/-- C34: every link extracted from a text whose raw text starts with `[[#` or
`![[#` has an empty target; in the index `Build` returns the empty target
resolves if and only if a walked file has the base name `.md` or a document of
the list declares the alias `.md` or the empty alias; so `Validate` lists every
such occurrence as a defect of its document, unless the vault has such a file
or alias. -/
theorem C34_heading_only_references (lowerTable : Char → Char)
    (unmarshal : Str → Except GoError parser.Dynamic) (fs : FileSystem) (vaultPath : Str) :
    (∀ content, ∀ l ∈ parser.parseContent content,
      (strings.HasPrefix l.Raw "[[#".toList = true
        ∨ strings.HasPrefix l.Raw "![[#".toList = true) → l.Target = [])
    ∧ (∀ files idx,
      index.Build lowerTable fs (parser.New unmarshal fs) vaultPath files = .ok idx →
      (idx.Resolve lowerTable [] = true ↔
        ((∃ e ∈ fs.walk vaultPath, e.isDir = false ∧ filepath.Base e.path = ".md".toList)
          ∨ ∃ f ∈ files, ∃ content declared, fs.readFile f = .ok content
              ∧ parser.ParseAliases unmarshal content = .ok declared
              ∧ ∃ a ∈ declared, a = [] ∨ a = ".md".toList)))
    ∧ (∀ (s : scanner.Scanner) files result,
      s.Scan vaultPath = .ok files →
      validator.Validate s (parser.New unmarshal fs)
        (index.New lowerTable fs (parser.New unmarshal fs)) (resolver.New lowerTable) vaultPath
        = .ok result →
      ∀ doc ∈ files, ∀ content, fs.readFile doc = .ok content →
      ∀ l ∈ parser.parseContent content,
        (strings.HasPrefix l.Raw "[[#".toList = true
          ∨ strings.HasPrefix l.Raw "![[#".toList = true) →
        ({ Link := l.Raw, Line := l.Line } : model.BrokenLink) ∈ result.BrokenLinks.index doc
        ∨ (∃ e ∈ fs.walk vaultPath, e.isDir = false ∧ filepath.Base e.path = ".md".toList)
        ∨ ∃ f ∈ files, ∃ content2 declared, fs.readFile f = .ok content2
            ∧ parser.ParseAliases unmarshal content2 = .ok declared
            ∧ ∃ a ∈ declared, a = [] ∨ a = ".md".toList) := by
  refine ⟨fun content l hl hraw => parser.Target_of_heading_only content l hl hraw,
    fun files idx hbuild =>
      index.Build_Resolve_nil_iff lowerTable fs _ vaultPath files idx hbuild, ?_⟩
  intro s files result hscan hval doc hdoc content hread l hl hraw
  obtain ⟨files2, idx, hscan2, hbuild, hlist⟩ :=
    validator.Validate_lists s _ _ _ vaultPath result hval
  rw [hscan] at hscan2
  cases hscan2
  have hparse : (parser.New unmarshal fs).ParseFile doc = .ok (parser.parseContent content) := by
    simp only [parser.New, parser.ParseFile, hread]
  have htarget := parser.Target_of_heading_only content l hl hraw
  cases hres : idx.Resolve lowerTable l.Target with
  | false =>
      exact Or.inl (hlist doc hdoc _ hparse l hl hres)
  | true =>
      rw [htarget] at hres
      exact Or.inr
        ((index.Build_Resolve_nil_iff lowerTable fs _ vaultPath files idx hbuild).mp hres)

theorem C34_heading_only_references_witness :
    parser.parseContent "See [[folder/Note]] and [[#Top]]\nAlso [[Note]]".toList
      = [{ Raw := "[[folder/Note]]".toList, Target := "folder/Note".toList, Heading := [],
           Alias := [], IsEmbed := false, Line := 1 },
         { Raw := "[[#Top]]".toList, Target := [], Heading := "Top".toList,
           Alias := [], IsEmbed := false, Line := 1 },
         { Raw := "[[Note]]".toList, Target := "Note".toList, Heading := [],
           Alias := [], IsEmbed := false, Line := 2 }]
    ∧ validator.Validate (scanner.New none sample.folderFS)
        (parser.New sample.scenarioDecoder sample.folderFS)
        (index.New sample.asciiTable sample.folderFS
          (parser.New sample.scenarioDecoder sample.folderFS))
        (resolver.New sample.asciiTable) "/vault".toList = .ok sample.folderResult
    ∧ ({ Link := "[[#Top]]".toList, Line := 1 } : model.BrokenLink)
        ∈ sample.folderResult.BrokenLinks.index "/vault/Index.md".toList
    ∧ (∀ content, ∀ l ∈ parser.parseContent content,
        (strings.HasPrefix l.Raw "[[#".toList = true
          ∨ strings.HasPrefix l.Raw "![[#".toList = true) → l.Target = []) :=
  ⟨by decide, by set_option maxRecDepth 100000 in decide, by decide,
    (C34_heading_only_references sample.asciiTable sample.scenarioDecoder sample.folderFS
      "/vault".toList).1⟩

/-- C35: for every body `b` none of whose lines is `---`, the text `---`,
newline, `b`, newline, `---` without a newline behind the closing marker has no
metadata block, and `ParseAliases` returns no aliases and no error for it
whatever `b` declares; with a newline behind the closing marker the metadata
block is `b`, and `ParseAliases` returns the aliases of the value the decoder
returns for `b` (none when `b` is empty or the decoder fails). -/
theorem C35_closing_marker_needs_newline (unmarshal : Str → Except GoError parser.Dynamic)
    (b : Str) (hb : "---".toList ∉ strings.Split '\n' b) :
    (parser.extractFrontmatter ("---\n".toList ++ b ++ "\n---".toList) = []
      ∧ parser.ParseAliases unmarshal ("---\n".toList ++ b ++ "\n---".toList) = .ok [])
    ∧ parser.extractFrontmatter ("---\n".toList ++ b ++ "\n---\n".toList) = b
    ∧ (∀ v, b ≠ [] → unmarshal b = .ok v →
        parser.ParseAliases unmarshal ("---\n".toList ++ b ++ "\n---\n".toList)
          = .ok (parser.aliasesOfValue v))
    ∧ (∀ e, unmarshal b = .error e →
        parser.ParseAliases unmarshal ("---\n".toList ++ b ++ "\n---\n".toList) = .ok [])
    ∧ (b = [] →
        parser.ParseAliases unmarshal ("---\n".toList ++ b ++ "\n---\n".toList) = .ok []) := by
  have hopen := parser.extractFrontmatter_open_end b hb
  have hclosed : parser.extractFrontmatter ("---\n".toList ++ b ++ "\n---\n".toList) = b := by
    have h := parser.extractFrontmatter_closed b [] hb
    rw [List.append_nil] at h
    exact h
  refine ⟨⟨hopen, ?_⟩, hclosed, ?_, ?_, ?_⟩
  · rw [parser.ParseAliases_eq, hopen]
    rfl
  · intro v hne hv
    rw [parser.ParseAliases_eq, hclosed, if_neg hne, hv]
    cases v <;> rfl
  · intro e he
    rw [parser.ParseAliases_eq, hclosed, he]
    by_cases hne : b = []
    · rw [if_pos hne]
    · rw [if_neg hne]
  · intro hnil
    rw [parser.ParseAliases_eq, hclosed, if_pos hnil]

theorem C35_closing_marker_needs_newline_witness :
    "---".toList ∉ strings.Split '\n' "aliases: [AI, 42, ML]".toList
    ∧ parser.ParseAliases sample.yamlDecoder "---\naliases: [AI, 42, ML]\n---".toList = .ok []
    ∧ parser.ParseAliases sample.yamlDecoder "---\naliases: [AI, 42, ML]\n---\n".toList
        = .ok ["AI".toList, "ML".toList]
    ∧ parser.extractFrontmatter
        ("---\n".toList ++ "aliases: [AI, 42, ML]".toList ++ "\n---".toList) = []
    ∧ parser.extractFrontmatter
        ("---\n".toList ++ "aliases: [AI, 42, ML]".toList ++ "\n---\n".toList)
        = "aliases: [AI, 42, ML]".toList :=
  have h := C35_closing_marker_needs_newline sample.yamlDecoder "aliases: [AI, 42, ML]".toList
    (by decide)
  ⟨by decide, by decide, by decide, h.1.1, h.2.1⟩

end ObsidianLint
